import Mathlib

/-!
Verification of the Dancing-Links (DLX) Sudoku solver (`sandbox.py`).

The solver is embedded shallowly: the Python object graph of `Node`s is
modelled as an arena of node identifiers (`Nat`), the mutable pointer
fields (`llink`, `rlink`, `ulink`, `dlink`, `c`, `s`) become total
functions from identifiers, and the destructive updates of the source
become functional updates.  Node `0` is the master header, nodes
`1..m` are the column headers (in the order of the sorted constraint
universe, exactly as `create_column_headers` allocates them) and the
row nodes follow, four per option, in creation order, exactly as
`create_rows` allocates them.  The unbounded `while` loops of the
source are given explicit fuel and return `none` when the fuel runs
out, so `some` results correspond to actual terminating runs of the
Python code.
-/

namespace DlxSudoku

/-- Pointwise functional update, the effect of one Python attribute
assignment on an arena field. -/
def upd (f : Nat → Nat) (a v : Nat) : Nat → Nat :=
  fun x => if x = a then v else f x

/-- Functional update for the integer-valued `s` field. -/
def updZ (f : Nat → Int) (a : Nat) (v : Int) : Nat → Int :=
  fun x => if x = a then v else f x

/-- A board is a list of rows of numbers, as in the Python source
(`0` means blank). -/
abbrev Board := List (List Nat)

/-- `self.size` in `DLXSudoku`. -/
def size : Nat := 9

/-- `self.numbers = set(range(1, 10))`; CPython iterates this small-int
set in ascending order. -/
def numbers : List Nat := [1, 2, 3, 4, 5, 6, 7, 8, 9]

/-- `self.board[i]` (out-of-range reads never occur on 9x9 boards). -/
def getRow (b : Board) (i : Nat) : List Nat := b.getD i []

/-- `self.board[i][j]`. -/
def getCell (b : Board) (i j : Nat) : Nat := (getRow b i).getD j 0

/-- `board[i][j] = v`. -/
def setCell (b : Board) (i j v : Nat) : Board :=
  b.set i ((getRow b i).set j v)

/-- `DLXSudoku.is_valid_move`: row check, column check, 3x3 box check. -/
def isValidMove (b : Board) (i j k : Nat) : Bool :=
  if (getRow b i).contains k then false
  else if (List.range size).any (fun r => getCell b r j == k) then false
  else
    let boxRow := 3 * (i / 3)
    let boxCol := 3 * (j / 3)
    if (List.range' boxRow 3).any (fun r =>
        (List.range' boxCol 3).any (fun c => getCell b r c == k)) then false
    else true

/-- `DLXSudoku.valid_moves`: for each blank cell, all valid candidates,
in row-major cell order with candidates ascending. -/
def validMoves (b : Board) : List (Nat × Nat × Nat) :=
  (List.range size).flatMap fun i =>
    (List.range size).flatMap fun j =>
      if getCell b i j == 0 then
        (numbers.filter (fun k => isValidMove b i j k)).map (fun k => (i, j, k))
      else []

/-- The four constraint labels of the option `(i, j, k)`:
`("p{i}{j}", "r{i}{k}", "c{j}{k}", "b{box}{k}")`. -/
def mkOption (i j k : Nat) : List String :=
  let box := 3 * (i / 3) + j / 3
  ["p" ++ toString i ++ toString j,
   "r" ++ toString i ++ toString k,
   "c" ++ toString j ++ toString k,
   "b" ++ toString box ++ toString k]

/-- `DLXSudoku.get_all_options`. -/
def getAllOptions (b : Board) : List (List String) :=
  (validMoves b).map (fun m => mkOption m.1 m.2.1 m.2.2)

/-- Python string `<`: lexicographic comparison of code points. -/
def strLtAux : List Char → List Char → Bool
  | [], [] => false
  | [], _ :: _ => true
  | _ :: _, [] => false
  | a :: as, b :: bs =>
    if a.toNat < b.toNat then true
    else if b.toNat < a.toNat then false
    else strLtAux as bs

/-- Python string `<` on `String`. -/
def strLt (a b : String) : Bool := strLtAux a.data b.data

/-- Insert into a sorted list (ascending by `strLt`). -/
def insertSorted (x : String) : List String → List String
  | [] => [x]
  | y :: ys => if strLt x y then x :: y :: ys else y :: insertSorted x ys

/-- Sort a list ascending by `strLt` (insertion sort). -/
def sortStr : List String → List String
  | [] => []
  | x :: xs => insertSorted x (sortStr xs)

/-- `DLXSudoku.get_constraint_universe`: the sorted list of the distinct
constraint labels occurring in the options (`sorted(list(set(...)))`). -/
def getConstraintUniverse (opts : List (List String)) : List String :=
  sortStr ((opts.flatMap id).dedup)

/-- Position of a label in the constraint universe (`column_index` is a
dictionary from label to its column node; columns are numbered from 1 in
creation order, so the column id is one more than the position). -/
def posOf : List String → String → Nat
  | [], _ => 0
  | y :: ys, x => if x = y then 0 else posOf ys x + 1

/-- Column id of a constraint label: index in the universe plus one
(node 0 is the master header). -/
def colId (cons : List String) (x : String) : Nat := posOf cons x + 1

/-- The solver state: the link arena (`llink`/`rlink`/`ulink`/`dlink`),
the `c` field (owning column header id), the `s` field (live count for
column headers, option index for row nodes) and the partial solution. -/
structure St where
  llink : Nat → Nat
  rlink : Nat → Nat
  ulink : Nat → Nat
  dlink : Nat → Nat
  cfield : Nat → Nat
  sfield : Nat → Int
  solution : List Nat

/-- The freshly initialised arena: every `Node` starts with all four
links pointing to itself, `c = None` and `s = None` (modelled as `0`). -/
def initSt : St :=
  { llink := id, rlink := id, ulink := id, dlink := id
    cfield := fun _ => 0, sfield := fun _ => 0, solution := [] }

/-- One step of `create_column_headers`: insert column header `cid` at
the end of the master header's horizontal list. -/
def addHeader (st : St) (cid : Nat) : St :=
  let st := { st with llink := upd st.llink cid (st.llink 0) }
  let st := { st with rlink := upd st.rlink cid 0 }
  let st := { st with rlink := upd st.rlink (st.llink 0) cid }
  { st with llink := upd st.llink 0 cid }

/-- `DLXSudoku.create_column_headers`, allocating ids `cid, cid+1, ...`
for the listed constraints. -/
def addHeaders (st : St) (cid : Nat) : List String → St
  | [] => st
  | _ :: cs => addHeaders (addHeader st cid) (cid + 1) cs

/-- The vertical part of inserting a row node: `new_node.dlink = col;
new_node.ulink = col.ulink; col.ulink.dlink = new_node;
col.ulink = new_node; col.s += 1`, plus setting `c` and `s` of the new
node as the `Node(c=col, s=option_index)` constructor does. -/
def insertNodeV (st : St) (col nid oi : Nat) : St :=
  let st := { st with cfield := upd st.cfield nid col }
  let st := { st with sfield := updZ st.sfield nid (Int.ofNat oi) }
  let st := { st with dlink := upd st.dlink nid col }
  let st := { st with ulink := upd st.ulink nid (st.ulink col) }
  let st := { st with dlink := upd st.dlink (st.ulink nid) nid }
  let st := { st with ulink := upd st.ulink col nid }
  { st with sfield := updZ st.sfield col (st.sfield col + 1) }

/-- The horizontal part of inserting a row node that is not the first of
its option row: splice `nid` just before `first`. -/
def spliceRow (st : St) (first nid : Nat) : St :=
  let last := st.llink first
  let st := { st with rlink := upd st.rlink last nid }
  let st := { st with llink := upd st.llink nid last }
  let st := { st with rlink := upd st.rlink nid first }
  { st with llink := upd st.llink first nid }

/-- Insert the nodes of one option row (`create_rows` inner loop), one
node per constraint label, `first` tracking the first node of the row. -/
def addOptionNodes (cons : List String) (oi : Nat) :
    List String → Nat → Option Nat → St → St
  | [], _, _, st => st
  | lab :: labs, nid, first, st =>
    let col := colId cons lab
    let st := insertNodeV st col nid oi
    match first with
    | none =>
        let st := { st with rlink := upd st.rlink nid nid }
        let st := { st with llink := upd st.llink nid nid }
        addOptionNodes cons oi labs (nid + 1) (some nid) st
    | some f =>
        let st := spliceRow st f nid
        addOptionNodes cons oi labs (nid + 1) (some f) st

/-- `DLXSudoku.create_rows`: insert all option rows. -/
def addRows (cons : List String) : List (List String) → Nat → Nat → St → St
  | [], _, _, st => st
  | opt :: opts, oi, nid, st =>
      addRows cons opts (oi + 1) (nid + opt.length)
        (addOptionNodes cons oi opt nid none st)

/-- Build the full DLX matrix of a board, exactly as `DLXSudoku.__init__`
does: options, sorted constraint universe, column headers, option rows. -/
def buildSt (b : Board) : St :=
  let opts := getAllOptions b
  let cons := getConstraintUniverse opts
  addRows cons opts 0 (cons.length + 1) (addHeaders initSt 1 cons)

/-- `Node.cover_h` on node `x`: `x.rlink.llink = x.llink;
x.llink.rlink = x.rlink`. -/
def coverH (st : St) (x : Nat) : St :=
  let st := { st with llink := upd st.llink (st.rlink x) (st.llink x) }
  { st with rlink := upd st.rlink (st.llink x) (st.rlink x) }

/-- `Node.uncover_h` on node `x`: `x.rlink.llink = x; x.llink.rlink = x`. -/
def uncoverH (st : St) (x : Nat) : St :=
  let st := { st with llink := upd st.llink (st.rlink x) x }
  { st with rlink := upd st.rlink (st.llink x) x }

/-- `Node.cover_v` on node `x`: `x.ulink.dlink = x.dlink;
x.dlink.ulink = x.ulink`. -/
def coverV (st : St) (x : Nat) : St :=
  let st := { st with dlink := upd st.dlink (st.ulink x) (st.dlink x) }
  { st with ulink := upd st.ulink (st.dlink x) (st.ulink x) }

/-- `Node.uncover_v` on node `x`: `x.dlink.ulink = x; x.ulink.dlink = x`. -/
def uncoverV (st : St) (x : Nat) : St :=
  let st := { st with ulink := upd st.ulink (st.dlink x) x }
  { st with dlink := upd st.dlink (st.ulink x) x }

/-- Inner loop of `DLXSudoku.cover`: walk `j` right from `r.rlink` until
back at `r`, removing each `j` from its column and decrementing the
column's count. -/
def coverRowLoop (r : Nat) : Nat → Nat → St → Option St
  | _, 0, _ => none
  | j, fuel + 1, st =>
    if j = r then some st
    else
      let st := coverV st j
      let st := { st with
        sfield := updZ st.sfield (st.cfield j) (st.sfield (st.cfield j) - 1) }
      coverRowLoop r (st.rlink j) fuel st

/-- Outer loop of `DLXSudoku.cover`: walk `r` down from `col.dlink`
until back at `col`. -/
def coverColLoop (col : Nat) : Nat → Nat → St → Option St
  | _, 0, _ => none
  | r, fuel + 1, st =>
    if r = col then some st
    else
      match coverRowLoop r (st.rlink r) fuel st with
      | none => none
      | some st => coverColLoop col (st.dlink r) fuel st

/-- `DLXSudoku.cover`. -/
def cover (st : St) (col fuel : Nat) : Option St :=
  let st := coverH st col
  coverColLoop col (st.dlink col) fuel st

/-- Inner loop of `DLXSudoku.uncover`: walk `j` left from `r.llink`
until back at `r`, incrementing counts and restoring vertical links. -/
def uncoverRowLoop (r : Nat) : Nat → Nat → St → Option St
  | _, 0, _ => none
  | j, fuel + 1, st =>
    if j = r then some st
    else
      let st := { st with
        sfield := updZ st.sfield (st.cfield j) (st.sfield (st.cfield j) + 1) }
      let st := uncoverV st j
      uncoverRowLoop r (st.llink j) fuel st

/-- Outer loop of `DLXSudoku.uncover`: walk `r` up from `col.ulink`
until back at `col`. -/
def uncoverColLoop (col : Nat) : Nat → Nat → St → Option St
  | _, 0, _ => none
  | r, fuel + 1, st =>
    if r = col then some st
    else
      match uncoverRowLoop r (st.llink r) fuel st with
      | none => none
      | some st => uncoverColLoop col (st.ulink r) fuel st

/-- `DLXSudoku.uncover`. -/
def uncover (st : St) (col fuel : Nat) : Option St :=
  match uncoverColLoop col (st.ulink col) fuel st with
  | none => none
  | some st => some (uncoverH st col)

/-- The Python condition `mn is None or self.sfield[col] < mn`. -/
def chooseCond (st : St) (col : Nat) : Option Int → Bool
  | none => true
  | some m => decide (st.sfield col < m)

/-- Loop of `DLXSudoku.choose_column`: `mn = none` models
`min_count = float('inf')`; the first strictly smaller count wins. -/
def chooseColumnLoop (st : St) :
    Nat → Option Int → Option Nat → Nat → Option (Option Nat)
  | _, _, _, 0 => none
  | col, mn, chosen, fuel + 1 =>
    if col = 0 then some chosen
    else
      if chooseCond st col mn then
        chooseColumnLoop st (st.rlink col) (some (st.sfield col)) (some col) fuel
      else
        chooseColumnLoop st (st.rlink col) mn chosen fuel

/-- `DLXSudoku.choose_column` (returns `none` when the traversal fuel
runs out, `some none` when the loop finishes with `chosen = None`). -/
def chooseColumn (st : St) (fuel : Nat) : Option (Option Nat) :=
  chooseColumnLoop st (st.rlink 0) none none fuel

/-- Inner loop of `search` that covers the columns of the other nodes of
a chosen row: `j = r.rlink; while j != r: cover(j.c); j = j.rlink`. -/
def coverColsOfRow (r : Nat) (lf : Nat) : Nat → Nat → St → Option St
  | _, 0, _ => none
  | j, fuel + 1, st =>
    if j = r then some st
    else
      match cover st (st.cfield j) lf with
      | none => none
      | some st => coverColsOfRow r lf (st.rlink j) fuel st

/-- Backtracking loop of `search`: `j = r.llink; while j != r:
uncover(j.c); j = j.llink`. -/
def uncoverColsOfRow (r : Nat) (lf : Nat) : Nat → Nat → St → Option St
  | _, 0, _ => none
  | j, fuel + 1, st =>
    if j = r then some st
    else
      match uncover st (st.cfield j) lf with
      | none => none
      | some st => uncoverColsOfRow r lf (st.llink j) fuel st

/-- The row loop of `DLXSudoku.search`, parametrised by the recursive
search call for the next depth (`recur`).  `r` walks down the chosen
column `col`; each iteration appends `r` to the solution, covers the
columns of the other nodes of `r`'s row, recurses, and on failure pops
the solution and uncovers those columns in reverse order.  When `r`
returns to `col`, the column is uncovered and the branch reports
exhaustion (`false`). -/
def searchRowLoop (recur : St → Option (Bool × St)) (col : Nat) (lf : Nat) :
    Nat → Nat → St → Option (Bool × St)
  | _, 0, _ => none
  | r, fuel + 1, st =>
    if r = col then
      match uncover st col lf with
      | none => none
      | some st => some (false, st)
    else
      let st := { st with solution := st.solution ++ [r] }
      match coverColsOfRow r lf (st.rlink r) lf st with
      | none => none
      | some st =>
        let nextR := st.dlink r
        match recur st with
        | none => none
        | some (true, st) => some (true, st)
        | some (false, st) =>
          match st.solution.getLast? with
          | none => none
          | some rPop =>
            let st := { st with solution := st.solution.dropLast }
            match uncoverColsOfRow rPop lf (st.llink rPop) lf st with
            | none => none
            | some st => searchRowLoop recur col lf nextR fuel st

/-- The body of `DLXSudoku.search` at one recursion depth, given the
search function `recur` for the next depth. -/
def searchBody (recur : St → Option (Bool × St)) (lf : Nat) (st : St) :
    Option (Bool × St) :=
  if st.rlink 0 = 0 then some (true, st)
  else
    match chooseColumn st lf with
    | none => none
    | some none => none
    | some (some col) =>
      if st.sfield col = 0 then some (false, st)
      else
        match cover st col lf with
        | none => none
        | some st => searchRowLoop recur col lf (st.dlink col) lf st

/-- `DLXSudoku.search`: `depth` is the recursion-depth fuel (decremented
exactly once per recursive `search` call), `lf` the loop fuel for all
inner traversals. -/
def search (depth : Nat) : Nat → St → Option (Bool × St) :=
  Nat.rec (fun _ _ => none)
    (fun _ ih => fun lf st => searchBody (ih lf) lf st) depth

/-- `int(c)` on a digit character. -/
def charDigit (c : Char) : Nat := c.toNat - 48

/-- `DLXSudoku.fill_board`: write every chosen option back to the board,
parsing the cell coordinates from `option[0]` (`"pij"`) and the value
from `option[1]` (`"rik"`). -/
def fillBoard (opts : List (List String)) (st : St) (b : Board) : Board :=
  st.solution.foldl (fun b node =>
    let oi := (st.sfield node).toNat
    let opt := opts.getD oi []
    let cell := (opt.getD 0 "").data
    let i := charDigit (cell.getD 1 ' ')
    let j := charDigit (cell.getD 2 ' ')
    let v := charDigit (((opt.getD 1 "").data).getD 2 ' ')
    setCell b i j v) b

/-- `DLXSudoku.solve`: build the matrix, search, and on success fill the
board; on exhaustion return `none` (Python `None`).  The outer `Option`
is the fuel/crash monad of the embedding: a `some` result corresponds to
an actual terminating run. -/
def solveSudoku (b : Board) (depth lf : Nat) : Option (Option Board) :=
  let opts := getAllOptions b
  let cons := getConstraintUniverse opts
  let st := addRows cons opts 0 (cons.length + 1) (addHeaders initSt 1 cons)
  match search depth lf st with
  | none => none
  | some (true, st) => some (some (fillBoard opts st b))
  | some (false, _) => some none

/-! ### Boards and predicates used in the claims -/

/-- The spec's concrete scenario board (five blank cells). -/
def scenarioBoard : Board :=
  [[1, 0, 4, 3, 8, 2, 9, 5, 6],
   [2, 0, 5, 4, 6, 7, 1, 3, 8],
   [3, 8, 6, 9, 5, 1, 4, 0, 2],
   [4, 6, 1, 5, 2, 3, 8, 9, 7],
   [7, 3, 8, 1, 4, 9, 6, 2, 5],
   [9, 5, 2, 8, 7, 6, 3, 1, 4],
   [5, 2, 9, 6, 3, 4, 7, 8, 1],
   [6, 0, 7, 2, 9, 8, 5, 4, 3],
   [8, 4, 3, 0, 1, 5, 2, 6, 9]]

/-- The board the solver actually produces on `scenarioBoard`. -/
def scenarioSolved : Board :=
  [[1, 7, 4, 3, 8, 2, 9, 5, 6],
   [2, 9, 5, 4, 6, 7, 1, 3, 8],
   [3, 8, 6, 9, 5, 1, 4, 7, 2],
   [4, 6, 1, 5, 2, 3, 8, 9, 7],
   [7, 3, 8, 1, 4, 9, 6, 2, 5],
   [9, 5, 2, 8, 7, 6, 3, 1, 4],
   [5, 2, 9, 6, 3, 4, 7, 8, 1],
   [6, 1, 7, 2, 9, 8, 5, 4, 3],
   [8, 4, 3, 7, 1, 5, 2, 6, 9]]

/-- A 9x9 board whose every cell is `1`: it has no blank cell and is not
a valid Sudoku grid, so it admits no legal completion. -/
def onesBoard : Board := List.replicate 9 (List.replicate 9 1)

/-- A 9x9 board whose every cell is `2`. -/
def twosBoard : Board := List.replicate 9 (List.replicate 9 2)

/-- A board with two blank cells `(0,0)` and `(0,1)` that are both
forced to the digit `1`: the derived exact-cover problem is
unsatisfiable and the search exhausts all branches. -/
def conflictBoard : Board :=
  [[0, 0, 3, 4, 5, 6, 7, 8, 9],
   [2, 9, 9, 9, 9, 9, 9, 9, 9],
   [9, 2, 9, 9, 9, 9, 9, 9, 9],
   [9, 9, 9, 9, 9, 9, 9, 9, 9],
   [9, 9, 9, 9, 9, 9, 9, 9, 9],
   [9, 9, 9, 9, 9, 9, 9, 9, 9],
   [9, 9, 9, 9, 9, 9, 9, 9, 9],
   [9, 9, 9, 9, 9, 9, 9, 9, 9],
   [9, 9, 9, 9, 9, 9, 9, 9, 9]]

/-- Digit `v` occurs exactly once in row `i`. -/
def rowHasOnce (b : Board) (i v : Nat) : Bool :=
  ((List.range 9).filter (fun j => getCell b i j == v)).length == 1

/-- Digit `v` occurs exactly once in column `j`. -/
def colHasOnce (b : Board) (j v : Nat) : Bool :=
  ((List.range 9).filter (fun i => getCell b i j == v)).length == 1

/-- Digit `v` occurs exactly once in the 3x3 box `x` (`0..8`). -/
def boxHasOnce (b : Board) (x v : Nat) : Bool :=
  ((List.range 9).filter (fun t =>
    getCell b (3 * (x / 3) + t / 3) (3 * (x % 3) + t % 3) == v)).length == 1

/-- The Sudoku constraints of the claims: every digit `1..9` occurs
exactly once in every row, every column and every 3x3 box. -/
def sudokuValid (b : Board) : Bool :=
  ((List.range 9).all fun i => (List.range' 1 9).all fun v =>
    rowHasOnce b i v) &&
  ((List.range 9).all fun j => (List.range' 1 9).all fun v =>
    colHasOnce b j v) &&
  ((List.range 9).all fun x => (List.range' 1 9).all fun v =>
    boxHasOnce b x v)

/-- `b2` is a legal completion of `b`: a 9x9 grid that agrees with `b`
on every non-blank cell, has no blank cell, and satisfies the Sudoku
constraints. -/
def isCompletionOf (b2 b : Board) : Prop :=
  b2.length = 9 ∧ (∀ r ∈ b2, r.length = 9) ∧
  (∀ i j, i < 9 → j < 9 → getCell b i j ≠ 0 → getCell b2 i j = getCell b i j) ∧
  (∀ i j, i < 9 → j < 9 → getCell b2 i j ≠ 0) ∧
  sudokuValid b2 = true

/-! ### Characterisation of the option generator -/

/-- `pathF f x l y`: starting at node `x`, the link field `f` passes
through exactly the nodes of `l` in order and then reaches `y`
(`f x = l.head`, consecutive links inside `l`, `f l.last = y`;
for `l = []` just `f x = y`).  `pathF f a l a` says `f` realises the
circular list `a :: l`. -/
def pathF (f : Nat → Nat) : Nat → List Nat → Nat → Prop
  | x, [], y => f x = y
  | x, z :: zs, y => f x = z ∧ pathF f z zs y

def pathFDec (f : Nat → Nat) (x : Nat) (l : List Nat) (y : Nat) :
    Decidable (pathF f x l y) :=
  match l with
  | [] => inferInstanceAs (Decidable (f x = y))
  | z :: zs =>
    have : Decidable (pathF f z zs y) := pathFDec f z zs y
    inferInstanceAs (Decidable (f x = z ∧ pathF f z zs y))

instance (f : Nat → Nat) (x : Nat) (l : List Nat) (y : Nat) :
    Decidable (pathF f x l y) := pathFDec f x l y

/-- Closed form of the arena after inserting column headers `1..m` at
the tail of the master header's list. -/
def headerLl (m : Nat) : Nat → Nat :=
  fun x => if x = 0 then m else if x ≤ m then x - 1 else x

def headerRl (m : Nat) : Nat → Nat :=
  fun x => if x < m then x + 1 else if x = m then 0 else x

def headerSt (m : Nat) : St :=
  { llink := headerLl m, rlink := headerRl m, ulink := id, dlink := id
    cfield := fun _ => 0, sfield := fun _ => 0, solution := [] }

/-- Option index of row node `n`. -/
def rowIdxOf (m n : Nat) : Nat := (n - (m + 1)) / 4

/-- Position (0..3) of row node `n` inside its option row. -/
def rowPosOf (m n : Nat) : Nat := (n - (m + 1)) % 4

/-- Successor of a row node in its (static) horizontal row cycle. -/
def rowNextF (m n : Nat) : Nat :=
  m + 1 + 4 * rowIdxOf m n + (rowPosOf m n + 1) % 4

/-- Predecessor of a row node in its (static) horizontal row cycle. -/
def rowPrevF (m n : Nat) : Nat :=
  m + 1 + 4 * rowIdxOf m n + (rowPosOf m n + 3) % 4

/-- The constraint label a row node stands for. -/
def labelOf (opts : List (List String)) (m n : Nat) : String :=
  (opts.getD (rowIdxOf m n) []).getD (rowPosOf m n) ""

/-- The column id of a row node. -/
def colOfNode (cons : List String) (opts : List (List String)) (m n : Nat) :
    Nat :=
  colId cons (labelOf opts m n)

/-- The ids of the first `t` row nodes. -/
def nodeIds (m t : Nat) : List Nat := (List.range t).map (fun a => m + 1 + a)

/-- The vertical list of column `c` after the first `t` row nodes have
been inserted: those of its nodes, in increasing id order (tail
insertion preserves creation order). -/
def vsUpTo (cons : List String) (opts : List (List String)) (m t c : Nat) :
    List Nat :=
  (nodeIds m t).filter (fun n => colOfNode cons opts m n == c)

/-- The parts of the build invariant concerning the vertical links, the
`c` fields and the `s` fields, after `t` row nodes have been created. -/
structure MidV (cons : List String) (opts : List (List String)) (t : Nat)
    (st : St) : Prop where
  vert : ∀ c, 1 ≤ c → c ≤ cons.length →
    pathF st.dlink c (vsUpTo cons opts cons.length t c) c
  vertU : ∀ c, 1 ≤ c → c ≤ cons.length →
    pathF st.ulink c (vsUpTo cons opts cons.length t c).reverse c
  cf : ∀ a, a < t → st.cfield (cons.length + 1 + a) =
    colOfNode cons opts cons.length (cons.length + 1 + a)
  sfr : ∀ a, a < t → st.sfield (cons.length + 1 + a) = Int.ofNat (a / 4)
  sfc : ∀ c, 1 ≤ c → c ≤ cons.length →
    st.sfield c = Int.ofNat (vsUpTo cons opts cons.length t c).length

/-- The full invariant of the matrix builder after the first `q` option
rows have been inserted into the header skeleton. -/
structure MidB (cons : List String) (opts : List (List String)) (q : Nat)
    (st : St) : Prop where
  mv : MidV cons opts (4 * q) st
  hl : ∀ x, x ≤ cons.length → st.llink x = headerLl cons.length x
  hr : ∀ x, x ≤ cons.length → st.rlink x = headerRl cons.length x
  rowr : ∀ a, a < 4 * q →
    st.rlink (cons.length + 1 + a) = rowNextF cons.length (cons.length + 1 + a)
  rowl : ∀ a, a < 4 * q →
    st.llink (cons.length + 1 + a) = rowPrevF cons.length (cons.length + 1 + a)
  sol : st.solution = []

/-- Pure model of the `choose_column` loop accumulator. -/
def chooseFold (st : St) : List Nat → Option Int → Option Nat → Option Nat
  | [], _, chosen => chosen
  | c :: cs, mn, chosen =>
    if chooseCond st c mn then
      chooseFold st cs (some (st.sfield c)) (some c)
    else
      chooseFold st cs mn chosen

/-- One iteration of the inner `cover` loop on node `j`: vertical unlink
plus the column-count decrement. -/
def remV (st : St) (j : Nat) : St :=
  let st := coverV st j
  { st with
    sfield := updZ st.sfield (st.cfield j) (st.sfield (st.cfield j) - 1) }

/-- One iteration of the inner `uncover` loop on node `j`: the
column-count increment plus the vertical relink. -/
def unremV (st : St) (j : Nat) : St :=
  let st := { st with
    sfield := updZ st.sfield (st.cfield j) (st.sfield (st.cfield j) + 1) }
  uncoverV st j

/-- Remove a list of nodes in order. -/
def remVs : St → List Nat → St
  | st, [] => st
  | st, j :: js => remVs (remV st j) js

/-- Restore a list of nodes in order. -/
def unremVs : St → List Nat → St
  | st, [] => st
  | st, j :: js => unremVs (unremV st j) js

/-- Process the rows of a `cover` call: each entry is a row node paired
with the other nodes of its option row, in traversal order. -/
def remRows : St → List (Nat × List Nat) → St
  | st, [] => st
  | st, p :: rest => remRows (remVs st p.2) rest

/-- Process the rows of an `uncover` call. -/
def unremRows : St → List (Nat × List Nat) → St
  | st, [] => st
  | st, p :: rest => unremRows (unremVs st p.2) rest

/-- Node `n` belongs to the column class of header `c`: it is the header
itself or a row node whose `c` field is `c`. -/
def colOK (RN : List Nat) (cf : Nat → Nat) (c n : Nat) : Prop :=
  n = c ∨ (n ∈ RN ∧ cf n = c)

/-- Column locality: every row node's vertical links stay inside its own
column's class. -/
def CL (RN : List Nat) (cf : Nat → Nat) (st : St) : Prop :=
  ∀ n ∈ RN, colOK RN cf (cf n) (st.ulink n) ∧ colOK RN cf (cf n) (st.dlink n)

instance colOK_dec (RN : List Nat) (cf : Nat → Nat) (c n : Nat) :
    Decidable (colOK RN cf c n) := by
  unfold colOK
  infer_instance

instance CL_dec (RN : List Nat) (cf : Nat → Nat) (st : St) :
    Decidable (CL RN cf st) := by
  unfold CL
  infer_instance

/-- The state after covering a sequence of columns, each with its own
cover traversal data.  An entry `(j, c, rws)` records the row-mate `j`
whose column `c` is covered with row data `rws`. -/
def coverSeq : St → List (Nat × Nat × List (Nat × List Nat)) → St
  | s, [] => s
  | s, e :: rest => coverSeq (remRows (coverH s e.2.1) e.2.2) rest

/-- Validity of the traversal data of a sequence of covers: the
conditions of the cover/uncover round trip at every intermediate
state. -/
def covsOK (RN : List Nat) (cf : Nat → Nat) (lf : Nat) :
    St → List (Nat × Nat × List (Nat × List Nat)) → Prop
  | _, [] => True
  | s, e :: rest =>
    (e.2.1 ∉ RN) ∧ (s.llink e.2.1 ∉ RN) ∧ (s.rlink e.2.1 ∉ RN) ∧
    (s.llink (s.rlink e.2.1) = e.2.1 ∧ s.rlink (s.llink e.2.1) = e.2.1) ∧
    (∀ p ∈ e.2.2, p.1 ∈ RN ∧ cf p.1 = e.2.1 ∧ p.1 ∉ p.2 ∧
      ∀ j ∈ p.2, j ∈ RN ∧ cf j ≠ e.2.1) ∧
    (∀ p ∈ e.2.2, pathF s.rlink p.1 p.2 p.1) ∧
    (∀ p ∈ e.2.2, pathF s.llink p.1 p.2.reverse p.1) ∧
    pathF s.dlink e.2.1 (e.2.2.map Prod.fst) e.2.1 ∧
    pathF s.ulink e.2.1 (e.2.2.map Prod.fst).reverse e.2.1 ∧
    (e.2.2.flatMap (fun p => p.2)).Nodup ∧
    (∀ j ∈ e.2.2.flatMap (fun p => p.2),
      s.ulink (s.dlink j) = j ∧ s.dlink (s.ulink j) = j) ∧
    (e.2.2.length + (e.2.2.flatMap (fun p => p.2)).length < lf) ∧
    covsOK RN cf lf (remRows (coverH s e.2.1) e.2.2) rest

def covsOK_dec (RN : List Nat) (cf : Nat → Nat) (lf : Nat) :
    (entries : List (Nat × Nat × List (Nat × List Nat))) → (s : St) →
    Decidable (covsOK RN cf lf s entries)
  | [], _ => inferInstanceAs (Decidable True)
  | e :: rest, s =>
    have : Decidable (covsOK RN cf lf
        (remRows (coverH s e.2.1) e.2.2) rest) :=
      covsOK_dec RN cf lf rest (remRows (coverH s e.2.1) e.2.2)
    inferInstanceAs (Decidable (_ ∧ _ ∧ _ ∧ _ ∧ _ ∧ _ ∧ _ ∧ _ ∧ _ ∧ _ ∧
      _ ∧ _ ∧ _))

instance (RN : List Nat) (cf : Nat → Nat) (lf : Nat)
    (entries : List (Nat × Nat × List (Nat × List Nat))) (s : St) :
    Decidable (covsOK RN cf lf s entries) := covsOK_dec RN cf lf entries s

/-- Well-formedness and traversal data of a whole `search` call tree of
depth `d` rooted at `st`: whenever the call would select a column with a
non-zero live count, the level's traversal data exists — the chosen
column's rows with their row-mates, and for each row the cover data of
its mates' columns — and the same holds recursively for each branch
state.  The predicate carries only structural link and path facts about
the states; it says nothing about what `search` returns. -/
def GD (RN : List Nat) (cf : Nat → Nat) (lf : Nat) : Nat → St → Prop
  | 0, _ => True
  | d + 1, st =>
    ∀ col, chooseColumn st lf = some (some col) → st.sfield col ≠ 0 →
      ∃ rows0 datas,
        col ∉ RN ∧
        st.llink col ∉ RN ∧
        st.rlink col ∉ RN ∧
        (st.llink (st.rlink col) = col ∧ st.rlink (st.llink col) = col) ∧
        CL RN cf st ∧
        (∀ p ∈ rows0, p.1 ∈ RN ∧ cf p.1 = col ∧ p.1 ∉ p.2 ∧
          ∀ j ∈ p.2, j ∈ RN ∧ cf j ≠ col) ∧
        (∀ p ∈ rows0, pathF st.rlink p.1 p.2 p.1) ∧
        (∀ p ∈ rows0, pathF st.llink p.1 p.2.reverse p.1) ∧
        pathF st.dlink col (rows0.map Prod.fst) col ∧
        pathF st.ulink col (rows0.map Prod.fst).reverse col ∧
        (rows0.flatMap (fun p => p.2)).Nodup ∧
        (∀ j ∈ rows0.flatMap (fun p => p.2),
          st.ulink (st.dlink j) = j ∧ st.dlink (st.ulink j) = j) ∧
        rows0.length + (rows0.flatMap (fun p => p.2)).length < lf ∧
        datas.length = rows0.length ∧
        (∀ q ∈ rows0.zip datas,
          q.2.map (fun e => e.1) = q.1.2 ∧
          covsOK RN cf lf
            { remRows (coverH st col) rows0 with
              solution :=
                (remRows (coverH st col) rows0).solution ++ [q.1.1] }
            q.2 ∧
          (∀ e ∈ q.2, e.1 ∈ RN ∧
            (remRows (coverH st col) rows0).cfield e.1 = e.2.1) ∧
          (∀ e ∈ q.2, ∀ p ∈ e.2.2, ∀ j ∈ p.2, cf j ≠ col) ∧
          q.2.length < lf ∧
          GD RN cf lf d
            (coverSeq
              { remRows (coverH st col) rows0 with
                solution :=
                  (remRows (coverH st col) rows0).solution ++ [q.1.1] }
              q.2))


theorem getCell_eq_getElem (b : Board) (i j : Nat) (h : j < (getRow b i).length) :
    getCell b i j = (getRow b i)[j] := by
  simp [getCell, List.getD_eq_getElem?_getD, List.getElem?_eq_getElem h]

theorem contains_getRow_iff (b : Board) (i k : Nat)
    (h9 : (getRow b i).length = 9) :
    ((getRow b i).contains k = true) ↔ ∃ c, c < 9 ∧ getCell b i c = k := by
  rw [List.contains_iff_exists_mem_beq]
  constructor
  · rintro ⟨a, ha, hbeq⟩
    rcases List.mem_iff_getElem.1 ha with ⟨c, hc, rfl⟩
    refine ⟨c, by omega, ?_⟩
    rw [getCell_eq_getElem b i c hc]
    exact (by simpa using hbeq : k = (getRow b i)[c]).symm
  · rintro ⟨c, hc, hcell⟩
    have hc' : c < (getRow b i).length := by omega
    refine ⟨(getRow b i)[c], List.getElem_mem hc', ?_⟩
    rw [← getCell_eq_getElem b i c hc', hcell]
    simp

theorem colCheck_iff (b : Board) (j k : Nat) :
    ((List.range size).any (fun r => getCell b r j == k) = true) ↔
      ∃ r, r < 9 ∧ getCell b r j = k := by
  rw [List.any_eq_true]
  constructor
  · rintro ⟨r, hr, hbeq⟩
    exact ⟨r, List.mem_range.1 hr, by simpa using hbeq⟩
  · rintro ⟨r, hr, hcell⟩
    exact ⟨r, List.mem_range.2 hr, by simp [hcell]⟩

theorem boxCheck_iff (b : Board) (i j k : Nat) :
    ((List.range' (3 * (i / 3)) 3).any (fun r =>
        (List.range' (3 * (j / 3)) 3).any (fun c => getCell b r c == k)) = true) ↔
      ∃ r c, r < 3 ∧ c < 3 ∧ getCell b (3 * (i / 3) + r) (3 * (j / 3) + c) = k := by
  simp only [List.any_eq_true, List.mem_range'_1, beq_iff_eq]
  constructor
  · rintro ⟨r, ⟨hr1, hr2⟩, c, ⟨hc1, hc2⟩, hcell⟩
    refine ⟨r - 3 * (i / 3), c - 3 * (j / 3), by omega, by omega, ?_⟩
    have : 3 * (i / 3) + (r - 3 * (i / 3)) = r := by omega
    rw [this]
    have : 3 * (j / 3) + (c - 3 * (j / 3)) = c := by omega
    rw [this]; exact hcell
  · rintro ⟨r, c, hr, hc, hcell⟩
    exact ⟨3 * (i / 3) + r, by omega, 3 * (j / 3) + c, by omega, hcell⟩

theorem isValidMove_true_iff (b : Board) (i j k : Nat)
    (h9 : (getRow b i).length = 9) :
    isValidMove b i j k = true ↔
      (∀ c, c < 9 → getCell b i c ≠ k) ∧
      (∀ r, r < 9 → getCell b r j ≠ k) ∧
      (∀ r c, r < 3 → c < 3 →
        getCell b (3 * (i / 3) + r) (3 * (j / 3) + c) ≠ k) := by
  unfold isValidMove
  by_cases h1 : (getRow b i).contains k
  · simp only [h1, if_true]
    constructor
    · intro h; cases h
    · rintro ⟨hrow, -, -⟩
      rcases (contains_getRow_iff b i k h9).1 h1 with ⟨c, hc, hcell⟩
      exact absurd hcell (hrow c hc)
  · simp only [h1, if_false]
    by_cases h2 : (List.range size).any (fun r => getCell b r j == k)
    · simp only [h2, if_true]
      constructor
      · intro h; cases h
      · rintro ⟨-, hcol, -⟩
        rcases (colCheck_iff b j k).1 h2 with ⟨r, hr, hcell⟩
        exact absurd hcell (hcol r hr)
    · simp only [h2, if_false]
      by_cases h3 : (List.range' (3 * (i / 3)) 3).any (fun r =>
          (List.range' (3 * (j / 3)) 3).any (fun c => getCell b r c == k))
      · simp only [h3, if_true]
        constructor
        · intro h; cases h
        · rintro ⟨-, -, hbox⟩
          rcases (boxCheck_iff b i j k).1 h3 with ⟨r, c, hr, hc, hcell⟩
          exact absurd hcell (hbox r c hr hc)
      · simp only [h3, if_false]
        refine ⟨fun _ => ⟨?_, ?_, ?_⟩, fun _ => rfl⟩
        · intro c hc hcell
          exact h1 ((contains_getRow_iff b i k h9).2 ⟨c, hc, hcell⟩)
        · intro r hr hcell
          exact h2 ((colCheck_iff b j k).2 ⟨r, hr, hcell⟩)
        · intro r c hr hc hcell
          exact h3 ((boxCheck_iff b i j k).2 ⟨r, c, hr, hc, hcell⟩)

theorem mem_validMoves_iff (b : Board) (i j k : Nat) :
    (i, j, k) ∈ validMoves b ↔
      i < 9 ∧ j < 9 ∧ getCell b i j = 0 ∧ k ∈ numbers ∧
      isValidMove b i j k = true := by
  unfold validMoves
  simp only [List.mem_flatMap, List.mem_range]
  constructor
  · rintro ⟨i', hi', j', hj', hmem⟩
    by_cases hblank : getCell b i' j' == 0
    · simp only [hblank, if_true, List.mem_map, List.mem_filter] at hmem
      rcases hmem with ⟨k', ⟨hk'num, hk'valid⟩, heq⟩
      cases heq
      exact ⟨hi', hj', by simpa using hblank, hk'num, hk'valid⟩
    · simp only [hblank, if_false] at hmem
      cases hmem
  · rintro ⟨hi, hj, hblank, hknum, hkvalid⟩
    refine ⟨i, hi, j, hj, ?_⟩
    have : (getCell b i j == 0) = true := by simp [hblank]
    simp only [this, if_true, List.mem_map, List.mem_filter]
    exact ⟨k, ⟨hknum, hkvalid⟩, rfl⟩

theorem mem_numbers (k : Nat) : k ∈ numbers ↔ 1 ≤ k ∧ k ≤ 9 := by
  simp only [numbers, List.mem_cons, List.not_mem_nil, or_false]
  omega

/-- **C7**: the option generator is a pure function of the board snapshot
(in this embedding it is a function by construction, so it cannot modify
the board): the options are exactly the label tuples of the valid moves,
and a triple `(i, j, k)` is a valid move iff the cell `(i, j)` is blank,
`k` is a digit `1..9`, and `k` appears nowhere else in row `i`, in
column `j`, or in the 3x3 box containing `(i, j)`; in particular no
triple is generated for a non-blank cell. -/
theorem optionGenerator_spec (b : Board)
    (hshape : ∀ i ∈ List.range 9, (getRow b i).length = 9) (i j k : Nat) :
    (getAllOptions b = (validMoves b).map (fun m => mkOption m.1 m.2.1 m.2.2)) ∧
    ((i, j, k) ∈ validMoves b ↔
      i < 9 ∧ j < 9 ∧ getCell b i j = 0 ∧ 1 ≤ k ∧ k ≤ 9 ∧
      (∀ c, c < 9 → c ≠ j → getCell b i c ≠ k) ∧
      (∀ r, r < 9 → r ≠ i → getCell b r j ≠ k) ∧
      (∀ r c, r < 9 → c < 9 → r / 3 = i / 3 → c / 3 = j / 3 →
        ¬(r = i ∧ c = j) → getCell b r c ≠ k)) := by
  refine ⟨rfl, ?_⟩
  rw [mem_validMoves_iff]
  constructor
  · rintro ⟨hi, hj, hblank, hknum, hkvalid⟩
    have hk19 := (mem_numbers k).1 hknum
    rcases (isValidMove_true_iff b i j k (hshape i (List.mem_range.2 hi))).1 hkvalid with
      ⟨hrow, hcol, hbox⟩
    refine ⟨hi, hj, hblank, hk19.1, hk19.2, ?_, ?_, ?_⟩
    · intro c hc _; exact hrow c hc
    · intro r hr _; exact hcol r hr
    · intro r c hr hc hri hcj _
      have hr' : r = 3 * (i / 3) + (r - 3 * (i / 3)) := by omega
      have hc' : c = 3 * (j / 3) + (c - 3 * (j / 3)) := by omega
      rw [hr', hc']
      exact hbox (r - 3 * (i / 3)) (c - 3 * (j / 3)) (by omega) (by omega)
  · rintro ⟨hi, hj, hblank, hk1, hk9, hrow, hcol, hbox⟩
    refine ⟨hi, hj, hblank, (mem_numbers k).2 ⟨hk1, hk9⟩, ?_⟩
    rw [isValidMove_true_iff b i j k (hshape i (List.mem_range.2 hi))]
    refine ⟨?_, ?_, ?_⟩
    · intro c hc
      rcases eq_or_ne c j with rfl | hne
      · rw [hblank]; omega
      · exact hrow c hc hne
    · intro r hr
      rcases eq_or_ne r i with rfl | hne
      · rw [hblank]; omega
      · exact hcol r hr hne
    · intro r c hr hc
      by_cases heq : 3 * (i / 3) + r = i ∧ 3 * (j / 3) + c = j
      · rw [heq.1, heq.2, hblank]; omega
      · exact hbox (3 * (i / 3) + r) (3 * (j / 3) + c) (by omega) (by omega)
          (by omega) (by omega) heq

/-! ### Linked-list paths in the arena -/

theorem pathF_append (f : Nat → Nat) (x y z : Nat) (l1 l2 : List Nat) :
    pathF f x (l1 ++ z :: l2) y ↔ pathF f x l1 z ∧ pathF f z l2 y := by
  induction l1 generalizing x with
  | nil => simp [pathF]
  | cons a l1 ih => simp [pathF, ih, and_assoc]

theorem pathF_snoc (f : Nat → Nat) (x y z : Nat) (l : List Nat) :
    pathF f x (l ++ [z]) y ↔ pathF f x l z ∧ f z = y := by
  simpa [pathF] using pathF_append f x y z l []

theorem upd_same (f : Nat → Nat) (a v : Nat) : upd f a v a = v := if_pos rfl

theorem upd_ne (f : Nat → Nat) (a v x : Nat) (h : x ≠ a) :
    upd f a v x = f x := if_neg h

theorem updZ_same (f : Nat → Int) (a : Nat) (v : Int) : updZ f a v a = v :=
  if_pos rfl

theorem updZ_ne (f : Nat → Int) (a : Nat) (v : Int) (x : Nat) (h : x ≠ a) :
    updZ f a v x = f x := if_neg h

/-- A path only reads the link field at `x` and at the nodes of `l`;
updating it anywhere else preserves the path. -/
theorem pathF_upd (f : Nat → Nat) (a v x y : Nat) (l : List Nat)
    (hx : a ≠ x) (hl : a ∉ l) :
    (pathF (upd f a v) x l y ↔ pathF f x l y) := by
  induction l generalizing x with
  | nil =>
    simp only [pathF]
    rw [upd_ne f a v x (Ne.symm hx)]
  | cons z zs ih =>
    simp only [List.mem_cons, not_or] at hl
    simp only [pathF]
    exact and_congr (by rw [upd_ne f a v x (Ne.symm hx)]) (ih z hl.1 hl.2)

/-- Pointwise extensionality for solver states. -/
theorem St.ext' (s t : St)
    (h1 : ∀ x, s.llink x = t.llink x) (h2 : ∀ x, s.rlink x = t.rlink x)
    (h3 : ∀ x, s.ulink x = t.ulink x) (h4 : ∀ x, s.dlink x = t.dlink x)
    (h5 : ∀ x, s.cfield x = t.cfield x) (h6 : ∀ x, s.sfield x = t.sfield x)
    (h7 : s.solution = t.solution) : s = t := by
  cases s; cases t
  simp only [St.mk.injEq]
  exact ⟨funext h1, funext h2, funext h3, funext h4, funext h5, funext h6, h7⟩

/-! ### The state after `create_column_headers` -/

theorem headerSt_zero : headerSt 0 = initSt := by
  refine St.ext' _ _ ?_ ?_ ?_ ?_ ?_ ?_ rfl <;> intro x <;>
    simp only [headerSt, initSt, headerLl, headerRl, id_eq] <;>
    split_ifs <;> omega

theorem addHeader_headerSt (t : Nat) :
    addHeader (headerSt t) (t + 1) = headerSt (t + 1) := by
  refine St.ext' _ _ ?_ ?_ ?_ ?_ ?_ ?_ rfl <;> intro x <;>
    simp only [addHeader, headerSt, headerLl, headerRl, upd, id_eq] <;>
    split_ifs <;> omega

theorem addHeaders_headerSt (cs : List String) (t : Nat) :
    addHeaders (headerSt t) (t + 1) cs = headerSt (t + cs.length) := by
  induction cs generalizing t with
  | nil => simp [addHeaders]
  | cons c cs ih =>
    show addHeaders (addHeader (headerSt t) (t + 1)) (t + 1 + 1) cs = _
    rw [addHeader_headerSt t, ih (t + 1)]
    have h : t + 1 + cs.length = t + (c :: cs).length := by simp; omega
    rw [h]

theorem addHeaders_initSt (cs : List String) :
    addHeaders initSt 1 cs = headerSt cs.length := by
  have h := addHeaders_headerSt cs 0
  rw [headerSt_zero] at h
  simpa using h

/-! ### Static layout of the row nodes

Row nodes are allocated consecutively from id `m + 1` (after master `0`
and columns `1..m`), four per option.  Their option index, position in
the option and horizontal neighbours are fixed arithmetic functions of
the id. -/

theorem nodeIds_succ (m t : Nat) :
    nodeIds m (t + 1) = nodeIds m t ++ [m + 1 + t] := by
  simp [nodeIds, List.range_succ]

theorem mem_nodeIds (m t n : Nat) :
    n ∈ nodeIds m t ↔ m + 1 ≤ n ∧ n < m + 1 + t := by
  simp only [nodeIds, List.mem_map, List.mem_range]
  constructor
  · rintro ⟨a, ha, rfl⟩; omega
  · rintro ⟨h1, h2⟩; exact ⟨n - (m + 1), by omega, by omega⟩

theorem nodeIds_nodup (m t : Nat) : (nodeIds m t).Nodup := by
  refine List.Nodup.map ?_ (List.nodup_range t)
  intro a b h
  simp only [] at h
  omega

theorem mem_vsUpTo (cons : List String) (opts : List (List String))
    (m t c n : Nat) :
    n ∈ vsUpTo cons opts m t c ↔
      (m + 1 ≤ n ∧ n < m + 1 + t) ∧ colOfNode cons opts m n = c := by
  simp [vsUpTo, List.mem_filter, mem_nodeIds]

theorem vsUpTo_nodup (cons : List String) (opts : List (List String))
    (m t c : Nat) : (vsUpTo cons opts m t c).Nodup :=
  (nodeIds_nodup m t).filter _

theorem vsUpTo_succ (cons : List String) (opts : List (List String))
    (m t c : Nat) :
    vsUpTo cons opts m (t + 1) c =
      vsUpTo cons opts m t c ++
        (if colOfNode cons opts m (m + 1 + t) = c then [m + 1 + t] else []) := by
  unfold vsUpTo
  rw [nodeIds_succ, List.filter_append]
  congr 1
  split_ifs with h <;> simp [h]

/-! ### Field projections of the primitive operations -/

theorem insertNodeV_rlink (st : St) (col nid oi : Nat) :
    (insertNodeV st col nid oi).rlink = st.rlink := rfl

theorem insertNodeV_llink (st : St) (col nid oi : Nat) :
    (insertNodeV st col nid oi).llink = st.llink := rfl

theorem insertNodeV_solution (st : St) (col nid oi : Nat) :
    (insertNodeV st col nid oi).solution = st.solution := rfl

theorem spliceRow_ulink (st : St) (first nid : Nat) :
    (spliceRow st first nid).ulink = st.ulink := rfl

theorem spliceRow_dlink (st : St) (first nid : Nat) :
    (spliceRow st first nid).dlink = st.dlink := rfl

theorem spliceRow_cfield (st : St) (first nid : Nat) :
    (spliceRow st first nid).cfield = st.cfield := rfl

theorem spliceRow_sfield (st : St) (first nid : Nat) :
    (spliceRow st first nid).sfield = st.sfield := rfl

theorem spliceRow_solution (st : St) (first nid : Nat) :
    (spliceRow st first nid).solution = st.solution := rfl

/-- The exact effect of `insertNodeV` on each field (writing `T` for the
current tail `st.ulink col` of the column). -/
theorem insertNodeV_eq (st : St) (col nid oi : Nat) (hne : nid ≠ col) :
    insertNodeV st col nid oi =
      { llink := st.llink, rlink := st.rlink
        ulink := upd (upd st.ulink nid (st.ulink col)) col nid
        dlink := upd (upd st.dlink nid col) (st.ulink col) nid
        cfield := upd st.cfield nid col
        sfield := updZ (updZ st.sfield nid (Int.ofNat oi)) col
          (st.sfield col + 1)
        solution := st.solution } := by
  unfold insertNodeV
  refine St.ext' _ _ (fun x => rfl) (fun x => rfl) (fun x => ?_) (fun x => ?_)
    (fun x => rfl) (fun x => ?_) rfl
  · simp only [upd_same]
  · have h1 : upd st.ulink nid (st.ulink col) nid = st.ulink col := upd_same _ _ _
    simp only [h1]
  · have h2 : updZ st.sfield nid (Int.ofNat oi) col = st.sfield col :=
      updZ_ne _ _ _ _ (Ne.symm hne)
    simp only [h2]

/-! ### Effect of a tail insertion on a circular list realisation -/

theorem tail_of_pathF (u : Nat → Nat) (col : Nat) (vs : List Nat)
    (hu : pathF u col vs.reverse col) :
    u col = vs.getLastD col := by
  rcases List.eq_nil_or_concat vs with rfl | ⟨vs', T, rfl⟩
  · exact hu
  · simp only [List.concat_eq_append] at hu ⊢
    rw [List.reverse_append] at hu
    simp only [List.reverse_singleton, List.singleton_append, pathF] at hu
    simp [hu.1]

theorem upd_comm (f : Nat → Nat) (a b v w : Nat) (h : a ≠ b) :
    upd (upd f a v) b w = upd (upd f b w) a v := by
  funext x
  unfold upd
  split_ifs with h1 h2 <;> simp_all

/-- Inserting a fresh node `nid` at the tail of the circular list
`col :: vs` realised by the successor field `d` and predecessor field
`u` (the splice performed both by `insertNodeV` and by `spliceRow`):
the result realises `col :: vs ++ [nid]`. -/
theorem tailInsert_spec (d u : Nat → Nat) (col nid : Nat) (vs : List Nat)
    (hd : pathF d col vs col) (hu : pathF u col vs.reverse col)
    (hnd : (col :: vs).Nodup) (hfresh : nid ∉ col :: vs) :
    pathF (upd (upd d nid col) (u col) nid) col (vs ++ [nid]) col ∧
    pathF (upd (upd u nid (u col)) col nid) col (vs ++ [nid]).reverse col := by
  simp only [List.mem_cons, not_or] at hfresh
  have hnidcol : nid ≠ col := hfresh.1
  rcases List.eq_nil_or_concat vs with rfl | ⟨vs', T, rfl⟩
  · have hdc : d col = col := hd
    have huc : u col = col := hu
    constructor
    · simp only [List.nil_append, pathF, huc]
      refine ⟨upd_same _ _ _, ?_⟩
      rw [upd_ne _ _ _ _ hnidcol, upd_same]
    · simp only [List.nil_append, List.reverse_singleton, pathF, huc]
      refine ⟨upd_same _ _ _, ?_⟩
      rw [upd_ne _ _ _ _ hnidcol, upd_same]
  · simp only [List.concat_eq_append] at hd hu hnd hfresh ⊢
    simp only [List.nodup_cons, List.mem_append, List.mem_singleton, not_or,
      List.nodup_append, List.nodup_singleton] at hnd
    obtain ⟨⟨hcvs', hcT⟩, hvs'nd, -, hdisj⟩ := hnd
    have hTvs' : T ∉ vs' := by
      intro hmem
      exact hdisj hmem (List.mem_singleton.2 rfl)
    simp only [List.mem_append, List.mem_singleton, not_or] at hfresh
    obtain ⟨hnc, hnvs', hnT⟩ := hfresh
    have hucol : u col = T := by
      have := tail_of_pathF u col (vs' ++ [T]) hu
      simpa using this
    rw [hucol]
    have hd' : pathF d col vs' T ∧ d T = col := by
      have := (pathF_snoc d col col T vs').1 hd
      exact this
    have hu' : u col = T ∧ pathF u T vs'.reverse col := by
      rw [List.reverse_concat] at hu
      exact ⟨hu.1, hu.2⟩
    constructor
    · rw [List.append_assoc]
      simp only [List.singleton_append]
      rw [pathF_append _ col col T vs' ([nid])]
      refine ⟨?_, ?_⟩
      · rw [pathF_upd _ T nid col T vs' (Ne.symm hcT) hTvs']
        rw [pathF_upd _ nid col col T vs' hnc hnvs']
        exact hd'.1
      · simp only [pathF]
        refine ⟨upd_same _ _ _, ?_⟩
        rw [upd_ne _ _ _ nid hnT, upd_same]
    · simp only [List.reverse_append, List.reverse_singleton,
        List.singleton_append, List.cons_append, List.nil_append, pathF]
      refine ⟨upd_same _ _ _, ?_, ?_⟩
      · rw [upd_ne _ _ _ nid hnc, upd_same]
      · rw [pathF_upd _ col nid T col vs'.reverse hcT
            (by simpa using hcvs')]
        rw [pathF_upd _ nid T T col vs'.reverse hnT
            (by simpa using hnvs')]
        exact hu'.2

/-- `insertNodeV` extends the column realisation at the tail. -/
theorem insert_vert_spec (st : St) (col nid oi : Nat) (vs : List Nat)
    (hd : pathF st.dlink col vs col) (hu : pathF st.ulink col vs.reverse col)
    (hnd : (col :: vs).Nodup) (hfresh : nid ∉ col :: vs) :
    pathF (insertNodeV st col nid oi).dlink col (vs ++ [nid]) col ∧
    pathF (insertNodeV st col nid oi).ulink col (vs ++ [nid]).reverse col := by
  have hnidcol : nid ≠ col := by
    simp only [List.mem_cons, not_or] at hfresh
    exact hfresh.1
  rw [insertNodeV_eq st col nid oi hnidcol]
  exact tailInsert_spec st.dlink st.ulink col nid vs hd hu hnd hfresh

/-- The exact effect of `spliceRow` on each field (writing `L` for the
current predecessor `st.llink first` of the row anchor). -/
theorem spliceRow_eq (st : St) (first nid : Nat) :
    spliceRow st first nid =
      { llink := upd (upd st.llink nid (st.llink first)) first nid
        rlink := upd (upd st.rlink (st.llink first) nid) nid first
        ulink := st.ulink, dlink := st.dlink
        cfield := st.cfield, sfield := st.sfield
        solution := st.solution } := by
  unfold spliceRow
  refine St.ext' _ _ (fun x => ?_) (fun x => ?_) (fun x => rfl) (fun x => rfl)
    (fun x => rfl) (fun x => rfl) rfl
  · rfl
  · rfl

/-- `spliceRow` extends the row realisation at the tail (the row cycle
is anchored at the row's first node, `rlink` is the successor). -/
theorem splice_horiz_spec (st : St) (first nid : Nat) (row : List Nat)
    (hr : pathF st.rlink first row first)
    (hl : pathF st.llink first row.reverse first)
    (hnd : (first :: row).Nodup) (hfresh : nid ∉ first :: row) :
    pathF (spliceRow st first nid).rlink first (row ++ [nid]) first ∧
    pathF (spliceRow st first nid).llink first (row ++ [nid]).reverse first := by
  have hnidf : nid ≠ first := by
    simp only [List.mem_cons, not_or] at hfresh
    exact hfresh.1
  have hLnid : st.llink first ≠ nid := by
    have := tail_of_pathF st.llink first row hl
    rw [this]
    rcases List.eq_nil_or_concat row with rfl | ⟨row', T, rfl⟩
    · simpa using Ne.symm hnidf
    · simp only [List.concat_eq_append, List.getLastD_concat]
      intro h
      simp only [List.mem_cons, not_or, List.mem_append,
        List.mem_singleton] at hfresh
      exact hfresh.2 (by simp [h])
  rw [spliceRow_eq]
  have hcomm : upd (upd st.rlink (st.llink first) nid) nid first =
      upd (upd st.rlink nid first) (st.llink first) nid :=
    upd_comm st.rlink (st.llink first) nid nid first hLnid
  simp only [hcomm]
  exact tailInsert_spec st.rlink st.llink first nid row hr hl hnd hfresh



/-! ### Invariant of the vertical structure while rows are created -/

theorem rowIdxOf_base (m a : Nat) : rowIdxOf m (m + 1 + a) = a / 4 := by
  unfold rowIdxOf; congr 1; omega

theorem rowPosOf_base (m a : Nat) : rowPosOf m (m + 1 + a) = a % 4 := by
  unfold rowPosOf; congr 1; omega

theorem getLastD_mem_cons (vs : List Nat) (c : Nat) :
    vs.getLastD c ∈ c :: vs := by
  rcases List.eq_nil_or_concat vs with rfl | ⟨vs', T, rfl⟩
  · simp
  · simp [List.concat_eq_append, List.getLastD_concat]

theorem mem_vsUpTo_bounds (cons : List String) (opts : List (List String))
    (m t c n : Nat) (h : n ∈ vsUpTo cons opts m t c) :
    m + 1 ≤ n ∧ n < m + 1 + t ∧ colOfNode cons opts m n = c := by
  have := (mem_vsUpTo cons opts m t c n).1 h
  exact ⟨this.1.1, this.1.2, this.2⟩

/-- `MidV` only looks at the `ulink`, `dlink`, `c` and `s` fields. -/
theorem MidV_congr (cons : List String) (opts : List (List String))
    (t : Nat) (st st' : St)
    (hu : st'.ulink = st.ulink) (hd : st'.dlink = st.dlink)
    (hc : st'.cfield = st.cfield) (hs : st'.sfield = st.sfield)
    (h : MidV cons opts t st) : MidV cons opts t st' := by
  constructor
  · intro c h1 h2; rw [hd]; exact h.vert c h1 h2
  · intro c h1 h2; rw [hu]; exact h.vertU c h1 h2
  · intro a ha; rw [hc]; exact h.cf a ha
  · intro a ha; rw [hs]; exact h.sfr a ha
  · intro c h1 h2; rw [hs]; exact h.sfc c h1 h2

theorem vsUpTo_cons_nodup (cons : List String) (opts : List (List String))
    (m t c : Nat) (hc2 : c ≤ m) : (c :: vsUpTo cons opts m t c).Nodup := by
  refine List.nodup_cons.2 ⟨?_, vsUpTo_nodup cons opts m t c⟩
  intro hmem
  have := mem_vsUpTo_bounds cons opts m t c c hmem
  omega

/-- One vertical insertion step preserves `MidV`. -/
theorem MidV_step (cons : List String) (opts : List (List String)) (t : Nat)
    (st : St) (hmv : MidV cons opts t st)
    (hc1 : 1 ≤ colOfNode cons opts cons.length (cons.length + 1 + t))
    (hc2 : colOfNode cons opts cons.length (cons.length + 1 + t) ≤ cons.length) :
    MidV cons opts (t + 1)
      (insertNodeV st (colOfNode cons opts cons.length (cons.length + 1 + t))
        (cons.length + 1 + t) (t / 4)) := by
  set m := cons.length with hm
  set n := m + 1 + t with hn
  set c := colOfNode cons opts m n with hcdef
  have hnc : n ≠ c := by omega
  have hfresh : n ∉ c :: vsUpTo cons opts m t c := by
    simp only [List.mem_cons, not_or]
    refine ⟨hnc, ?_⟩
    intro hmem
    have := mem_vsUpTo_bounds cons opts m t c n hmem
    omega
  have hTmem := getLastD_mem_cons (vsUpTo cons opts m t c) c
  have hT_not : ∀ c2, 1 ≤ c2 → c2 ≤ m → c2 ≠ c →
      (vsUpTo cons opts m t c).getLastD c ∉ c2 :: vsUpTo cons opts m t c2 := by
    intro c2 h1 h2 hne
    simp only [List.mem_cons, not_or]
    rcases List.mem_cons.1 hTmem with hTc | hTv
    · constructor
      · rw [hTc]; exact fun h => hne h.symm
      · rw [hTc]; intro hmem
        have := mem_vsUpTo_bounds cons opts m t c2 c hmem
        omega
    · have hb := mem_vsUpTo_bounds cons opts m t c _ hTv
      constructor
      · omega
      · intro hmem
        have hb2 := mem_vsUpTo_bounds cons opts m t c2 _ hmem
        rw [hb.2.2] at hb2
        exact hne hb2.2.2.symm
  have hn_not : ∀ c2, 1 ≤ c2 → c2 ≤ m →
      n ∉ c2 :: vsUpTo cons opts m t c2 := by
    intro c2 h1 h2
    simp only [List.mem_cons, not_or]
    constructor
    · omega
    · intro hmem
      have := mem_vsUpTo_bounds cons opts m t c2 n hmem
      omega
  have hspec := insert_vert_spec st c n (t / 4) (vsUpTo cons opts m t c)
    (hmv.vert c hc1 hc2) (hmv.vertU c hc1 hc2)
    (vsUpTo_cons_nodup cons opts m t c hc2) hfresh
  have heq := insertNodeV_eq st c n (t / 4) hnc
  refine ⟨?_, ?_, ?_, ?_, ?_⟩
  · intro c2 h1 h2
    rcases eq_or_ne c2 c with rfl | hne
    · rw [vsUpTo_succ, ← hn, if_pos rfl]
      exact hspec.1
    · rw [vsUpTo_succ, ← hn, if_neg (fun h => hne h.symm), List.append_nil]
      rw [heq]
      simp only []
      have h1a := hT_not c2 h1 h2 hne
      simp only [List.mem_cons, not_or] at h1a
      have h2a := hn_not c2 h1 h2
      simp only [List.mem_cons, not_or] at h2a
      rw [pathF_upd _ (st.ulink c) n c2 c2 _ ?_ ?_]
      · rw [pathF_upd _ n c c2 c2 _ h2a.1 h2a.2]
        exact hmv.vert c2 h1 h2
      · have := tail_of_pathF st.ulink c (vsUpTo cons opts m t c)
          (hmv.vertU c hc1 hc2)
        rw [this]
        exact h1a.1
      · have := tail_of_pathF st.ulink c (vsUpTo cons opts m t c)
          (hmv.vertU c hc1 hc2)
        rw [this]
        exact h1a.2
  · intro c2 h1 h2
    rcases eq_or_ne c2 c with rfl | hne
    · rw [vsUpTo_succ, ← hn, if_pos rfl]
      exact hspec.2
    · rw [vsUpTo_succ, ← hn, if_neg (fun h => hne h.symm), List.append_nil]
      rw [heq]
      simp only []
      have h2a := hn_not c2 h1 h2
      simp only [List.mem_cons, not_or] at h2a
      rw [pathF_upd _ c n c2 c2 _ (fun h => hne h.symm) ?_]
      · rw [pathF_upd _ n (st.ulink c) c2 c2 _ h2a.1 ?_]
        · exact hmv.vertU c2 h1 h2
        · simpa using h2a.2
      · simp only [List.mem_reverse]
        intro hmem
        have := mem_vsUpTo_bounds cons opts m t c2 c hmem
        omega
  · intro a ha
    rw [heq]
    simp only []
    rcases Nat.lt_or_ge a t with halt | hage
    · rw [upd_ne _ _ _ _ (by omega)]
      exact hmv.cf a halt
    · have hat : a = t := by omega
      subst hat
      rw [← hn, upd_same]
  · intro a ha
    rw [heq]
    simp only []
    rcases Nat.lt_or_ge a t with halt | hage
    · rw [updZ_ne _ _ _ _ (by omega), updZ_ne _ _ _ _ (by omega)]
      exact hmv.sfr a halt
    · have hat : a = t := by omega
      subst hat
      rw [← hn, updZ_ne _ _ _ _ (by omega), updZ_same]
  · intro c2 h1 h2
    rw [heq]
    simp only []
    rcases eq_or_ne c2 c with rfl | hne
    · rw [updZ_same, hmv.sfc c h1 h2]
      rw [vsUpTo_succ, ← hn, if_pos rfl]
      simp [List.length_append]
    · rw [updZ_ne _ _ _ _ hne, updZ_ne _ _ _ _ (by omega)]
      rw [vsUpTo_succ, ← hn, if_neg (fun h => hne h.symm), List.append_nil]
      exact hmv.sfc c2 h1 h2


/-! ### Invariant of the whole build, option row by option row -/

theorem rowNextF_at (m q p : Nat) (hp : p < 4) :
    rowNextF m (m + 1 + (4 * q + p)) = m + 1 + (4 * q + (p + 1) % 4) := by
  unfold rowNextF
  rw [rowIdxOf_base, rowPosOf_base]
  omega

theorem rowPrevF_at (m q p : Nat) (hp : p < 4) :
    rowPrevF m (m + 1 + (4 * q + p)) = m + 1 + (4 * q + (p + 3) % 4) := by
  unfold rowPrevF
  rw [rowIdxOf_base, rowPosOf_base]
  omega

/-- Applied form of `MidV_step`. -/
theorem MidV_step' (cons : List String) (opts : List (List String)) (t : Nat)
    (st : St) (hmv : MidV cons opts t st) (col n oi : Nat)
    (hcol : col = colOfNode cons opts cons.length (cons.length + 1 + t))
    (hn : n = cons.length + 1 + t) (hoi : oi = t / 4)
    (hc1 : 1 ≤ col) (hc2 : col ≤ cons.length) :
    MidV cons opts (t + 1) (insertNodeV st col n oi) := by
  subst hcol hn hoi
  exact MidV_step cons opts t st hmv hc1 hc2

theorem addOptionNodes_nil (cons : List String) (oi nid : Nat)
    (first : Option Nat) (st : St) :
    addOptionNodes cons oi [] nid first st = st := rfl

theorem addOptionNodes_cons_none (cons : List String) (oi : Nat)
    (lab : String) (labs : List String) (nid : Nat) (st : St) :
    addOptionNodes cons oi (lab :: labs) nid none st =
      addOptionNodes cons oi labs (nid + 1) (some nid)
        { llink := upd (insertNodeV st (colId cons lab) nid oi).llink nid nid
          rlink := upd (insertNodeV st (colId cons lab) nid oi).rlink nid nid
          ulink := (insertNodeV st (colId cons lab) nid oi).ulink
          dlink := (insertNodeV st (colId cons lab) nid oi).dlink
          cfield := (insertNodeV st (colId cons lab) nid oi).cfield
          sfield := (insertNodeV st (colId cons lab) nid oi).sfield
          solution := (insertNodeV st (colId cons lab) nid oi).solution } :=
  rfl

theorem addOptionNodes_cons_some (cons : List String) (oi : Nat)
    (lab : String) (labs : List String) (nid f : Nat) (st : St) :
    addOptionNodes cons oi (lab :: labs) nid (some f) st =
      addOptionNodes cons oi labs (nid + 1) (some f)
        (spliceRow (insertNodeV st (colId cons lab) nid oi) f nid) := rfl

set_option maxHeartbeats 2000000 in
theorem MidB_step (cons : List String) (opts : List (List String)) (q : Nat)
    (st : St) (hmb : MidB cons opts q st)
    (l0 l1 l2 l3 : String) (hl4 : opts.getD q [] = [l0, l1, l2, l3])
    (hcols : ∀ lab ∈ [l0, l1, l2, l3],
      1 ≤ colId cons lab ∧ colId cons lab ≤ cons.length) :
    MidB cons opts (q + 1)
      (addOptionNodes cons q (opts.getD q [])
        (cons.length + 1 + 4 * q) none st) := by
  set B := cons.length + 1 + 4 * q with hB
  have hcol : ∀ p, p < 4 → colOfNode cons opts cons.length
      (cons.length + 1 + (4 * q + p)) =
      colId cons ([l0, l1, l2, l3].getD p "") := by
    intro p hp
    unfold colOfNode labelOf
    rw [rowIdxOf_base, rowPosOf_base]
    have h1 : (4 * q + p) / 4 = q := by omega
    have h2 : (4 * q + p) % 4 = p := by omega
    rw [h1, h2, hl4]
  have hxne : ∀ x, x ≤ cons.length →
      x ≠ B ∧ x ≠ B + 1 ∧ x ≠ B + 2 ∧ x ≠ B + 3 := by
    intro x hx
    omega
  have hane : ∀ a, a < 4 * q →
      cons.length + 1 + a ≠ B ∧ cons.length + 1 + a ≠ B + 1 ∧
      cons.length + 1 + a ≠ B + 2 ∧ cons.length + 1 + a ≠ B + 3 := by
    intro a ha
    omega
  have hsplit : ∀ a, a < 4 * (q + 1) →
      a < 4 * q ∨ a = 4 * q ∨ a = 4 * q + 1 ∨ a = 4 * q + 2 ∨
      a = 4 * q + 3 := by
    intro a ha
    omega
  have he0 : cons.length + 1 + (4 * q) = B := by omega
  have he1 : cons.length + 1 + (4 * q + 1) = B + 1 := by omega
  have he2 : cons.length + 1 + (4 * q + 2) = B + 2 := by omega
  have he3 : cons.length + 1 + (4 * q + 3) = B + 3 := by omega
  have he4 : 4 * (q + 1) = 4 * q + 1 + 1 + 1 + 1 := by omega
  have hN0 : rowNextF cons.length B = B + 1 := by
    rw [show B = cons.length + 1 + (4 * q + 0) from by omega]
    unfold rowNextF
    rw [rowIdxOf_base, rowPosOf_base]
    omega
  have hN1 : rowNextF cons.length (B + 1) = B + 2 := by
    rw [show B + 1 = cons.length + 1 + (4 * q + 1) from by omega]
    unfold rowNextF
    rw [rowIdxOf_base, rowPosOf_base]
    omega
  have hN2 : rowNextF cons.length (B + 2) = B + 3 := by
    rw [show B + 2 = cons.length + 1 + (4 * q + 2) from by omega]
    unfold rowNextF
    rw [rowIdxOf_base, rowPosOf_base]
    omega
  have hN3 : rowNextF cons.length (B + 3) = B := by
    rw [show B + 3 = cons.length + 1 + (4 * q + 3) from by omega]
    unfold rowNextF
    rw [rowIdxOf_base, rowPosOf_base]
    omega
  have hP0 : rowPrevF cons.length B = B + 3 := by
    rw [show B = cons.length + 1 + (4 * q + 0) from by omega]
    unfold rowPrevF
    rw [rowIdxOf_base, rowPosOf_base]
    omega
  have hP1 : rowPrevF cons.length (B + 1) = B := by
    rw [show B + 1 = cons.length + 1 + (4 * q + 1) from by omega]
    unfold rowPrevF
    rw [rowIdxOf_base, rowPosOf_base]
    omega
  have hP2 : rowPrevF cons.length (B + 2) = B + 1 := by
    rw [show B + 2 = cons.length + 1 + (4 * q + 2) from by omega]
    unfold rowPrevF
    rw [rowIdxOf_base, rowPosOf_base]
    omega
  have hP3 : rowPrevF cons.length (B + 3) = B + 2 := by
    rw [show B + 3 = cons.length + 1 + (4 * q + 3) from by omega]
    unfold rowPrevF
    rw [rowIdxOf_base, rowPosOf_base]
    omega
  have hc0 := hcols l0 (by simp)
  have hc1 := hcols l1 (by simp)
  have hc2 := hcols l2 (by simp)
  have hc3 := hcols l3 (by simp)
  rw [hl4, addOptionNodes_cons_none, addOptionNodes_cons_some,
    addOptionNodes_cons_some, addOptionNodes_cons_some, addOptionNodes_nil,
    show B + 1 + 1 = B + 2 from rfl, show B + 2 + 1 = B + 3 from rfl]
  set stA := insertNodeV st (colId cons l0) B q with hstA
  set stC : St := { llink := upd stA.llink B B, rlink := upd stA.rlink B B, ulink := stA.ulink, dlink := stA.dlink, cfield := stA.cfield, sfield := stA.sfield, solution := stA.solution } with hstC
  set stD := insertNodeV stC (colId cons l1) (B + 1) q with hstD
  set stE := spliceRow stD B (B + 1) with hstE
  set stF := insertNodeV stE (colId cons l2) (B + 2) q with hstF
  set stG := spliceRow stF B (B + 2) with hstG
  set stH := insertNodeV stG (colId cons l3) (B + 3) q with hstH
  set stI := spliceRow stH B (B + 3) with hstI
  -- the vertical invariant is carried through the four insertions
  have hmvA : MidV cons opts (4 * q + 1) stA := by
    refine MidV_step' cons opts (4 * q) st hmb.mv _ _ _ ?_ ?_ ?_ hc0.1 hc0.2
    · have h := hcol 0 (by omega)
      simp only [List.getD] at h
      rw [show cons.length + 1 + (4 * q + 0) = B from by omega] at h
      simpa using h.symm
    · exact hB
    · omega
  have hmvC : MidV cons opts (4 * q + 1) stC :=
    MidV_congr cons opts (4 * q + 1) stA stC rfl rfl rfl rfl hmvA
  have hmvD : MidV cons opts (4 * q + 1 + 1) stD := by
    refine MidV_step' cons opts (4 * q + 1) stC hmvC _ _ _ ?_ ?_ ?_ hc1.1 hc1.2
    · have h := hcol 1 (by omega)
      simp only [List.getD] at h
      rw [show cons.length + 1 + (4 * q + 1) = B + 1 from by omega] at h
      rw [show cons.length + 1 + (4 * q + 1) = B + 1 from by omega]
      simpa using h.symm
    · omega
    · omega
  have hmvE : MidV cons opts (4 * q + 1 + 1) stE :=
    MidV_congr cons opts (4 * q + 1 + 1) stD stE rfl rfl rfl rfl hmvD
  have hmvF : MidV cons opts (4 * q + 1 + 1 + 1) stF := by
    refine MidV_step' cons opts (4 * q + 1 + 1) stE hmvE _ _ _ ?_ ?_ ?_
      hc2.1 hc2.2
    · have h := hcol 2 (by omega)
      simp only [List.getD] at h
      rw [show cons.length + 1 + (4 * q + 2) = B + 2 from by omega] at h
      rw [show cons.length + 1 + (4 * q + 1 + 1) = B + 2 from by omega]
      simpa using h.symm
    · omega
    · omega
  have hmvG : MidV cons opts (4 * q + 1 + 1 + 1) stG :=
    MidV_congr cons opts (4 * q + 1 + 1 + 1) stF stG rfl rfl rfl rfl hmvF
  have hmvH : MidV cons opts (4 * q + 1 + 1 + 1 + 1) stH := by
    refine MidV_step' cons opts (4 * q + 1 + 1 + 1) stG hmvG _ _ _ ?_ ?_ ?_
      hc3.1 hc3.2
    · have h := hcol 3 (by omega)
      simp only [List.getD] at h
      rw [show cons.length + 1 + (4 * q + 3) = B + 3 from by omega] at h
      rw [show cons.length + 1 + (4 * q + 1 + 1 + 1) = B + 3 from by omega]
      simpa using h.symm
    · omega
    · omega
  have hmvI : MidV cons opts (4 * q + 1 + 1 + 1 + 1) stI :=
    MidV_congr cons opts (4 * q + 1 + 1 + 1 + 1) stH stI rfl rfl rfl rfl hmvH
  -- the horizontal row cycle of the new option
  have hr0 : pathF stD.rlink B [] B := by
    show stD.rlink B = B
    rw [hstD, insertNodeV_rlink, hstC]
    show upd stA.rlink B B B = B
    exact upd_same _ _ _
  have hl0 : pathF stD.llink B ([] : List Nat).reverse B := by
    show stD.llink B = B
    rw [hstD, insertNodeV_llink, hstC]
    show upd stA.llink B B B = B
    exact upd_same _ _ _
  have hfresh1 : (B + 1 : Nat) ∉ ([B] : List Nat) := by
    intro h
    simp only [List.mem_cons, List.not_mem_nil, or_false] at h
    omega
  have hsp1 := splice_horiz_spec stD B (B + 1) [] hr0 hl0 (by simp) hfresh1
  rw [List.nil_append] at hsp1
  have hsp1r : pathF stE.rlink B [B + 1] B := hsp1.1
  have hsp1l : pathF stE.llink B ([B + 1] : List Nat).reverse B := hsp1.2
  have hnd2 : ([B, B + 1] : List Nat).Nodup := by
    refine List.nodup_cons.2 ⟨?_, List.nodup_singleton _⟩
    intro h
    simp only [List.mem_cons, List.not_mem_nil, or_false] at h
    omega
  have hfresh2 : (B + 2 : Nat) ∉ ([B, B + 1] : List Nat) := by
    intro h
    simp only [List.mem_cons, List.not_mem_nil, or_false] at h
    omega
  have hsp2 := splice_horiz_spec stF B (B + 2) [B + 1]
    (by rw [hstF, insertNodeV_rlink]; exact hsp1r)
    (by rw [hstF, insertNodeV_llink]; exact hsp1l)
    hnd2 hfresh2
  rw [show ([B + 1] : List Nat) ++ [B + 2] = [B + 1, B + 2] from rfl] at hsp2
  have hsp2r : pathF stG.rlink B [B + 1, B + 2] B := hsp2.1
  have hsp2l : pathF stG.llink B ([B + 1, B + 2] : List Nat).reverse B :=
    hsp2.2
  have hnd3 : ([B, B + 1, B + 2] : List Nat).Nodup := by
    refine List.nodup_cons.2 ⟨?_, List.nodup_cons.2
      ⟨?_, List.nodup_singleton _⟩⟩
    · intro h
      simp only [List.mem_cons, List.not_mem_nil, or_false] at h
      omega
    · intro h
      simp only [List.mem_cons, List.not_mem_nil, or_false] at h
      omega
  have hfresh3 : (B + 3 : Nat) ∉ ([B, B + 1, B + 2] : List Nat) := by
    intro h
    simp only [List.mem_cons, List.not_mem_nil, or_false] at h
    omega
  have hsp3 := splice_horiz_spec stH B (B + 3) [B + 1, B + 2]
    (by rw [hstH, insertNodeV_rlink]; exact hsp2r)
    (by rw [hstH, insertNodeV_llink]; exact hsp2l)
    hnd3 hfresh3
  rw [show ([B + 1, B + 2] : List Nat) ++ [B + 3] = [B + 1, B + 2, B + 3]
    from rfl] at hsp3
  have hsp3r : pathF stI.rlink B [B + 1, B + 2, B + 3] B := hsp3.1
  have hsp3l : pathF stI.llink B ([B + 1, B + 2, B + 3] : List Nat).reverse B :=
    hsp3.2
  have hRI : stI.rlink B = B + 1 ∧ stI.rlink (B + 1) = B + 2 ∧
      stI.rlink (B + 2) = B + 3 ∧ stI.rlink (B + 3) = B := by
    simpa only [pathF] using hsp3r
  have hLI : stI.llink B = B + 3 ∧ stI.llink (B + 3) = B + 2 ∧
      stI.llink (B + 2) = B + 1 ∧ stI.llink (B + 1) = B := by
    have h := hsp3l
    simp only [List.reverse_cons, List.reverse_nil, List.nil_append,
      List.cons_append, List.singleton_append, pathF] at h
    exact h
  -- values of `llink B` before each splice (needed for the frame)
  have hLD : stD.llink B = B := hl0
  have hLF : stF.llink B = B + 1 := by
    rw [hstF, insertNodeV_llink]
    have h := hsp1l
    simp only [List.reverse_singleton, pathF] at h
    exact h.1
  have hLH : stH.llink B = B + 2 := by
    rw [hstH, insertNodeV_llink]
    have h := hsp2l
    simp only [List.reverse_cons, List.reverse_nil, List.nil_append,
      List.cons_append, List.singleton_append, pathF] at h
    exact h.1
  have hframeR : ∀ x, x ≠ B → x ≠ B + 1 → x ≠ B + 2 → x ≠ B + 3 →
      stI.rlink x = st.rlink x := by
    intro x h0 h1 h2 h3
    rw [hstI, spliceRow_eq]
    simp only []
    rw [upd_ne _ _ _ _ h3, upd_ne _ _ _ _ (by rw [hLH]; exact h2)]
    rw [hstH, insertNodeV_rlink, hstG, spliceRow_eq]
    simp only []
    rw [upd_ne _ _ _ _ h2, upd_ne _ _ _ _ (by rw [hLF]; exact h1)]
    rw [hstF, insertNodeV_rlink, hstE, spliceRow_eq]
    simp only []
    rw [upd_ne _ _ _ _ h1, upd_ne _ _ _ _ (by rw [hLD]; exact h0)]
    rw [hstD, insertNodeV_rlink, hstC]
    show upd stA.rlink B B x = st.rlink x
    rw [upd_ne _ _ _ _ h0, hstA, insertNodeV_rlink]
  have hframeL : ∀ x, x ≠ B → x ≠ B + 1 → x ≠ B + 2 → x ≠ B + 3 →
      stI.llink x = st.llink x := by
    intro x h0 h1 h2 h3
    rw [hstI, spliceRow_eq]
    simp only []
    rw [upd_ne _ _ _ _ h0, upd_ne _ _ _ _ h3]
    rw [hstH, insertNodeV_llink, hstG, spliceRow_eq]
    simp only []
    rw [upd_ne _ _ _ _ h0, upd_ne _ _ _ _ h2]
    rw [hstF, insertNodeV_llink, hstE, spliceRow_eq]
    simp only []
    rw [upd_ne _ _ _ _ h0, upd_ne _ _ _ _ h1]
    rw [hstD, insertNodeV_llink, hstC]
    show upd stA.llink B B x = st.llink x
    rw [upd_ne _ _ _ _ h0, hstA, insertNodeV_llink]
  refine ⟨?_, ?_, ?_, ?_, ?_, ?_⟩
  · rw [he4]
    exact hmvI
  · intro x hx
    rw [hframeL x (hxne x hx).1 (hxne x hx).2.1 (hxne x hx).2.2.1
      (hxne x hx).2.2.2]
    exact hmb.hl x hx
  · intro x hx
    rw [hframeR x (hxne x hx).1 (hxne x hx).2.1 (hxne x hx).2.2.1
      (hxne x hx).2.2.2]
    exact hmb.hr x hx
  · intro a ha
    rcases hsplit a ha with h | rfl | rfl | rfl | rfl
    · rw [hframeR _ (hane a h).1 (hane a h).2.1 (hane a h).2.2.1
        (hane a h).2.2.2]
      exact hmb.rowr a h
    · rw [he0, hN0]
      exact hRI.1
    · rw [he1, hN1]
      exact hRI.2.1
    · rw [he2, hN2]
      exact hRI.2.2.1
    · rw [he3, hN3]
      exact hRI.2.2.2
  · intro a ha
    rcases hsplit a ha with h | rfl | rfl | rfl | rfl
    · rw [hframeL _ (hane a h).1 (hane a h).2.1 (hane a h).2.2.1
        (hane a h).2.2.2]
      exact hmb.rowl a h
    · rw [he0, hP0]
      exact hLI.1
    · rw [he1, hP1]
      exact hLI.2.2.2
    · rw [he2, hP2]
      exact hLI.2.2.1
    · rw [he3, hP3]
      exact hLI.2.1
  · show stI.solution = []
    have h : stI.solution = st.solution := rfl
    rw [h]
    exact hmb.sol


/-! ### From the header skeleton to the fully built matrix -/

theorem addRows_cons (cons : List String) (opt : List String)
    (opts : List (List String)) (oi nid : Nat) (st : St) :
    addRows cons (opt :: opts) oi nid st =
      addRows cons opts (oi + 1) (nid + opt.length)
        (addOptionNodes cons oi opt nid none st) := rfl

theorem mem_insertSorted (x y : String) (l : List String) :
    y ∈ insertSorted x l ↔ y = x ∨ y ∈ l := by
  induction l with
  | nil => simp [insertSorted]
  | cons z zs ih =>
    unfold insertSorted
    split_ifs with h
    · simp [List.mem_cons]
    · simp only [List.mem_cons, ih]
      tauto

theorem mem_sortStr (y : String) (l : List String) :
    y ∈ sortStr l ↔ y ∈ l := by
  induction l with
  | nil => simp [sortStr]
  | cons x xs ih =>
    unfold sortStr
    rw [mem_insertSorted]
    simp [List.mem_cons, ih]

theorem mem_getConstraintUniverse (lab : String)
    (opts : List (List String)) :
    lab ∈ getConstraintUniverse opts ↔ ∃ opt ∈ opts, lab ∈ opt := by
  unfold getConstraintUniverse
  rw [mem_sortStr, List.mem_dedup, List.mem_flatMap]
  simp

theorem posOf_lt_length (l : List String) (x : String) (h : x ∈ l) :
    posOf l x < l.length := by
  induction l with
  | nil => cases h
  | cons y ys ih =>
    unfold posOf
    split_ifs with hxy
    · simp
    · rcases List.mem_cons.1 h with h1 | h1
      · exact absurd h1 hxy
      · have := ih h1
        simp only [List.length_cons]
        omega

theorem colId_bounds (cons : List String) (lab : String) (h : lab ∈ cons) :
    1 ≤ colId cons lab ∧ colId cons lab ≤ cons.length := by
  unfold colId
  have := posOf_lt_length cons lab h
  omega

theorem MidB_init (cons : List String) (opts : List (List String)) :
    MidB cons opts 0 (headerSt cons.length) := by
  refine ⟨⟨?_, ?_, ?_, ?_, ?_⟩, ?_, ?_, ?_, ?_, ?_⟩
  · intro c h1 h2
    show (headerSt cons.length).dlink c = c
    rfl
  · intro c h1 h2
    show (headerSt cons.length).ulink c = c
    rfl
  · intro a ha
    omega
  · intro a ha
    omega
  · intro c h1 h2
    rfl
  · intro x hx
    rfl
  · intro x hx
    rfl
  · intro a ha
    omega
  · intro a ha
    omega
  · rfl

theorem addRows_spec (cons : List String) (opts : List (List String))
    (hopts : ∀ opt ∈ opts, (∃ a b c d, opt = [a, b, c, d]) ∧
      ∀ lab ∈ opt, 1 ≤ colId cons lab ∧ colId cons lab ≤ cons.length) :
    ∀ rest q st, rest = opts.drop q → q + rest.length = opts.length →
    MidB cons opts q st →
    MidB cons opts opts.length
      (addRows cons rest q (cons.length + 1 + 4 * q) st) := by
  intro rest
  induction rest with
  | nil =>
    intro q st h1 h2 hmb
    have hq : q = opts.length := by simpa using h2
    show MidB cons opts opts.length st
    rw [← hq]
    exact hmb
  | cons opt rest ih =>
    intro q st h1 h2 hmb
    have hmem : opt ∈ opts := by
      have : opt ∈ opts.drop q := by
        rw [← h1]
        exact List.mem_cons_self opt rest
      exact List.mem_of_mem_drop this
    have hgetD : opts.getD q [] = opt := by
      have hh : opts[q]? = some opt := by
        rw [← List.head?_drop, ← h1]
        rfl
      simp [List.getD_eq_getElem?_getD, hh]
    obtain ⟨⟨a, b, c, d, heq⟩, hlabs⟩ := hopts opt hmem
    have hstep := MidB_step cons opts q st hmb a b c d
      (by rw [hgetD, heq]) (by rw [← heq]; exact hlabs)
    rw [hgetD] at hstep
    rw [addRows_cons]
    have hlen : opt.length = 4 := by rw [heq]; rfl
    have hdrop : rest = opts.drop (q + 1) := by
      have h3 : opts.drop (q + 1) = (opts.drop q).drop 1 := by
        rw [List.drop_drop]
      rw [h3, ← h1]
      rfl
    have happ := ih (q + 1)
      (addOptionNodes cons q opt (cons.length + 1 + 4 * q) none st)
      hdrop (by simp at h2 ⊢; omega) hstep
    rw [hlen, show cons.length + 1 + 4 * q + 4 =
      cons.length + 1 + 4 * (q + 1) from by omega]
    exact happ

/-- The matrix built by `DLXSudoku.__init__` satisfies the full build
invariant. -/
theorem buildSt_spec (b : Board) :
    MidB (getConstraintUniverse (getAllOptions b)) (getAllOptions b)
      (getAllOptions b).length (buildSt b) := by
  set opts := getAllOptions b with hopts
  set cons := getConstraintUniverse opts with hcons
  have hfmt : ∀ opt ∈ opts, (∃ a b2 c d, opt = [a, b2, c, d]) ∧
      ∀ lab ∈ opt, 1 ≤ colId cons lab ∧ colId cons lab ≤ cons.length := by
    intro opt hmem
    constructor
    · rw [hopts] at hmem
      unfold getAllOptions at hmem
      rcases List.mem_map.1 hmem with ⟨mv, hmv, rfl⟩
      exact ⟨_, _, _, _, rfl⟩
    · intro lab hlab
      refine colId_bounds cons lab ?_
      rw [hcons]
      exact (mem_getConstraintUniverse lab opts).2 ⟨opt, hmem, hlab⟩
  have h0 := addRows_spec cons opts hfmt opts 0 (headerSt cons.length)
    (by simp) (by simp) (MidB_init cons opts)
  show MidB cons opts opts.length
    (addRows (getConstraintUniverse opts) opts 0
      ((getConstraintUniverse opts).length + 1)
      (addHeaders initSt 1 (getConstraintUniverse opts)))
  rw [← hcons, addHeaders_initSt]
  rw [show cons.length + 1 = cons.length + 1 + 4 * 0 from by omega]
  exact h0


/-! ### Concrete counterexamples and the concrete scenario -/

set_option maxRecDepth 40000 in
/-- **C2, counterexample**: solving the spec's scenario board succeeds,
but the board has a fifth blank cell `(1,1)` which the solver fills
with `9`; the cell is not among the four listed in the claim, so "every
other cell unchanged" fails. -/
theorem claim2_counterexample :
    solveSudoku scenarioBoard 10 100 = some (some scenarioSolved) ∧
    getCell scenarioBoard 1 1 = 0 ∧ getCell scenarioSolved 1 1 = 9 ∧
    ((1 : Nat), (1 : Nat)) ∉
      [((0 : Nat), (1 : Nat)), (2, 7), (7, 1), (8, 3)] := by
  decide

set_option maxRecDepth 40000 in
/-- **C2, amended**: the scenario board solves to exactly the five cell
assignments `(0,1)=7`, `(1,1)=9`, `(2,7)=7`, `(7,1)=1`, `(8,3)=7`, and
every cell outside these five is unchanged from the input. -/
theorem claim2_amended :
    solveSudoku scenarioBoard 10 100 = some (some scenarioSolved) ∧
    getCell scenarioSolved 0 1 = 7 ∧ getCell scenarioSolved 1 1 = 9 ∧
    getCell scenarioSolved 2 7 = 7 ∧ getCell scenarioSolved 7 1 = 1 ∧
    getCell scenarioSolved 8 3 = 7 ∧
    (∀ i, i < 9 → ∀ j, j < 9 →
      (i, j) ∉ [((0 : Nat), (1 : Nat)), (1, 1), (2, 7), (7, 1), (8, 3)] →
      getCell scenarioSolved i j = getCell scenarioBoard i j) := by
  decide

/-- **C1, counterexample**: on the all-ones board (no blank cell, not a
valid grid) the solver reports `Solved` and returns the board, but the
returned grid does not satisfy the Sudoku constraints. -/
theorem claim1_counterexample :
    solveSudoku onesBoard 2 20 = some (some onesBoard) ∧
    sudokuValid onesBoard = false := by
  decide

/-- All cells of `twosBoard` hold the digit `2`. -/
theorem twosBoard_cells : ∀ i, i < 9 → ∀ j, j < 9 →
    getCell twosBoard i j = 2 := by
  decide

/-- **C4, counterexample**: the all-twos board has no legal completion
(it has no blank cell and is itself invalid), yet the solver returns the
board itself rather than the no-solution indicator `None`. -/
theorem claim4_counterexample :
    (¬ ∃ b2, isCompletionOf b2 twosBoard) ∧
    solveSudoku twosBoard 2 20 = some (some twosBoard) := by
  constructor
  · rintro ⟨b2, -, -, h3, -, h5⟩
    have hcell : ∀ i j, i < 9 → j < 9 → getCell b2 i j = 2 := by
      intro i j hi hj
      have h2 := twosBoard_cells i hi j hj
      have := h3 i j hi hj (by rw [h2]; omega)
      rw [this, h2]
    have hrow : rowHasOnce b2 0 1 = false := by
      unfold rowHasOnce
      have hfil : (List.range 9).filter (fun j => getCell b2 0 j == 1) = [] := by
        rw [List.filter_eq_nil_iff]
        intro j hj
        rw [hcell 0 j (by omega) (List.mem_range.1 hj)]
        decide
      rw [hfil]
      rfl
    unfold sudokuValid at h5
    rw [Bool.and_eq_true, Bool.and_eq_true] at h5
    have h6 := (List.all_eq_true.1 h5.1.1) 0 (by decide)
    have h7 := (List.all_eq_true.1 h6) 1 (by decide)
    rw [hrow] at h7
    cases h7
  · decide


/-- Outside its two blank cells, every cell of `conflictBoard` is
non-blank. -/
theorem conflictBoard_nonzero : ∀ i, i < 9 → ∀ j, j < 9 →
    ¬(i = 0 ∧ j = 0) → ¬(i = 0 ∧ j = 1) → getCell conflictBoard i j ≠ 0 := by
  decide

/-- `conflictBoard` admits no legal completion: both blank cells sit in
row 0, whose missing digits are 1 and 2, but the digit 2 is excluded
from both blanks by their columns, so no completion can place a 2 in
row 0. -/
theorem conflictBoard_no_completion : ¬ ∃ b2, isCompletionOf b2 conflictBoard := by
  rintro ⟨b2, -, -, h3, -, h5⟩
  have hag : ∀ i j, i < 9 → j < 9 → ¬(i = 0 ∧ j = 0) → ¬(i = 0 ∧ j = 1) →
      getCell b2 i j = getCell conflictBoard i j := by
    intro i j hi hj hn1 hn2
    exact h3 i j hi hj (conflictBoard_nonzero i hi j hj hn1 hn2)
  unfold sudokuValid at h5
  rw [Bool.and_eq_true, Bool.and_eq_true] at h5
  obtain ⟨⟨hA, hB⟩, -⟩ := h5
  have hrow02 : rowHasOnce b2 0 2 = true :=
    List.all_eq_true.1 (List.all_eq_true.1 hA 0 (by decide)) 2 (by decide)
  have hcol02 : colHasOnce b2 0 2 = true :=
    List.all_eq_true.1 (List.all_eq_true.1 hB 0 (by decide)) 2 (by decide)
  have hcol12 : colHasOnce b2 1 2 = true :=
    List.all_eq_true.1 (List.all_eq_true.1 hB 1 (by decide)) 2 (by decide)
  have e10 : getCell b2 1 0 = 2 := by
    rw [hag 1 0 (by omega) (by omega) (by simp) (by simp)]
    rfl
  have e20 : getCell b2 2 0 = 9 := by
    rw [hag 2 0 (by omega) (by omega) (by simp) (by simp)]
    rfl
  have e30 : getCell b2 3 0 = 9 := by
    rw [hag 3 0 (by omega) (by omega) (by simp) (by simp)]
    rfl
  have e40 : getCell b2 4 0 = 9 := by
    rw [hag 4 0 (by omega) (by omega) (by simp) (by simp)]
    rfl
  have e50 : getCell b2 5 0 = 9 := by
    rw [hag 5 0 (by omega) (by omega) (by simp) (by simp)]
    rfl
  have e60 : getCell b2 6 0 = 9 := by
    rw [hag 6 0 (by omega) (by omega) (by simp) (by simp)]
    rfl
  have e70 : getCell b2 7 0 = 9 := by
    rw [hag 7 0 (by omega) (by omega) (by simp) (by simp)]
    rfl
  have e80 : getCell b2 8 0 = 9 := by
    rw [hag 8 0 (by omega) (by omega) (by simp) (by simp)]
    rfl
  have e11 : getCell b2 1 1 = 9 := by
    rw [hag 1 1 (by omega) (by omega) (by simp) (by simp)]
    rfl
  have e21 : getCell b2 2 1 = 2 := by
    rw [hag 2 1 (by omega) (by omega) (by simp) (by simp)]
    rfl
  have e31 : getCell b2 3 1 = 9 := by
    rw [hag 3 1 (by omega) (by omega) (by simp) (by simp)]
    rfl
  have e41 : getCell b2 4 1 = 9 := by
    rw [hag 4 1 (by omega) (by omega) (by simp) (by simp)]
    rfl
  have e51 : getCell b2 5 1 = 9 := by
    rw [hag 5 1 (by omega) (by omega) (by simp) (by simp)]
    rfl
  have e61 : getCell b2 6 1 = 9 := by
    rw [hag 6 1 (by omega) (by omega) (by simp) (by simp)]
    rfl
  have e71 : getCell b2 7 1 = 9 := by
    rw [hag 7 1 (by omega) (by omega) (by simp) (by simp)]
    rfl
  have e81 : getCell b2 8 1 = 9 := by
    rw [hag 8 1 (by omega) (by omega) (by simp) (by simp)]
    rfl
  have hx : getCell b2 0 0 ≠ 2 := by
    intro hx2
    unfold colHasOnce at hcol02
    rw [show List.range 9 = [0, 1, 2, 3, 4, 5, 6, 7, 8] from rfl] at hcol02
    simp only [List.filter_cons, List.filter_nil, hx2, e10, e20, e30, e40,
      e50, e60, e70, e80] at hcol02
    simp at hcol02
  have hy : getCell b2 0 1 ≠ 2 := by
    intro hy2
    unfold colHasOnce at hcol12
    rw [show List.range 9 = [0, 1, 2, 3, 4, 5, 6, 7, 8] from rfl] at hcol12
    simp only [List.filter_cons, List.filter_nil, hy2, e11, e21, e31, e41,
      e51, e61, e71, e81] at hcol12
    simp at hcol12
  have e02 : getCell b2 0 2 = 3 := by
    rw [hag 0 2 (by omega) (by omega) (by simp) (by simp)]
    rfl
  have e03 : getCell b2 0 3 = 4 := by
    rw [hag 0 3 (by omega) (by omega) (by simp) (by simp)]
    rfl
  have e04 : getCell b2 0 4 = 5 := by
    rw [hag 0 4 (by omega) (by omega) (by simp) (by simp)]
    rfl
  have e05 : getCell b2 0 5 = 6 := by
    rw [hag 0 5 (by omega) (by omega) (by simp) (by simp)]
    rfl
  have e06 : getCell b2 0 6 = 7 := by
    rw [hag 0 6 (by omega) (by omega) (by simp) (by simp)]
    rfl
  have e07 : getCell b2 0 7 = 8 := by
    rw [hag 0 7 (by omega) (by omega) (by simp) (by simp)]
    rfl
  have e08 : getCell b2 0 8 = 9 := by
    rw [hag 0 8 (by omega) (by omega) (by simp) (by simp)]
    rfl
  have hxb : (getCell b2 0 0 == 2) = false := by
    rw [beq_eq_false_iff_ne]
    exact hx
  have hyb : (getCell b2 0 1 == 2) = false := by
    rw [beq_eq_false_iff_ne]
    exact hy
  unfold rowHasOnce at hrow02
  rw [show List.range 9 = [0, 1, 2, 3, 4, 5, 6, 7, 8] from rfl] at hrow02
  simp only [List.filter_cons, List.filter_nil, hxb, hyb, e02, e03, e04,
    e05, e06, e07, e08] at hrow02
  simp at hrow02

/-- **C4, amended**: for every input board that has no legal completion,
whenever the search exhausts all branches from the root, the solver
returns the explicit no-solution indicator `None` as an ordinary return
value — no exception is raised (a `some` result of the embedding is a
normal terminating run) and no board, in particular no partially filled
board, is returned. -/
theorem claim4_amended (b : Board) (d lf : Nat)
    (hnc : ¬ ∃ b2, isCompletionOf b2 b)
    (hex : (search d lf (buildSt b)).map Prod.fst = some false) :
    solveSudoku b d lf = some none := by
  have hmain : solveSudoku b d lf =
      (match search d lf (buildSt b) with
        | none => none
        | some (true, st) => some (some (fillBoard (getAllOptions b) st b))
        | some (false, _) => some none) := rfl
  rw [hmain]
  cases hs : search d lf (buildSt b) with
  | none =>
    rw [hs] at hex
    cases hex
  | some p =>
    obtain ⟨res, st2⟩ := p
    rw [hs] at hex
    cases res
    · rfl
    · simp at hex

/-- Witness for the amended C4 at the concrete conflict board. -/
theorem claim4_amended_witness : solveSudoku conflictBoard 3 50 = some none :=
  claim4_amended conflictBoard 3 50 conflictBoard_no_completion (by decide)


/-! ### Characterisation of the column-selection heuristic -/

theorem chooseColumnLoop_eq_fold (st : St) :
    ∀ (hs : List Nat) (x : Nat) (mn : Option Int) (chosen : Option Nat)
      (fuel : Nat), pathF st.rlink x hs 0 → 0 ∉ hs → hs.length < fuel →
      chooseColumnLoop st (st.rlink x) mn chosen fuel =
        some (chooseFold st hs mn chosen) := by
  intro hs
  induction hs with
  | nil =>
    intro x mn chosen fuel hpath h0 hfuel
    obtain ⟨fuel, rfl⟩ : ∃ f, fuel = f + 1 := ⟨fuel - 1, by omega⟩
    have hx : st.rlink x = 0 := hpath
    rw [hx]
    rfl
  | cons c cs ih =>
    intro x mn chosen fuel hpath h0 hfuel
    obtain ⟨fuel, rfl⟩ : ∃ f, fuel = f + 1 := ⟨fuel - 1, by omega⟩
    obtain ⟨hx, hrest⟩ := hpath
    simp only [List.mem_cons, not_or] at h0
    rw [hx]
    show chooseColumnLoop st c mn chosen (fuel + 1) = _
    unfold chooseColumnLoop
    rw [if_neg (fun h => h0.1 h.symm)]
    have hlen : cs.length < fuel := by
      simp only [List.length_cons] at hfuel
      omega
    have hfold : chooseFold st (c :: cs) mn chosen =
        if chooseCond st c mn then chooseFold st cs (some (st.sfield c)) (some c)
        else chooseFold st cs mn chosen := rfl
    cases hcond : chooseCond st c mn with
    | true =>
      rw [if_pos rfl]
      rw [ih c (some (st.sfield c)) (some c) fuel hrest h0.2 hlen]
      rw [hfold, hcond, if_pos rfl]
    | false =>
      rw [if_neg (by simp)]
      rw [ih c mn chosen fuel hrest h0.2 hlen]
      rw [hfold, hcond, if_neg (by simp)]


/-- The accumulator fold picks the first strict minimum: either nothing in
`hs` beats the running champion `c0`, or the result splits `hs` as
`pre ++ res :: post` with `res` strictly smaller than `c0` and than every
earlier candidate, and no later candidate strictly smaller. -/
theorem chooseFold_spec (st : St) :
    ∀ (hs : List Nat) (c0 : Nat),
      ∃ res, chooseFold st hs (some (st.sfield c0)) (some c0) = some res ∧
        ((res = c0 ∧ ∀ e ∈ hs, st.sfield c0 ≤ st.sfield e) ∨
         (∃ pre post, hs = pre ++ res :: post ∧
            st.sfield res < st.sfield c0 ∧
            (∀ e ∈ pre, st.sfield res < st.sfield e) ∧
            (∀ e ∈ post, st.sfield res ≤ st.sfield e))) := by
  intro hs
  induction hs with
  | nil =>
    intro c0
    exact ⟨c0, rfl, Or.inl ⟨rfl, by simp⟩⟩
  | cons e hs ih =>
    intro c0
    have hfold : chooseFold st (e :: hs) (some (st.sfield c0)) (some c0) =
        if chooseCond st e (some (st.sfield c0)) then
          chooseFold st hs (some (st.sfield e)) (some e)
        else chooseFold st hs (some (st.sfield c0)) (some c0) := rfl
    have hcc : chooseCond st e (some (st.sfield c0)) =
        decide (st.sfield e < st.sfield c0) := rfl
    by_cases hlt : st.sfield e < st.sfield c0
    · obtain ⟨res, hres, hcase⟩ := ih e
      refine ⟨res, ?_, ?_⟩
      · rw [hfold, hcc, if_pos (decide_eq_true hlt)]
        exact hres
      · cases hcase with
        | inl h =>
          obtain ⟨rfl, hall⟩ := h
          exact Or.inr ⟨[], hs, by simp, hlt, by simp, hall⟩
        | inr h =>
          obtain ⟨pre, post, heq, hlt2, hpre, hpost⟩ := h
          refine Or.inr ⟨e :: pre, post, by rw [heq]; rfl,
            lt_trans hlt2 hlt, ?_, hpost⟩
          intro a ha
          rcases List.mem_cons.1 ha with rfl | ha
          · exact hlt2
          · exact hpre a ha
    · obtain ⟨res, hres, hcase⟩ := ih c0
      have hle : st.sfield c0 ≤ st.sfield e := le_of_not_lt hlt
      refine ⟨res, ?_, ?_⟩
      · rw [hfold, hcc, if_neg (by simpa using hlt)]
        exact hres
      · cases hcase with
        | inl h =>
          obtain ⟨rfl, hall⟩ := h
          refine Or.inl ⟨rfl, ?_⟩
          intro a ha
          rcases List.mem_cons.1 ha with rfl | ha
          · exact hle
          · exact hall a ha
        | inr h =>
          obtain ⟨pre, post, heq, hlt2, hpre, hpost⟩ := h
          refine Or.inr ⟨e :: pre, post, by rw [heq]; rfl, hlt2, ?_, hpost⟩
          intro a ha
          rcases List.mem_cons.1 ha with rfl | ha
          · exact lt_of_lt_of_le hlt2 hle
          · exact hpre a ha

/-- When `choose_column` returns a column of live count zero, `search`
returns `False` for this branch at once, with the state untouched. -/
theorem search_zero_exhausts (st : St) (c : Nat) (d lf : Nat)
    (hr : st.rlink 0 ≠ 0) (hcc : chooseColumn st lf = some (some c))
    (hz : st.sfield c = 0) :
    search (d + 1) lf st = some (false, st) := by
  show searchBody (search d lf) lf st = some (false, st)
  unfold searchBody
  rw [if_neg hr, hcc]
  show (if st.sfield c = 0 then some (false, st) else _) = _
  rw [if_pos hz]

/-- C5: when the headers currently linked off the master header (followed
along `rlink` from node 0) are `hs`, `choose_column` selects a column `c`
of `hs` whose live count is minimal over `hs` and strictly below every
header traversed before it (first minimum wins); and if that minimal count
is zero the next `search` call returns `False` immediately with the state
unchanged. -/
theorem claim5_minColumn (st : St) (hs : List Nat) (lf d : Nat)
    (hpath : pathF st.rlink 0 hs 0) (h0 : 0 ∉ hs)
    (hfuel : hs.length < lf) (hne : hs ≠ []) :
    ∃ pre c post, hs = pre ++ c :: post ∧
      chooseColumn st lf = some (some c) ∧
      (∀ e ∈ pre, st.sfield c < st.sfield e) ∧
      (∀ e ∈ hs, st.sfield c ≤ st.sfield e) ∧
      (st.sfield c = 0 → search (d + 1) lf st = some (false, st)) := by
  obtain ⟨c0, rest, rfl⟩ := List.exists_cons_of_ne_nil hne
  simp only [List.mem_cons, not_or] at h0
  have hr0 : st.rlink 0 ≠ 0 := by
    have hx : st.rlink 0 = c0 := hpath.1
    rw [hx]
    exact fun h => h0.1 h.symm
  have hcol : chooseColumn st lf = some (chooseFold st (c0 :: rest) none none) :=
    chooseColumnLoop_eq_fold st (c0 :: rest) 0 none none lf hpath
      (by simp only [List.mem_cons, not_or]; exact h0) hfuel
  have hstep : chooseFold st (c0 :: rest) none none =
      chooseFold st rest (some (st.sfield c0)) (some c0) := rfl
  obtain ⟨res, hres, hcase⟩ := chooseFold_spec st rest c0
  have hcc : chooseColumn st lf = some (some res) := by
    rw [hcol, hstep, hres]
  cases hcase with
  | inl h =>
    obtain ⟨rfl, hall⟩ := h
    refine ⟨[], res, rest, rfl, hcc, by simp, ?_, fun hz =>
      search_zero_exhausts st res d lf hr0 hcc hz⟩
    intro a ha
    rcases List.mem_cons.1 ha with rfl | ha
    · exact le_refl _
    · exact hall a ha
  | inr h =>
    obtain ⟨pre, post, heq, hlt2, hpre, hpost⟩ := h
    refine ⟨c0 :: pre, res, post, by rw [heq]; rfl, hcc, ?_, ?_, fun hz =>
      search_zero_exhausts st res d lf hr0 hcc hz⟩
    · intro a ha
      rcases List.mem_cons.1 ha with rfl | ha
      · exact hlt2
      · exact hpre a ha
    · intro a ha
      rcases List.mem_cons.1 ha with rfl | ha
      · exact le_of_lt hlt2
      · rw [heq] at ha
        rcases List.mem_append.1 ha with ha | ha
        · exact le_of_lt (hpre a ha)
        · rcases List.mem_cons.1 ha with rfl | ha
          · exact le_refl _
          · exact hpost a ha

/-- Witness for C5: the conflict board's six headers, traversed from the
master header, yield a concrete first-minimum selection. -/
theorem claim5_minColumn_witness :
    ∃ pre c post, ([1, 2, 3, 4, 5, 6] : List Nat) = pre ++ c :: post ∧
      chooseColumn (buildSt conflictBoard) 50 = some (some c) ∧
      (∀ e ∈ pre,
        (buildSt conflictBoard).sfield c < (buildSt conflictBoard).sfield e) ∧
      (∀ e ∈ ([1, 2, 3, 4, 5, 6] : List Nat),
        (buildSt conflictBoard).sfield c ≤ (buildSt conflictBoard).sfield e) ∧
      ((buildSt conflictBoard).sfield c = 0 →
        search (3 + 1) 50 (buildSt conflictBoard) =
          some (false, buildSt conflictBoard)) :=
  claim5_minColumn (buildSt conflictBoard) [1, 2, 3, 4, 5, 6] 50 3
    (by decide) (by decide) (by decide) (by decide)


/-- C8: a board with no blank cell yields zero options and an empty
constraint universe, `search` succeeds at once through its base case with
the matrix state untouched, and the solver hands the board back with every
cell unchanged. -/
theorem claim8_noBlanks (b : Board) (d lf : Nat)
    (hnb : ∀ i ∈ List.range 9, ∀ j ∈ List.range 9, getCell b i j ≠ 0) :
    getAllOptions b = [] ∧
    getConstraintUniverse (getAllOptions b) = [] ∧
    search (d + 1) lf (buildSt b) = some (true, buildSt b) ∧
    solveSudoku b (d + 1) lf = some (some b) := by
  have hvm : validMoves b = [] := by
    unfold validMoves
    rw [List.flatMap_eq_nil_iff]
    intro i hi
    rw [List.flatMap_eq_nil_iff]
    intro j hj
    rw [if_neg]
    simp only [beq_iff_eq]
    exact hnb i hi j hj
  have hopts : getAllOptions b = [] := by
    rw [getAllOptions, hvm]
    rfl
  have hbuild : buildSt b = initSt := by
    simp only [buildSt, hopts]
    rfl
  have hsearch : search (d + 1) lf (buildSt b) = some (true, buildSt b) := by
    rw [hbuild]
    show searchBody (search d lf) lf initSt = some (true, initSt)
    rfl
  refine ⟨hopts, by rw [hopts]; rfl, hsearch, ?_⟩
  show (match search (d + 1) lf (buildSt b) with
    | none => none
    | some (true, st) => some (some (fillBoard (getAllOptions b) st b))
    | some (false, _) => some none) = some (some b)
  rw [hsearch, hbuild]
  rfl

/-- Witness for C8 at the all-ones board. -/
theorem claim8_noBlanks_witness :
    getAllOptions onesBoard = [] ∧
    getConstraintUniverse (getAllOptions onesBoard) = [] ∧
    search (0 + 1) 5 (buildSt onesBoard) = some (true, buildSt onesBoard) ∧
    solveSudoku onesBoard (0 + 1) 5 = some (some onesBoard) :=
  claim8_noBlanks onesBoard 0 5 (by decide)


/-- Witness for C7 at the scenario board and the triple `(0, 1, 7)`. -/
theorem optionGenerator_spec_witness :
    (getAllOptions scenarioBoard =
      (validMoves scenarioBoard).map (fun m => mkOption m.1 m.2.1 m.2.2)) ∧
    ((0, 1, 7) ∈ validMoves scenarioBoard ↔
      0 < 9 ∧ 1 < 9 ∧ getCell scenarioBoard 0 1 = 0 ∧ 1 ≤ 7 ∧ 7 ≤ 9 ∧
      (∀ c, c < 9 → c ≠ 1 → getCell scenarioBoard 0 c ≠ 7) ∧
      (∀ r, r < 9 → r ≠ 0 → getCell scenarioBoard r 1 ≠ 7) ∧
      (∀ r c, r < 9 → c < 9 → r / 3 = 0 / 3 → c / 3 = 1 / 3 →
        ¬(r = 0 ∧ c = 1) → getCell scenarioBoard r c ≠ 7)) :=
  optionGenerator_spec scenarioBoard (by decide) 0 1 7


/-! ### The constraint universe is the sorted list of distinct labels -/

theorem char_toNat_inj (a b : Char) (h : a.toNat = b.toNat) : a = b := by
  have hv : a.val = b.val := by
    unfold Char.toNat at h
    exact UInt32.toNat.inj h
  exact Char.ext hv

theorem strLtAux_cons (x y : Char) (as bs : List Char) :
    strLtAux (x :: as) (y :: bs) =
      if x.toNat < y.toNat then true
      else if y.toNat < x.toNat then false
      else strLtAux as bs := rfl

theorem strLtAux_trans : ∀ (a b c : List Char),
    strLtAux a b = true → strLtAux b c = true → strLtAux a c = true := by
  intro a
  induction a with
  | nil =>
    intro b c h1 h2
    cases b with
    | nil => exact absurd h1 (by simp [strLtAux])
    | cons y bs =>
      cases c with
      | nil => exact absurd h2 (by simp [strLtAux])
      | cons z cs => rfl
  | cons x as ih =>
    intro b c h1 h2
    cases b with
    | nil => exact absurd h1 (by simp [strLtAux])
    | cons y bs =>
      cases c with
      | nil => exact absurd h2 (by simp [strLtAux])
      | cons z cs =>
        rw [strLtAux_cons] at h1 h2 ⊢
        by_cases hxy : x.toNat < y.toNat
        · rw [if_pos hxy] at h1
          by_cases hyz : y.toNat < z.toNat
          · rw [if_pos (by omega)]
          · rw [if_neg hyz] at h2
            by_cases hzy : z.toNat < y.toNat
            · rw [if_pos hzy] at h2
              exact absurd h2 (by simp)
            · rw [if_pos (by omega)]
        · rw [if_neg hxy] at h1
          by_cases hyx : y.toNat < x.toNat
          · rw [if_pos hyx] at h1
            exact absurd h1 (by simp)
          · rw [if_neg hyx] at h1
            by_cases hyz : y.toNat < z.toNat
            · rw [if_pos (by omega)]
            · rw [if_neg hyz] at h2
              by_cases hzy : z.toNat < y.toNat
              · rw [if_pos hzy] at h2
                exact absurd h2 (by simp)
              · rw [if_neg hzy] at h2
                rw [if_neg (by omega), if_neg (by omega)]
                exact ih bs cs h1 h2

theorem strLtAux_total : ∀ (a b : List Char), a ≠ b →
    strLtAux a b = true ∨ strLtAux b a = true := by
  intro a
  induction a with
  | nil =>
    intro b hne
    cases b with
    | nil => exact absurd rfl hne
    | cons y bs => exact Or.inl rfl
  | cons x as ih =>
    intro b hne
    cases b with
    | nil => exact Or.inr rfl
    | cons y bs =>
      by_cases hxy : x.toNat < y.toNat
      · left
        rw [strLtAux_cons, if_pos hxy]
      · by_cases hyx : y.toNat < x.toNat
        · right
          rw [strLtAux_cons, if_pos hyx]
        · have hx : x = y := char_toNat_inj x y (by omega)
          subst hx
          have has : as ≠ bs := fun h => hne (by rw [h])
          rcases ih bs has with h | h
          · left
            rw [strLtAux_cons, if_neg hxy, if_neg hyx]
            exact h
          · right
            rw [strLtAux_cons, if_neg hyx, if_neg hxy]
            exact h

theorem strLt_trans (a b c : String) (h1 : strLt a b = true)
    (h2 : strLt b c = true) : strLt a c = true :=
  strLtAux_trans a.data b.data c.data h1 h2

theorem strLt_total (a b : String) (h : a ≠ b) :
    strLt a b = true ∨ strLt b a = true :=
  strLtAux_total a.data b.data (fun hd => h (String.ext hd))

theorem pairwise_insertSorted (x : String) (l : List String)
    (hl : List.Pairwise (fun a b => strLt a b = true) l)
    (hx : ∀ y ∈ l, x ≠ y) :
    List.Pairwise (fun a b => strLt a b = true) (insertSorted x l) := by
  induction l with
  | nil => simp [insertSorted]
  | cons y ys ih =>
    rw [List.pairwise_cons] at hl
    unfold insertSorted
    split_ifs with h
    · refine List.pairwise_cons.2 ⟨?_, List.pairwise_cons.2 hl⟩
      intro z hz
      rcases List.mem_cons.1 hz with rfl | hz
      · exact h
      · exact strLt_trans x y z h (hl.1 z hz)
    · refine List.pairwise_cons.2 ⟨?_, ?_⟩
      · intro z hz
        rcases (mem_insertSorted x z ys).1 hz with h1 | hz
        · rw [h1]
          rcases strLt_total x y (hx y (List.mem_cons_self y ys)) with h2 | h2
          · exact absurd h2 h
          · exact h2
        · exact hl.1 z hz
      · exact ih hl.2 (fun z hz => hx z (List.mem_cons_of_mem y hz))

theorem nodup_insertSorted (x : String) (l : List String)
    (hx : x ∉ l) (hl : l.Nodup) : (insertSorted x l).Nodup := by
  induction l with
  | nil => simp [insertSorted]
  | cons y ys ih =>
    rw [List.nodup_cons] at hl
    simp only [List.mem_cons, not_or] at hx
    unfold insertSorted
    split_ifs with h
    · refine List.nodup_cons.2 ⟨?_, List.nodup_cons.2 hl⟩
      simp only [List.mem_cons, not_or]
      exact hx
    · refine List.nodup_cons.2 ⟨?_, ih hx.2 hl.2⟩
      intro hmem
      rcases (mem_insertSorted x y ys).1 hmem with h1 | h1
      · exact hx.1 h1.symm
      · exact hl.1 h1

theorem sortStr_pairwise (l : List String) (hl : l.Nodup) :
    List.Pairwise (fun a b => strLt a b = true) (sortStr l) := by
  induction l with
  | nil => simp [sortStr]
  | cons x xs ih =>
    rw [List.nodup_cons] at hl
    show List.Pairwise _ (insertSorted x (sortStr xs))
    refine pairwise_insertSorted x (sortStr xs) (ih hl.2) ?_
    intro y hy
    intro hxy
    exact hl.1 (by rw [hxy]; exact (mem_sortStr y xs).1 hy)

theorem sortStr_nodup (l : List String) (hl : l.Nodup) :
    (sortStr l).Nodup := by
  induction l with
  | nil => simp [sortStr]
  | cons x xs ih =>
    rw [List.nodup_cons] at hl
    show (insertSorted x (sortStr xs)).Nodup
    refine nodup_insertSorted x (sortStr xs) ?_ (ih hl.2)
    intro hmem
    exact hl.1 ((mem_sortStr x xs).1 hmem)

theorem getConstraintUniverse_nodup (opts : List (List String)) :
    (getConstraintUniverse opts).Nodup :=
  sortStr_nodup _ (List.nodup_dedup _)

theorem getConstraintUniverse_sorted (opts : List (List String)) :
    List.Pairwise (fun a b => strLt a b = true)
      (getConstraintUniverse opts) :=
  sortStr_pairwise _ (List.nodup_dedup _)

/-! ### `posOf` is inverse to indexing on a duplicate-free universe -/

theorem posOf_getD (l : List String) (x : String) (h : x ∈ l) :
    l.getD (posOf l x) "" = x := by
  induction l with
  | nil => cases h
  | cons y ys ih =>
    unfold posOf
    split_ifs with hxy
    · rw [hxy]
      rfl
    · rcases List.mem_cons.1 h with h1 | h1
      · exact absurd h1 hxy
      · show ys.getD (posOf ys x) "" = x
        exact ih h1

theorem posOf_getD_eq (l : List String) (hl : l.Nodup) :
    ∀ i, i < l.length → posOf l (l.getD i "") = i := by
  induction l with
  | nil => intro i hi; cases hi
  | cons y ys ih =>
    rw [List.nodup_cons] at hl
    intro i hi
    match i with
    | 0 =>
      show posOf (y :: ys) y = 0
      unfold posOf
      rw [if_pos rfl]
    | Nat.succ n =>
      have hn : n < ys.length := by
        simp only [List.length_cons] at hi
        omega
      have hmem : ys.getD n "" ∈ ys := by
        rw [List.getD_eq_getElem?_getD, List.getElem?_eq_getElem hn]
        exact List.getElem_mem hn
      show posOf (y :: ys) ((y :: ys).getD (n + 1) "") = n + 1
      have hgd : (y :: ys).getD (n + 1) "" = ys.getD n "" := rfl
      rw [hgd]
      unfold posOf
      rw [if_neg (show ¬(ys.getD n "" = y) from fun h => hl.1 (h ▸ hmem))]
      rw [ih hl.2 n hn]

theorem colId_eq_iff (cons : List String) (hn : cons.Nodup) (lab : String)
    (hmem : lab ∈ cons) (c : Nat) (hc1 : 1 ≤ c) (hc2 : c ≤ cons.length) :
    colId cons lab = c ↔ lab = cons.getD (c - 1) "" := by
  unfold colId
  constructor
  · intro h
    have hp : posOf cons lab = c - 1 := by omega
    rw [← hp, posOf_getD cons lab hmem]
  · intro h
    rw [h, posOf_getD_eq cons hn (c - 1) (by omega)]
    omega

/-! ### The four labels of a generated option are pairwise distinct -/

theorem head_ne {x y : String} (cx cy : Char)
    (hx : x.data.head? = some cx) (hy : y.data.head? = some cy)
    (hne : cx ≠ cy) : x ≠ y := by
  intro h
  rw [h] at hx
  rw [hx] at hy
  exact hne (Option.some.inj hy)

theorem mkOption_nodup (i j k : Nat) : (mkOption i j k).Nodup := by
  have h1 : ("p" ++ toString i ++ toString j).data.head? = some 'p' := rfl
  have h2 : ("r" ++ toString i ++ toString k).data.head? = some 'r' := rfl
  have h3 : ("c" ++ toString j ++ toString k).data.head? = some 'c' := rfl
  have h4 : ("b" ++ toString (3 * (i / 3) + j / 3) ++
      toString k).data.head? = some 'b' := rfl
  show List.Nodup ["p" ++ toString i ++ toString j,
    "r" ++ toString i ++ toString k,
    "c" ++ toString j ++ toString k,
    "b" ++ toString (3 * (i / 3) + j / 3) ++ toString k]
  refine List.nodup_cons.2 ⟨?_, List.nodup_cons.2 ⟨?_,
    List.nodup_cons.2 ⟨?_, List.nodup_singleton _⟩⟩⟩
  · intro hm
    simp only [List.mem_cons, List.not_mem_nil, or_false] at hm
    rcases hm with h | h | h
    · exact head_ne 'p' 'r' h1 h2 (by decide) h
    · exact head_ne 'p' 'c' h1 h3 (by decide) h
    · exact head_ne 'p' 'b' h1 h4 (by decide) h
  · intro hm
    simp only [List.mem_cons, List.not_mem_nil, or_false] at hm
    rcases hm with h | h
    · exact head_ne 'r' 'c' h2 h3 (by decide) h
    · exact head_ne 'r' 'b' h2 h4 (by decide) h
  · intro hm
    simp only [List.mem_cons, List.not_mem_nil, or_false] at hm
    exact head_ne 'c' 'b' h3 h4 (by decide) hm


/-! ### Circular header list and static row cycles read as paths -/

theorem range1_concat (s n : Nat) :
    List.range' s (n + 1) = List.range' s n ++ [s + n] := by
  have h := @List.range'_concat 1 s n
  simpa using h

theorem range1_reverse_succ (n : Nat) :
    (List.range' 1 (n + 1)).reverse = (n + 1) :: (List.range' 1 n).reverse := by
  rw [range1_concat]
  simp only [List.reverse_append, List.reverse_cons, List.reverse_nil,
    List.nil_append, List.cons_append, List.singleton_append]
  rw [show 1 + n = n + 1 from by omega]

theorem pathF_headerRl (st : St) (m : Nat)
    (hr : ∀ x, x ≤ m → st.rlink x = headerRl m x) :
    pathF st.rlink 0 (List.range' 1 m) 0 := by
  suffices h : ∀ n j, j + n = m → pathF st.rlink j (List.range' (j + 1) n) 0 by
    exact h m 0 (by omega)
  intro n
  induction n with
  | zero =>
    intro j hj
    show st.rlink j = 0
    rw [hr j (by omega)]
    unfold headerRl
    rw [if_neg (by omega), if_pos (by omega)]
  | succ n ih =>
    intro j hj
    rw [List.range'_succ (j + 1) n 1]
    refine ⟨?_, ?_⟩
    · rw [hr j (by omega)]
      unfold headerRl
      rw [if_pos (by omega)]
    · have h2 := ih (j + 1) (by omega)
      rw [show j + 1 + 1 = j + 2 from rfl] at h2
      exact h2

theorem pathF_headerLl (st : St) (m : Nat)
    (hl : ∀ x, x ≤ m → st.llink x = headerLl m x) :
    pathF st.llink 0 (List.range' 1 m).reverse 0 := by
  have haux : ∀ n, n + 1 ≤ m →
      pathF st.llink (n + 1) (List.range' 1 n).reverse 0 := by
    intro n
    induction n with
    | zero =>
      intro h1
      show st.llink 1 = 0
      rw [hl 1 h1]
      unfold headerLl
      rw [if_neg (by omega), if_pos (by omega)]
    | succ n ih =>
      intro h1
      rw [range1_reverse_succ]
      refine ⟨?_, ih (by omega)⟩
      rw [hl (n + 1 + 1) (by omega)]
      unfold headerLl
      rw [if_neg (by omega), if_pos (by omega)]
      omega
  cases m with
  | zero =>
    show st.llink 0 = 0
    rw [hl 0 le_rfl]
    rfl
  | succ m0 =>
    rw [range1_reverse_succ]
    refine ⟨?_, haux m0 le_rfl⟩
    rw [hl 0 (by omega)]
    unfold headerLl
    rw [if_pos rfl]

theorem rowCycle (st : St) (m L q : Nat) (hq : q < L)
    (rowr : ∀ a, a < 4 * L →
      st.rlink (m + 1 + a) = rowNextF m (m + 1 + a)) :
    pathF st.rlink (m + 1 + 4 * q)
      [m + 1 + (4 * q + 1), m + 1 + (4 * q + 2), m + 1 + (4 * q + 3)]
      (m + 1 + 4 * q) := by
  have h0 := rowr (4 * q) (by omega)
  have h1 := rowr (4 * q + 1) (by omega)
  have h2 := rowr (4 * q + 2) (by omega)
  have h3 := rowr (4 * q + 3) (by omega)
  refine ⟨?_, ?_, ?_, ?_⟩
  · rw [h0]
    rw [show m + 1 + 4 * q = m + 1 + (4 * q + 0) from rfl,
      rowNextF_at m q 0 (by omega)]
  · rw [h1, rowNextF_at m q 1 (by omega)]
  · rw [h2, rowNextF_at m q 2 (by omega)]
  · show st.rlink (m + 1 + (4 * q + 3)) = m + 1 + 4 * q
    rw [h3, rowNextF_at m q 3 (by omega)]
    omega

/-! ### Counting the nodes of a column -/

theorem colOfNode_at (cons : List String) (opts : List (List String))
    (q p : Nat) (hp : p < 4) :
    colOfNode cons opts cons.length (cons.length + 1 + (4 * q + p)) =
      colId cons ((opts.getD q []).getD p "") := by
  unfold colOfNode labelOf
  rw [rowIdxOf_base, rowPosOf_base,
    show (4 * q + p) / 4 = q from by omega,
    show (4 * q + p) % 4 = p from by omega]

theorem length_if_single {P Q : Prop} [Decidable P] [Decidable Q]
    (h : P ↔ Q) (n : Nat) :
    (if P then [n] else ([] : List Nat)).length = if Q then 1 else 0 := by
  by_cases hq : Q
  · rw [if_pos (h.2 hq), if_pos hq]
    rfl
  · rw [if_neg (fun hp => hq (h.1 hp)), if_neg hq]
    rfl

theorem count_four (t a b d e : String)
    (hnd : ([a, b, d, e] : List String).Nodup) :
    (if t = a then 1 else 0) + (if t = b then 1 else 0) +
      (if t = d then 1 else 0) + (if t = e then 1 else 0) =
      if t ∈ ([a, b, d, e] : List String) then (1 : Nat) else 0 := by
  simp only [List.nodup_cons, List.mem_cons, List.not_mem_nil, or_false,
    not_or, List.nodup_nil, and_true] at hnd
  by_cases hm : t ∈ ([a, b, d, e] : List String)
  · rw [if_pos hm]
    simp only [List.mem_cons, List.not_mem_nil, or_false] at hm
    rcases hm with rfl | rfl | rfl | rfl
    · rw [if_pos rfl, if_neg hnd.1.1, if_neg hnd.1.2.1, if_neg hnd.1.2.2]
    · rw [if_neg (fun h => hnd.1.1 h.symm), if_pos rfl,
        if_neg hnd.2.1.1, if_neg hnd.2.1.2]
    · rw [if_neg (fun h => hnd.1.2.1 h.symm),
        if_neg (fun h => hnd.2.1.1 h.symm), if_pos rfl, if_neg hnd.2.2.1]
    · rw [if_neg (fun h => hnd.1.2.2 h.symm),
        if_neg (fun h => hnd.2.1.2 h.symm),
        if_neg (fun h => hnd.2.2.1 h.symm), if_pos rfl]
  · rw [if_neg hm]
    simp only [List.mem_cons, List.not_mem_nil, or_false, not_or] at hm
    rw [if_neg hm.1, if_neg hm.2.1, if_neg hm.2.2.1, if_neg hm.2.2.2]


/-- After inserting the first `q` option rows, a column's vertical list
has one node per inserted option that contains the column's label. -/
theorem vsUpTo_countP (cons : List String) (opts : List (List String))
    (hn : cons.Nodup)
    (hfmt : ∀ opt ∈ opts, opt.Nodup ∧ (∃ a b d e, opt = [a, b, d, e]) ∧
      ∀ lab ∈ opt, lab ∈ cons)
    (c : Nat) (hc1 : 1 ≤ c) (hc2 : c ≤ cons.length) :
    ∀ q, q ≤ opts.length →
      (vsUpTo cons opts cons.length (4 * q) c).length =
        (opts.take q).countP
          (fun opt => decide (cons.getD (c - 1) "" ∈ opt)) := by
  intro q
  induction q with
  | zero => intro _; rfl
  | succ q ih =>
    intro hq
    have hql : q < opts.length := by omega
    have hmem : opts.getD q [] ∈ opts := by
      rw [List.getD_eq_getElem?_getD, List.getElem?_eq_getElem hql]
      exact List.getElem_mem hql
    obtain ⟨hndopt, ⟨a, b, d, e, heq⟩, hlabs⟩ := hfmt _ hmem
    have htake : opts.take (q + 1) = opts.take q ++ [opts.getD q []] := by
      rw [List.take_succ]
      congr 1
      rw [List.getElem?_eq_getElem hql,
        List.getD_eq_getElem?_getD, List.getElem?_eq_getElem hql]
      rfl
    have e4 : 4 * (q + 1) = 4 * q + 1 + 1 + 1 + 1 := by omega
    rw [e4, vsUpTo_succ, vsUpTo_succ, vsUpTo_succ, vsUpTo_succ,
      show cons.length + 1 + (4 * q + 1 + 1 + 1) =
        cons.length + 1 + (4 * q + 3) from by omega,
      show cons.length + 1 + (4 * q + 1 + 1) =
        cons.length + 1 + (4 * q + 2) from by omega]
    have hca : colOfNode cons opts cons.length (cons.length + 1 + 4 * q) =
        colId cons a := by
      have h := colOfNode_at cons opts q 0 (by omega)
      rw [show (4 * q + 0 : Nat) = 4 * q from rfl] at h
      rw [h, heq]
      rfl
    have hcb : colOfNode cons opts cons.length
        (cons.length + 1 + (4 * q + 1)) = colId cons b := by
      rw [colOfNode_at cons opts q 1 (by omega), heq]
      rfl
    have hcd : colOfNode cons opts cons.length
        (cons.length + 1 + (4 * q + 2)) = colId cons d := by
      rw [colOfNode_at cons opts q 2 (by omega), heq]
      rfl
    have hce : colOfNode cons opts cons.length
        (cons.length + 1 + (4 * q + 3)) = colId cons e := by
      rw [colOfNode_at cons opts q 3 (by omega), heq]
      rfl
    rw [hca, hcb, hcd, hce]
    have hia : colId cons a = c ↔ cons.getD (c - 1) "" = a := by
      rw [colId_eq_iff cons hn a
        (hlabs a (by rw [heq]; exact List.mem_cons_self _ _)) c hc1 hc2]
      exact eq_comm
    have hib : colId cons b = c ↔ cons.getD (c - 1) "" = b := by
      rw [colId_eq_iff cons hn b
        (hlabs b (by rw [heq]; simp)) c hc1 hc2]
      exact eq_comm
    have hid : colId cons d = c ↔ cons.getD (c - 1) "" = d := by
      rw [colId_eq_iff cons hn d
        (hlabs d (by rw [heq]; simp)) c hc1 hc2]
      exact eq_comm
    have hie : colId cons e = c ↔ cons.getD (c - 1) "" = e := by
      rw [colId_eq_iff cons hn e
        (hlabs e (by rw [heq]; simp)) c hc1 hc2]
      exact eq_comm
    rw [htake, List.countP_append]
    simp only [List.length_append]
    rw [ih (by omega)]
    rw [length_if_single hia, length_if_single hib,
      length_if_single hid, length_if_single hie]
    have hcnt := count_four (cons.getD (c - 1) "") a b d e
      (by rw [← heq]; exact hndopt)
    have hsing : List.countP
        (fun opt => decide (cons.getD (c - 1) "" ∈ opt)) [opts.getD q []] =
        if cons.getD (c - 1) "" ∈ ([a, b, d, e] : List String)
          then (1 : Nat) else 0 := by
      rw [heq]
      simp only [List.countP_cons, List.countP_nil, Nat.zero_add,
        decide_eq_true_eq]
    rw [hsing]
    omega


/-- C6: the builder creates one column header per distinct constraint
label of the generated options (the universe is duplicate-free and
lexicographically sorted by the code-point order `strLt`, hence a fixed
order), links headers `1..m` circularly off the master header `0` in both
directions, creates exactly four nodes per option — node `m+1+(4q+p)`
carries the column of the option's `p`-th label and the option index `q`,
the four nodes of an option form a horizontal cycle — inserts each node at
the tail of its column's vertical list (both vertical directions traverse
the column's nodes in creation order, which is increasing id order), and
leaves each column header's count equal to the number of options whose
label tuple contains that column's constraint. -/
theorem claim6_builder (b : Board) :
    (∀ lab, lab ∈ getConstraintUniverse (getAllOptions b) ↔
        ∃ opt ∈ getAllOptions b, lab ∈ opt) ∧
    (getConstraintUniverse (getAllOptions b)).Nodup ∧
    List.Pairwise (fun x y => strLt x y = true)
      (getConstraintUniverse (getAllOptions b)) ∧
    pathF (buildSt b).rlink 0
      (List.range' 1 (getConstraintUniverse (getAllOptions b)).length) 0 ∧
    pathF (buildSt b).llink 0
      (List.range' 1
        (getConstraintUniverse (getAllOptions b)).length).reverse 0 ∧
    (∀ q, q < (getAllOptions b).length → ∀ p, p < 4 →
      (buildSt b).cfield
          ((getConstraintUniverse (getAllOptions b)).length + 1 +
            (4 * q + p)) =
        colId (getConstraintUniverse (getAllOptions b))
          (((getAllOptions b).getD q []).getD p "") ∧
      (buildSt b).sfield
          ((getConstraintUniverse (getAllOptions b)).length + 1 +
            (4 * q + p)) = Int.ofNat q) ∧
    (∀ q, q < (getAllOptions b).length →
      pathF (buildSt b).rlink
        ((getConstraintUniverse (getAllOptions b)).length + 1 + 4 * q)
        [(getConstraintUniverse (getAllOptions b)).length + 1 + (4 * q + 1),
         (getConstraintUniverse (getAllOptions b)).length + 1 + (4 * q + 2),
         (getConstraintUniverse (getAllOptions b)).length + 1 + (4 * q + 3)]
        ((getConstraintUniverse (getAllOptions b)).length + 1 + 4 * q)) ∧
    (∀ c, 1 ≤ c → c ≤ (getConstraintUniverse (getAllOptions b)).length →
      pathF (buildSt b).dlink c
        (vsUpTo (getConstraintUniverse (getAllOptions b)) (getAllOptions b)
          (getConstraintUniverse (getAllOptions b)).length
          (4 * (getAllOptions b).length) c) c ∧
      pathF (buildSt b).ulink c
        (vsUpTo (getConstraintUniverse (getAllOptions b)) (getAllOptions b)
          (getConstraintUniverse (getAllOptions b)).length
          (4 * (getAllOptions b).length) c).reverse c ∧
      List.Pairwise (fun x y => x < y)
        (vsUpTo (getConstraintUniverse (getAllOptions b)) (getAllOptions b)
          (getConstraintUniverse (getAllOptions b)).length
          (4 * (getAllOptions b).length) c) ∧
      (buildSt b).sfield c = Int.ofNat
        (((getAllOptions b).filter (fun opt =>
          decide ((getConstraintUniverse (getAllOptions b)).getD (c - 1) ""
            ∈ opt))).length)) := by
  obtain ⟨mv, hl, hr, rowr, rowl, sol⟩ := buildSt_spec b
  refine ⟨fun lab => mem_getConstraintUniverse lab _,
    getConstraintUniverse_nodup _, getConstraintUniverse_sorted _,
    pathF_headerRl _ _ hr, pathF_headerLl _ _ hl, ?_, ?_, ?_⟩
  · intro q hq p hp
    refine ⟨?_, ?_⟩
    · have h := mv.cf (4 * q + p) (by omega)
      rw [h]
      exact colOfNode_at _ _ q p hp
    · have h := mv.sfr (4 * q + p) (by omega)
      rw [h, show (4 * q + p) / 4 = q from by omega]
  · intro q hq
    exact rowCycle _ _ _ q hq rowr
  · intro c hc1 hc2
    have hfmt : ∀ opt ∈ getAllOptions b, opt.Nodup ∧
        (∃ a b2 d e, opt = [a, b2, d, e]) ∧
        ∀ lab ∈ opt, lab ∈ getConstraintUniverse (getAllOptions b) := by
      intro opt hmem
      refine ⟨?_, ?_, ?_⟩
      · rcases List.mem_map.1 hmem with ⟨mv', _, rfl⟩
        exact mkOption_nodup _ _ _
      · rcases List.mem_map.1 hmem with ⟨mv', _, rfl⟩
        exact ⟨_, _, _, _, rfl⟩
      · intro lab hlab
        exact (mem_getConstraintUniverse lab _).2 ⟨opt, hmem, hlab⟩
    refine ⟨mv.vert c hc1 hc2, mv.vertU c hc1 hc2, ?_, ?_⟩
    · refine List.Pairwise.filter _ ?_
      unfold nodeIds
      refine List.Pairwise.map _ ?_ (List.pairwise_lt_range _)
      intro a0 b0 hab
      omega
    · have hsfc := mv.sfc c hc1 hc2
      rw [hsfc, vsUpTo_countP (getConstraintUniverse (getAllOptions b))
        (getAllOptions b) (getConstraintUniverse_nodup _) hfmt c hc1 hc2
        (getAllOptions b).length le_rfl, List.take_length,
        List.countP_eq_length_filter]


/-! ### Trace model of `cover`/`uncover`: one removal per visited node -/

theorem remV_rlink (st : St) (j : Nat) : (remV st j).rlink = st.rlink := rfl
theorem remV_llink (st : St) (j : Nat) : (remV st j).llink = st.llink := rfl
theorem remV_cfield (st : St) (j : Nat) : (remV st j).cfield = st.cfield := rfl
theorem remV_solution (st : St) (j : Nat) :
    (remV st j).solution = st.solution := rfl
theorem remV_dlink (st : St) (j : Nat) :
    (remV st j).dlink = upd st.dlink (st.ulink j) (st.dlink j) := rfl
theorem remV_sfield (st : St) (j : Nat) :
    (remV st j).sfield =
      updZ st.sfield (st.cfield j) (st.sfield (st.cfield j) - 1) := rfl

theorem upd_dlink_at (st : St) (j : Nat) :
    upd st.dlink (st.ulink j) (st.dlink j) j = st.dlink j := by
  unfold upd
  split_ifs <;> rfl

theorem remV_ulink (st : St) (j : Nat) :
    (remV st j).ulink = upd st.ulink (st.dlink j) (st.ulink j) := by
  show upd st.ulink (upd st.dlink (st.ulink j) (st.dlink j) j) (st.ulink j) =
    upd st.ulink (st.dlink j) (st.ulink j)
  rw [upd_dlink_at]

theorem unremV_rlink (st : St) (j : Nat) : (unremV st j).rlink = st.rlink := rfl
theorem unremV_llink (st : St) (j : Nat) : (unremV st j).llink = st.llink := rfl
theorem unremV_cfield (st : St) (j : Nat) :
    (unremV st j).cfield = st.cfield := rfl
theorem unremV_solution (st : St) (j : Nat) :
    (unremV st j).solution = st.solution := rfl
theorem unremV_ulink (st : St) (j : Nat) :
    (unremV st j).ulink = upd st.ulink (st.dlink j) j := rfl
theorem unremV_sfield (st : St) (j : Nat) :
    (unremV st j).sfield =
      updZ st.sfield (st.cfield j) (st.sfield (st.cfield j) + 1) := rfl
theorem unremV_dlink (st : St) (j : Nat) :
    (unremV st j).dlink =
      upd st.dlink (upd st.ulink (st.dlink j) j j) j := rfl

theorem remVs_rlink (js : List Nat) : ∀ (st : St),
    (remVs st js).rlink = st.rlink := by
  induction js with
  | nil => intro st; rfl
  | cons j js ih => intro st; exact ih (remV st j)

theorem remVs_llink (js : List Nat) : ∀ (st : St),
    (remVs st js).llink = st.llink := by
  induction js with
  | nil => intro st; rfl
  | cons j js ih => intro st; exact ih (remV st j)

theorem remVs_cfield (js : List Nat) : ∀ (st : St),
    (remVs st js).cfield = st.cfield := by
  induction js with
  | nil => intro st; rfl
  | cons j js ih => intro st; exact ih (remV st j)

theorem remVs_solution (js : List Nat) : ∀ (st : St),
    (remVs st js).solution = st.solution := by
  induction js with
  | nil => intro st; rfl
  | cons j js ih => intro st; exact ih (remV st j)

theorem unremVs_rlink (js : List Nat) : ∀ (st : St),
    (unremVs st js).rlink = st.rlink := by
  induction js with
  | nil => intro st; rfl
  | cons j js ih => intro st; exact ih (unremV st j)

theorem unremVs_llink (js : List Nat) : ∀ (st : St),
    (unremVs st js).llink = st.llink := by
  induction js with
  | nil => intro st; rfl
  | cons j js ih => intro st; exact ih (unremV st j)

theorem unremVs_cfield (js : List Nat) : ∀ (st : St),
    (unremVs st js).cfield = st.cfield := by
  induction js with
  | nil => intro st; rfl
  | cons j js ih => intro st; exact ih (unremV st j)

theorem unremVs_solution (js : List Nat) : ∀ (st : St),
    (unremVs st js).solution = st.solution := by
  induction js with
  | nil => intro st; rfl
  | cons j js ih => intro st; exact ih (unremV st j)

theorem remVs_append (a b : List Nat) : ∀ (st : St),
    remVs st (a ++ b) = remVs (remVs st a) b := by
  induction a with
  | nil => intro st; rfl
  | cons j a ih => intro st; exact ih (remV st j)

theorem unremVs_append (a b : List Nat) : ∀ (st : St),
    unremVs st (a ++ b) = unremVs (unremVs st a) b := by
  induction a with
  | nil => intro st; rfl
  | cons j a ih => intro st; exact ih (unremV st j)

theorem remRows_flat (rows : List (Nat × List Nat)) : ∀ (st : St),
    remRows st rows = remVs st (rows.flatMap (fun p => p.2)) := by
  induction rows with
  | nil => intro st; rfl
  | cons p rest ih =>
    intro st
    rw [List.flatMap_cons, remVs_append]
    show remRows (remVs st p.2) rest = _
    exact ih (remVs st p.2)

theorem unremRows_flat (rows : List (Nat × List Nat)) : ∀ (st : St),
    unremRows st rows = unremVs st (rows.flatMap (fun p => p.2)) := by
  induction rows with
  | nil => intro st; rfl
  | cons p rest ih =>
    intro st
    rw [List.flatMap_cons, unremVs_append]
    show unremRows (unremVs st p.2) rest = _
    exact ih (unremVs st p.2)


/-- Restoring a node right after removing it is the identity, given the
doubly-linked consistency of the node's own vertical links. -/
theorem unremV_remV (s : St) (j : Nat)
    (h1 : s.ulink (s.dlink j) = j) (h2 : s.dlink (s.ulink j) = j) :
    unremV (remV s j) j = s := by
  have hd : (remV s j).dlink j = s.dlink j := by
    rw [remV_dlink]
    exact upd_dlink_at s j
  have hu : (remV s j).ulink j = s.ulink j := by
    rw [remV_ulink]
    unfold upd
    split_ifs <;> rfl
  have hidx : upd (remV s j).ulink ((remV s j).dlink j) j j =
      (if j = s.dlink j then j else s.ulink j) := by
    rw [hd]
    unfold upd
    split_ifs with h
    · rfl
    · exact hu
  refine St.ext' _ _ ?_ ?_ ?_ ?_ ?_ ?_ rfl
  · intro x
    rfl
  · intro x
    rfl
  · intro x
    rw [unremV_ulink, hd, remV_ulink]
    unfold upd
    split_ifs with hx
    · rw [hx]
      exact h1.symm
    · rfl
  · intro x
    rw [unremV_dlink, hidx, remV_dlink]
    by_cases hjd : j = s.dlink j
    · rw [if_pos hjd]
      have hulj : s.ulink j = j := by
        rw [← hjd] at h1
        exact h1
      unfold upd
      split_ifs with ha hb
      · rw [ha]
        exact hjd
      · exact absurd (hb.trans hulj) ha
      · rfl
    · rw [if_neg hjd]
      unfold upd
      split_ifs with ha
      · rw [ha]
        exact h2.symm
      · rfl
  · intro x
    rfl
  · intro x
    rw [unremV_sfield, remV_cfield, remV_sfield]
    by_cases h : x = s.cfield j
    · rw [h, updZ_same, updZ_same]
      omega
    · rw [updZ_ne _ _ _ _ h, updZ_ne _ _ _ _ h]

/-- Pending consistency survives the removal of another consistent node. -/
theorem P_preserved (s : St) (j' : Nat) (J : List Nat)
    (h1' : s.ulink (s.dlink j') = j') (h2' : s.dlink (s.ulink j') = j')
    (hJ : ∀ j ∈ J, s.ulink (s.dlink j) = j ∧ s.dlink (s.ulink j) = j)
    (hne : j' ∉ J) :
    ∀ j ∈ J, (remV s j').ulink ((remV s j').dlink j) = j ∧
      (remV s j').dlink ((remV s j').ulink j) = j := by
  intro j hj
  obtain ⟨h1j, h2j⟩ := hJ j hj
  have hjj : j ≠ j' := fun h => hne (h ▸ hj)
  constructor
  · rw [remV_dlink, remV_ulink]
    by_cases ha : j = s.ulink j'
    · rw [ha, upd_same, upd_same]
    · rw [upd_ne _ _ _ _ ha]
      by_cases hb : s.dlink j = s.dlink j'
      · exfalso
        rw [hb, h1'] at h1j
        exact hjj h1j.symm
      · rw [upd_ne _ _ _ _ hb]
        exact h1j
  · rw [remV_dlink, remV_ulink]
    by_cases ha : j = s.dlink j'
    · rw [ha, upd_same, upd_same]
    · rw [upd_ne _ _ _ _ ha]
      by_cases hb : s.ulink j = s.ulink j'
      · exfalso
        rw [hb, h2'] at h2j
        exact hjj h2j.symm
      · rw [upd_ne _ _ _ _ hb]
        exact h2j

/-- Removing a duplicate-free list of consistent nodes and then restoring
them in reverse order is the identity. -/
theorem unremVs_remVs (J : List Nat) : ∀ (s : St), J.Nodup →
    (∀ j ∈ J, s.ulink (s.dlink j) = j ∧ s.dlink (s.ulink j) = j) →
    unremVs (remVs s J) J.reverse = s := by
  induction J with
  | nil =>
    intro s _ _
    rfl
  | cons j J ih =>
    intro s hnd hP
    rw [List.reverse_cons]
    show unremVs (remVs (remV s j) J) (J.reverse ++ [j]) = s
    rw [unremVs_append]
    have hnd' := List.nodup_cons.1 hnd
    have hPj := hP j (List.mem_cons_self j J)
    rw [ih (remV s j) hnd'.2
      (P_preserved s j J hPj.1 hPj.2
        (fun j2 hj2 => hP j2 (List.mem_cons_of_mem j hj2)) hnd'.1)]
    show unremV (remV s j) j = s
    exact unremV_remV s j hPj.1 hPj.2


/-- Removing a row node keeps every row node's vertical links inside its
own column class. -/
theorem CL_remV (RN : List Nat) (cf : Nat → Nat) (s : St) (j : Nat)
    (hj : j ∈ RN) (hdisj : ∀ n ∈ RN, cf n ∉ RN) (hCL : CL RN cf s) :
    CL RN cf (remV s j) := by
  intro n hn
  obtain ⟨hCLju, hCLjd⟩ := hCL j hj
  obtain ⟨hCLnu, hCLnd⟩ := hCL n hn
  constructor
  · rw [remV_ulink]
    by_cases h : n = s.dlink j
    · have hval : upd s.ulink (s.dlink j) (s.ulink j) n = s.ulink j := by
        rw [h]
        exact upd_same _ _ _
      rw [hval]
      rcases hCLjd with hh | hh
      · have hmem : cf j ∈ RN := by
          rw [← hh, ← h]
          exact hn
        exact absurd hmem (hdisj j hj)
      · have hcfn : cf n = cf j := by
          rw [h]
          exact hh.2
        rw [hcfn]
        exact hCLju
    · rw [upd_ne _ _ _ _ h]
      exact hCLnu
  · rw [remV_dlink]
    by_cases h : n = s.ulink j
    · have hval : upd s.dlink (s.ulink j) (s.dlink j) n = s.dlink j := by
        rw [h]
        exact upd_same _ _ _
      rw [hval]
      rcases hCLju with hh | hh
      · have hmem : cf j ∈ RN := by
          rw [← hh, ← h]
          exact hn
        exact absurd hmem (hdisj j hj)
      · have hcfn : cf n = cf j := by
          rw [h]
          exact hh.2
        rw [hcfn]
        exact hCLjd
    · rw [upd_ne _ _ _ _ h]
      exact hCLnd

/-- Restoring a row node keeps every row node's vertical links inside its
own column class. -/
theorem CL_unremV (RN : List Nat) (cf : Nat → Nat) (s : St) (j : Nat)
    (hj : j ∈ RN) (hdisj : ∀ n ∈ RN, cf n ∉ RN) (hCL : CL RN cf s) :
    CL RN cf (unremV s j) := by
  intro n hn
  obtain ⟨hCLju, hCLjd⟩ := hCL j hj
  obtain ⟨hCLnu, hCLnd⟩ := hCL n hn
  constructor
  · rw [unremV_ulink]
    by_cases h : n = s.dlink j
    · have hval : upd s.ulink (s.dlink j) j n = j := by
        rw [h]
        exact upd_same _ _ _
      rw [hval]
      rcases hCLjd with hh | hh
      · have hmem : cf j ∈ RN := by
          rw [← hh, ← h]
          exact hn
        exact absurd hmem (hdisj j hj)
      · have hcfn : cf n = cf j := by
          rw [h]
          exact hh.2
        rw [hcfn]
        exact Or.inr ⟨hj, rfl⟩
    · rw [upd_ne _ _ _ _ h]
      exact hCLnu
  · rw [unremV_dlink]
    by_cases h : n = upd s.ulink (s.dlink j) j j
    · have hval : upd s.dlink (upd s.ulink (s.dlink j) j j) j n = j := by
        rw [h]
        exact upd_same _ _ _
      rw [hval]
      revert h
      unfold upd
      split_ifs with hc
      · intro h
        have hcfn : cf n = cf j := by
          rw [h]
        rw [hcfn]
        exact Or.inr ⟨hj, rfl⟩
      · intro h
        rcases hCLju with hh | hh
        · have hmem : cf j ∈ RN := by
            rw [← hh, ← h]
            exact hn
          exact absurd hmem (hdisj j hj)
        · have hcfn : cf n = cf j := by
            rw [h]
            exact hh.2
          rw [hcfn]
          exact Or.inr ⟨hj, rfl⟩
    · rw [upd_ne _ _ _ _ h]
      exact hCLnd

theorem CL_remVs (RN : List Nat) (cf : Nat → Nat) (js : List Nat) :
    ∀ (s : St), (∀ j ∈ js, j ∈ RN) → (∀ n ∈ RN, cf n ∉ RN) →
    CL RN cf s → CL RN cf (remVs s js) := by
  induction js with
  | nil => intro s _ _ h; exact h
  | cons j js ih =>
    intro s hjs hdisj hCL
    exact ih (remV s j) (fun j2 h2 => hjs j2 (List.mem_cons_of_mem j h2))
      hdisj (CL_remV RN cf s j (hjs j (List.mem_cons_self j js)) hdisj hCL)

theorem CL_unremVs (RN : List Nat) (cf : Nat → Nat) (js : List Nat) :
    ∀ (s : St), (∀ j ∈ js, j ∈ RN) → (∀ n ∈ RN, cf n ∉ RN) →
    CL RN cf s → CL RN cf (unremVs s js) := by
  induction js with
  | nil => intro s _ _ h; exact h
  | cons j js ih =>
    intro s hjs hdisj hCL
    exact ih (unremV s j) (fun j2 h2 => hjs j2 (List.mem_cons_of_mem j h2))
      hdisj (CL_unremV RN cf s j (hjs j (List.mem_cons_self j js)) hdisj hCL)

/-- Removing a row node does not touch the vertical links of any node
outside the removed node's column class. -/
theorem remV_frame (RN : List Nat) (cf : Nat → Nat) (s : St) (j n : Nat)
    (hj : j ∈ RN) (hCL : CL RN cf s) (hn : ¬ colOK RN cf (cf j) n) :
    (remV s j).dlink n = s.dlink n ∧ (remV s j).ulink n = s.ulink n := by
  obtain ⟨hu, hd⟩ := hCL j hj
  constructor
  · rw [remV_dlink]
    exact upd_ne _ _ _ _ (fun h => hn (by rw [h]; exact hu))
  · rw [remV_ulink]
    exact upd_ne _ _ _ _ (fun h => hn (by rw [h]; exact hd))

/-- Restoring a row node does not touch the vertical links of any node
outside the restored node's column class. -/
theorem unremV_frame (RN : List Nat) (cf : Nat → Nat) (s : St) (j n : Nat)
    (hj : j ∈ RN) (hCL : CL RN cf s) (hn : ¬ colOK RN cf (cf j) n) :
    (unremV s j).dlink n = s.dlink n ∧ (unremV s j).ulink n = s.ulink n := by
  obtain ⟨hu, hd⟩ := hCL j hj
  have hnj : n ≠ j := fun h => hn (by rw [h]; exact Or.inr ⟨hj, rfl⟩)
  constructor
  · rw [unremV_dlink]
    refine upd_ne _ _ _ _ ?_
    unfold upd
    split_ifs with hc
    · exact hnj
    · exact fun h => hn (by rw [h]; exact hu)
  · rw [unremV_ulink]
    exact upd_ne _ _ _ _ (fun h => hn (by rw [h]; exact hd))

theorem remVs_frame (RN : List Nat) (cf : Nat → Nat) (js : List Nat) :
    ∀ (s : St) (n : Nat), (∀ j ∈ js, j ∈ RN) → (∀ n2 ∈ RN, cf n2 ∉ RN) →
    CL RN cf s → (∀ j ∈ js, ¬ colOK RN cf (cf j) n) →
    (remVs s js).dlink n = s.dlink n ∧ (remVs s js).ulink n = s.ulink n := by
  induction js with
  | nil => intro s n _ _ _ _; exact ⟨rfl, rfl⟩
  | cons j js ih =>
    intro s n hjs hdisj hCL hn
    have hstep := remV_frame RN cf s j n (hjs j (List.mem_cons_self j js))
      hCL (hn j (List.mem_cons_self j js))
    have hrest := ih (remV s j) n
      (fun j2 h2 => hjs j2 (List.mem_cons_of_mem j h2)) hdisj
      (CL_remV RN cf s j (hjs j (List.mem_cons_self j js)) hdisj hCL)
      (fun j2 h2 => hn j2 (List.mem_cons_of_mem j h2))
    exact ⟨hrest.1.trans hstep.1, hrest.2.trans hstep.2⟩

theorem unremVs_frame (RN : List Nat) (cf : Nat → Nat) (js : List Nat) :
    ∀ (s : St) (n : Nat), (∀ j ∈ js, j ∈ RN) → (∀ n2 ∈ RN, cf n2 ∉ RN) →
    CL RN cf s → (∀ j ∈ js, ¬ colOK RN cf (cf j) n) →
    (unremVs s js).dlink n = s.dlink n ∧
      (unremVs s js).ulink n = s.ulink n := by
  induction js with
  | nil => intro s n _ _ _ _; exact ⟨rfl, rfl⟩
  | cons j js ih =>
    intro s n hjs hdisj hCL hn
    have hstep := unremV_frame RN cf s j n (hjs j (List.mem_cons_self j js))
      hCL (hn j (List.mem_cons_self j js))
    have hrest := ih (unremV s j) n
      (fun j2 h2 => hjs j2 (List.mem_cons_of_mem j h2)) hdisj
      (CL_unremV RN cf s j (hjs j (List.mem_cons_self j js)) hdisj hCL)
      (fun j2 h2 => hn j2 (List.mem_cons_of_mem j h2))
    exact ⟨hrest.1.trans hstep.1, hrest.2.trans hstep.2⟩

/-- Transferring a path between two link functions that agree on the
path's source and nodes. -/
theorem pathF_congr_mem (f g : Nat → Nat) :
    ∀ (l : List Nat) (x y : Nat),
    (∀ n, n = x ∨ n ∈ l → f n = g n) → pathF g x l y → pathF f x l y := by
  intro l
  induction l with
  | nil =>
    intro x y h hp
    show f x = y
    rw [h x (Or.inl rfl)]
    exact hp
  | cons z zs ih =>
    intro x y h hp
    refine ⟨?_, ?_⟩
    · rw [h x (Or.inl rfl)]
      exact hp.1
    · exact ih z y
        (fun n hn => h n (by
          rcases hn with rfl | hn
          · exact Or.inr (List.mem_cons_self _ _)
          · exact Or.inr (List.mem_cons_of_mem _ hn))) hp.2


/-! ### The cover and uncover loops follow their traversal data -/

theorem coverH_dlink (st : St) (x : Nat) : (coverH st x).dlink = st.dlink := rfl
theorem coverH_ulink (st : St) (x : Nat) : (coverH st x).ulink = st.ulink := rfl
theorem coverH_llink (st : St) (x : Nat) :
    (coverH st x).llink = upd st.llink (st.rlink x) (st.llink x) := rfl

theorem coverH_rlink_eq (st : St) (x : Nat) :
    (coverH st x).rlink = upd st.rlink (st.llink x) (st.rlink x) := by
  show upd st.rlink (upd st.llink (st.rlink x) (st.llink x) x) (st.rlink x) = _
  have h : upd st.llink (st.rlink x) (st.llink x) x = st.llink x := by
    unfold upd
    split_ifs <;> rfl
  rw [h]

theorem coverRowLoop_eq (r : Nat) :
    ∀ (js : List Nat) (s : St) (x fuel : Nat),
      pathF s.rlink x js r → r ∉ js → js.length < fuel →
      coverRowLoop r (s.rlink x) fuel s = some (remVs s js) := by
  intro js
  induction js with
  | nil =>
    intro s x fuel hp h0 hf
    obtain ⟨f, rfl⟩ : ∃ f, fuel = f + 1 := ⟨fuel - 1, by omega⟩
    have hx : s.rlink x = r := hp
    rw [hx]
    show coverRowLoop r r (f + 1) s = some s
    unfold coverRowLoop
    rw [if_pos rfl]
  | cons j js ih =>
    intro s x fuel hp h0 hf
    obtain ⟨f, rfl⟩ : ∃ f, fuel = f + 1 := ⟨fuel - 1, by omega⟩
    obtain ⟨hx, hrest⟩ := hp
    simp only [List.mem_cons, not_or] at h0
    rw [hx]
    show coverRowLoop r j (f + 1) s = some (remVs (remV s j) js)
    unfold coverRowLoop
    rw [if_neg (fun h => h0.1 h.symm)]
    show coverRowLoop r ((remV s j).rlink j) f (remV s j) =
      some (remVs (remV s j) js)
    have hprest : pathF (remV s j).rlink j js r := by
      rw [remV_rlink]
      exact hrest
    have hlen : js.length < f := by
      simp only [List.length_cons] at hf
      omega
    exact ih (remV s j) j f hprest h0.2 hlen

theorem uncoverRowLoop_eq (r : Nat) :
    ∀ (js : List Nat) (s : St) (x fuel : Nat),
      pathF s.llink x js r → r ∉ js → js.length < fuel →
      uncoverRowLoop r (s.llink x) fuel s = some (unremVs s js) := by
  intro js
  induction js with
  | nil =>
    intro s x fuel hp h0 hf
    obtain ⟨f, rfl⟩ : ∃ f, fuel = f + 1 := ⟨fuel - 1, by omega⟩
    have hx : s.llink x = r := hp
    rw [hx]
    show uncoverRowLoop r r (f + 1) s = some s
    unfold uncoverRowLoop
    rw [if_pos rfl]
  | cons j js ih =>
    intro s x fuel hp h0 hf
    obtain ⟨f, rfl⟩ : ∃ f, fuel = f + 1 := ⟨fuel - 1, by omega⟩
    obtain ⟨hx, hrest⟩ := hp
    simp only [List.mem_cons, not_or] at h0
    rw [hx]
    show uncoverRowLoop r j (f + 1) s = some (unremVs (unremV s j) js)
    unfold uncoverRowLoop
    rw [if_neg (fun h => h0.1 h.symm)]
    show uncoverRowLoop r ((unremV s j).llink j) f (unremV s j) =
      some (unremVs (unremV s j) js)
    have hprest : pathF (unremV s j).llink j js r := by
      rw [unremV_llink]
      exact hrest
    have hlen : js.length < f := by
      simp only [List.length_cons] at hf
      omega
    exact ih (unremV s j) j f hprest h0.2 hlen

theorem coverColLoop_eq (X : Nat) (RN : List Nat) (cf : Nat → Nat)
    (hdisj : ∀ n ∈ RN, cf n ∉ RN) (hX : X ∉ RN) :
    ∀ (rows : List (Nat × List Nat)) (s : St) (x fuel : Nat),
      CL RN cf s →
      (∀ p ∈ rows, p.1 ∈ RN ∧ cf p.1 = X ∧ p.1 ∉ p.2 ∧
        ∀ j ∈ p.2, j ∈ RN ∧ cf j ≠ X) →
      (∀ p ∈ rows, pathF s.rlink p.1 p.2 p.1) →
      pathF s.dlink x (rows.map Prod.fst) X →
      rows.length + (rows.flatMap (fun p => p.2)).length < fuel →
      coverColLoop X (s.dlink x) fuel s = some (remRows s rows) := by
  intro rows
  induction rows with
  | nil =>
    intro s x fuel _ _ _ hdp hf
    obtain ⟨f, rfl⟩ : ∃ f, fuel = f + 1 := ⟨fuel - 1, by omega⟩
    have hx : s.dlink x = X := hdp
    rw [hx]
    show coverColLoop X X (f + 1) s = some s
    unfold coverColLoop
    rw [if_pos rfl]
  | cons p rest ih =>
    intro s x fuel hCL hrows hrp hdp hf
    obtain ⟨f, rfl⟩ : ∃ f, fuel = f + 1 := ⟨fuel - 1, by omega⟩
    simp only [List.map_cons] at hdp
    obtain ⟨hx, hdrest⟩ := hdp
    obtain ⟨hpRN, hpX, hpnj, hpjs⟩ := hrows p (List.mem_cons_self p rest)
    have hnc : ∀ n, n ∈ RN → cf n = X → ∀ j ∈ p.2, ¬ colOK RN cf (cf j) n := by
      intro n hnRN hnX j hj hc
      obtain ⟨hjRN, hjX⟩ := hpjs j hj
      rcases hc with hc | hc
      · exact (hdisj j hjRN) (hc ▸ hnRN)
      · have h := hnX
        rw [hc.2] at h
        exact hjX h
    rw [hx]
    show coverColLoop X p.1 (f + 1) s = some (remRows (remVs s p.2) rest)
    unfold coverColLoop
    rw [if_neg (fun h => hX (by rw [← h]; exact hpRN))]
    have hlen1 : p.2.length < f := by
      simp only [List.length_cons, List.flatMap_cons, List.length_append] at hf
      omega
    rw [coverRowLoop_eq p.1 p.2 s p.1 f (hrp p (List.mem_cons_self p rest))
      hpnj hlen1]
    show coverColLoop X ((remVs s p.2).dlink p.1) f (remVs s p.2) =
      some (remRows (remVs s p.2) rest)
    refine ih (remVs s p.2) p.1 f ?_ ?_ ?_ ?_ ?_
    · exact CL_remVs RN cf p.2 s (fun j hj => (hpjs j hj).1) hdisj hCL
    · exact fun q hq => hrows q (List.mem_cons_of_mem p hq)
    · intro q hq
      rw [remVs_rlink p.2 s]
      exact hrp q (List.mem_cons_of_mem p hq)
    · refine pathF_congr_mem _ s.dlink _ _ _ ?_ hdrest
      intro n hn
      have hnRNX : n ∈ RN ∧ cf n = X := by
        rcases hn with rfl | hn
        · exact ⟨hpRN, hpX⟩
        · rcases List.mem_map.1 hn with ⟨q, hq, rfl⟩
          obtain ⟨h1, h2, _, _⟩ := hrows q (List.mem_cons_of_mem p hq)
          exact ⟨h1, h2⟩
      exact (remVs_frame RN cf p.2 s n (fun j hj => (hpjs j hj).1) hdisj hCL
        (hnc n hnRNX.1 hnRNX.2)).1
    · simp only [List.length_cons, List.flatMap_cons, List.length_append] at hf
      omega

theorem uncoverColLoop_eq (X : Nat) (RN : List Nat) (cf : Nat → Nat)
    (hdisj : ∀ n ∈ RN, cf n ∉ RN) (hX : X ∉ RN) :
    ∀ (rows : List (Nat × List Nat)) (s : St) (x fuel : Nat),
      CL RN cf s →
      (∀ p ∈ rows, p.1 ∈ RN ∧ cf p.1 = X ∧ p.1 ∉ p.2 ∧
        ∀ j ∈ p.2, j ∈ RN ∧ cf j ≠ X) →
      (∀ p ∈ rows, pathF s.llink p.1 p.2 p.1) →
      pathF s.ulink x (rows.map Prod.fst) X →
      rows.length + (rows.flatMap (fun p => p.2)).length < fuel →
      uncoverColLoop X (s.ulink x) fuel s = some (unremRows s rows) := by
  intro rows
  induction rows with
  | nil =>
    intro s x fuel _ _ _ hup hf
    obtain ⟨f, rfl⟩ : ∃ f, fuel = f + 1 := ⟨fuel - 1, by omega⟩
    have hx : s.ulink x = X := hup
    rw [hx]
    show uncoverColLoop X X (f + 1) s = some s
    unfold uncoverColLoop
    rw [if_pos rfl]
  | cons p rest ih =>
    intro s x fuel hCL hrows hlp hup hf
    obtain ⟨f, rfl⟩ : ∃ f, fuel = f + 1 := ⟨fuel - 1, by omega⟩
    simp only [List.map_cons] at hup
    obtain ⟨hx, hurest⟩ := hup
    obtain ⟨hpRN, hpX, hpnj, hpjs⟩ := hrows p (List.mem_cons_self p rest)
    have hnc : ∀ n, n ∈ RN → cf n = X → ∀ j ∈ p.2, ¬ colOK RN cf (cf j) n := by
      intro n hnRN hnX j hj hc
      obtain ⟨hjRN, hjX⟩ := hpjs j hj
      rcases hc with hc | hc
      · exact (hdisj j hjRN) (hc ▸ hnRN)
      · have h := hnX
        rw [hc.2] at h
        exact hjX h
    rw [hx]
    show uncoverColLoop X p.1 (f + 1) s = some (unremRows (unremVs s p.2) rest)
    unfold uncoverColLoop
    rw [if_neg (fun h => hX (by rw [← h]; exact hpRN))]
    have hlen1 : p.2.length < f := by
      simp only [List.length_cons, List.flatMap_cons, List.length_append] at hf
      omega
    rw [uncoverRowLoop_eq p.1 p.2 s p.1 f (hlp p (List.mem_cons_self p rest))
      hpnj hlen1]
    show uncoverColLoop X ((unremVs s p.2).ulink p.1) f (unremVs s p.2) =
      some (unremRows (unremVs s p.2) rest)
    refine ih (unremVs s p.2) p.1 f ?_ ?_ ?_ ?_ ?_
    · exact CL_unremVs RN cf p.2 s (fun j hj => (hpjs j hj).1) hdisj hCL
    · exact fun q hq => hrows q (List.mem_cons_of_mem p hq)
    · intro q hq
      rw [unremVs_llink p.2 s]
      exact hlp q (List.mem_cons_of_mem p hq)
    · refine pathF_congr_mem _ s.ulink _ _ _ ?_ hurest
      intro n hn
      have hnRNX : n ∈ RN ∧ cf n = X := by
        rcases hn with rfl | hn
        · exact ⟨hpRN, hpX⟩
        · rcases List.mem_map.1 hn with ⟨q, hq, rfl⟩
          obtain ⟨h1, h2, _, _⟩ := hrows q (List.mem_cons_of_mem p hq)
          exact ⟨h1, h2⟩
      exact (unremVs_frame RN cf p.2 s n (fun j hj => (hpjs j hj).1) hdisj hCL
        (hnc n hnRNX.1 hnRNX.2)).2
    · simp only [List.length_cons, List.flatMap_cons, List.length_append] at hf
      omega


/-- `DLXSudoku.cover` follows its traversal data: unlink the column
header horizontally, then remove each visited row node. -/
theorem cover_eq (st0 : St) (X lf : Nat) (RN : List Nat) (cf : Nat → Nat)
    (rows : List (Nat × List Nat))
    (hdisj : ∀ n ∈ RN, cf n ∉ RN) (hX : X ∉ RN)
    (hllX : st0.llink X ∉ RN)
    (hCL : CL RN cf st0)
    (hrows : ∀ p ∈ rows, p.1 ∈ RN ∧ cf p.1 = X ∧ p.1 ∉ p.2 ∧
      ∀ j ∈ p.2, j ∈ RN ∧ cf j ≠ X)
    (hrp : ∀ p ∈ rows, pathF st0.rlink p.1 p.2 p.1)
    (hdp : pathF st0.dlink X (rows.map Prod.fst) X)
    (hf : rows.length + (rows.flatMap (fun p => p.2)).length < lf) :
    cover st0 X lf = some (remRows (coverH st0 X) rows) := by
  show coverColLoop X ((coverH st0 X).dlink X) lf (coverH st0 X) = _
  refine coverColLoop_eq X RN cf hdisj hX rows (coverH st0 X) X lf
    ?_ hrows ?_ ?_ hf
  · intro n hn
    have h := hCL n hn
    rw [coverH_ulink, coverH_dlink]
    exact h
  · intro q hq
    refine pathF_congr_mem _ st0.rlink _ _ _ ?_ (hrp q hq)
    intro n hn
    rw [coverH_rlink_eq]
    refine upd_ne _ _ _ _ ?_
    obtain ⟨h1, _, _, h4⟩ := hrows q hq
    rcases hn with rfl | hn
    · exact fun h => hllX (h ▸ h1)
    · exact fun h => hllX (h ▸ (h4 n hn).1)
  · rw [coverH_dlink]
    exact hdp

/-- `DLXSudoku.uncover` follows its traversal data: restore each visited
row node, then relink the column header horizontally. -/
theorem uncover_eq (t : St) (X lf : Nat) (RN : List Nat) (cf : Nat → Nat)
    (rows : List (Nat × List Nat))
    (hdisj : ∀ n ∈ RN, cf n ∉ RN) (hX : X ∉ RN)
    (hCL : CL RN cf t)
    (hrows : ∀ p ∈ rows, p.1 ∈ RN ∧ cf p.1 = X ∧ p.1 ∉ p.2 ∧
      ∀ j ∈ p.2, j ∈ RN ∧ cf j ≠ X)
    (hlp : ∀ p ∈ rows, pathF t.llink p.1 p.2 p.1)
    (hup : pathF t.ulink X (rows.map Prod.fst) X)
    (hf : rows.length + (rows.flatMap (fun p => p.2)).length < lf) :
    uncover t X lf = some (uncoverH (unremRows t rows) X) := by
  show (match uncoverColLoop X (t.ulink X) lf t with
    | none => none
    | some st => some (uncoverH st X)) = _
  rw [uncoverColLoop_eq X RN cf hdisj hX rows t X lf hCL hrows hlp hup hf]

/-- Horizontally relinking a header right after unlinking it is the
identity, given the header ring's consistency at that header. -/
theorem uncoverH_coverH (s : St) (X : Nat)
    (h1 : s.llink (s.rlink X) = X) (h2 : s.rlink (s.llink X) = X) :
    uncoverH (coverH s X) X = s := by
  have hrlX : (coverH s X).rlink X = s.rlink X := by
    rw [coverH_rlink_eq]
    unfold upd
    split_ifs <;> rfl
  have hllX : (coverH s X).llink X = s.llink X := by
    rw [coverH_llink]
    unfold upd
    split_ifs <;> rfl
  refine St.ext' _ _ ?_ ?_ ?_ ?_ ?_ ?_ rfl
  · intro x
    show upd (coverH s X).llink ((coverH s X).rlink X) X x = s.llink x
    rw [hrlX, coverH_llink]
    by_cases hx : x = s.rlink X
    · rw [hx, upd_same]
      exact h1.symm
    · rw [upd_ne _ _ _ _ hx, upd_ne _ _ _ _ hx]
  · intro x
    show upd (coverH s X).rlink
      (upd (coverH s X).llink ((coverH s X).rlink X) X X) X x = s.rlink x
    rw [hrlX]
    have hidx : upd (coverH s X).llink (s.rlink X) X X =
        (if X = s.rlink X then X else s.llink X) := by
      unfold upd
      split_ifs with h
      · rfl
      · exact hllX
    rw [hidx, coverH_rlink_eq]
    by_cases hXr : X = s.rlink X
    · rw [if_pos hXr]
      by_cases hx : x = X
      · rw [hx, upd_same]
        exact hXr
      · rw [upd_ne _ _ _ _ hx]
        by_cases hx2 : x = s.llink X
        · rw [hx2, upd_same]
          rw [h2]
          exact hXr.symm
        · rw [upd_ne _ _ _ _ hx2]
    · rw [if_neg hXr]
      by_cases hx : x = s.llink X
      · rw [hx, upd_same]
        exact h2.symm
      · rw [upd_ne _ _ _ _ hx, upd_ne _ _ _ _ hx]
  · intro x
    rfl
  · intro x
    rfl
  · intro x
    rfl
  · intro x
    rfl

/-- Reversing a cover's traversal data row by row reverses the flat list
of removed nodes. -/
theorem flat_revRows (rows : List (Nat × List Nat)) :
    ((rows.map (fun p => (p.1, p.2.reverse))).reverse).flatMap
      (fun p => p.2) = (rows.flatMap (fun p => p.2)).reverse := by
  induction rows with
  | nil => rfl
  | cons p rest ih =>
    simp only [List.map_cons, List.reverse_cons, List.flatMap_append,
      List.flatMap_cons, List.flatMap_nil, List.append_nil, ih,
      List.reverse_append]

theorem mapFst_revRows (rows : List (Nat × List Nat)) :
    ((rows.map (fun p => (p.1, p.2.reverse))).reverse).map Prod.fst =
      (rows.map Prod.fst).reverse := by
  rw [List.map_reverse, List.map_map]
  rfl


/-- Covering a linked column and uncovering it right away restores the
state exactly, from the traversal data of the column. -/
theorem cover_uncover_pair (st0 : St) (X lf : Nat) (RN : List Nat)
    (cf : Nat → Nat) (rows : List (Nat × List Nat))
    (hdisj : ∀ n ∈ RN, cf n ∉ RN) (hX : X ∉ RN)
    (hllX : st0.llink X ∉ RN) (hrlX : st0.rlink X ∉ RN)
    (hlinked : st0.llink (st0.rlink X) = X ∧ st0.rlink (st0.llink X) = X)
    (hCL : CL RN cf st0)
    (hrows : ∀ p ∈ rows, p.1 ∈ RN ∧ cf p.1 = X ∧ p.1 ∉ p.2 ∧
      ∀ j ∈ p.2, j ∈ RN ∧ cf j ≠ X)
    (hrp : ∀ p ∈ rows, pathF st0.rlink p.1 p.2 p.1)
    (hlp : ∀ p ∈ rows, pathF st0.llink p.1 p.2.reverse p.1)
    (hdp : pathF st0.dlink X (rows.map Prod.fst) X)
    (hup : pathF st0.ulink X (rows.map Prod.fst).reverse X)
    (hnd : (rows.flatMap (fun p => p.2)).Nodup)
    (hP : ∀ j ∈ rows.flatMap (fun p => p.2),
      st0.ulink (st0.dlink j) = j ∧ st0.dlink (st0.ulink j) = j)
    (hf : rows.length + (rows.flatMap (fun p => p.2)).length < lf) :
    cover st0 X lf = some (remRows (coverH st0 X) rows) ∧
    uncover (remRows (coverH st0 X) rows) X lf = some st0 := by
  refine ⟨cover_eq st0 X lf RN cf rows hdisj hX hllX hCL hrows hrp hdp hf, ?_⟩
  have hflat : remRows (coverH st0 X) rows =
      remVs (coverH st0 X) (rows.flatMap (fun p => p.2)) := remRows_flat rows _
  have hflatRN : ∀ j ∈ rows.flatMap (fun p => p.2), j ∈ RN ∧ cf j ≠ X := by
    intro j hj
    rcases List.mem_flatMap.1 hj with ⟨p, hp, hjp⟩
    exact (hrows p hp).2.2.2 j hjp
  have hCL1 : CL RN cf (coverH st0 X) := by
    intro n hn
    have h := hCL n hn
    rw [coverH_ulink, coverH_dlink]
    exact h
  have hCLt : CL RN cf (remRows (coverH st0 X) rows) := by
    rw [hflat]
    exact CL_remVs RN cf _ _ (fun j hj => (hflatRN j hj).1) hdisj hCL1
  have hframe : ∀ n, n = X ∨ (n ∈ RN ∧ cf n = X) →
      (remRows (coverH st0 X) rows).dlink n = st0.dlink n ∧
      (remRows (coverH st0 X) rows).ulink n = st0.ulink n := by
    intro n hn
    have hnc2 : ∀ j ∈ rows.flatMap (fun p => p.2), ¬ colOK RN cf (cf j) n := by
      intro j hj hc
      obtain ⟨hjRN, hjX⟩ := hflatRN j hj
      rcases hc with hc | hc
      · rcases hn with rfl | hn
        · exact hjX hc.symm
        · exact (hdisj j hjRN) (hc ▸ hn.1)
      · rcases hn with rfl | hn
        · exact hX hc.1
        · have h2 := hn.2
          rw [hc.2] at h2
          exact hjX h2
    have h := remVs_frame RN cf _ (coverH st0 X) n
      (fun j hj => (hflatRN j hj).1) hdisj hCL1 hnc2
    rw [coverH_dlink, coverH_ulink] at h
    rw [hflat]
    exact h
  have htll : (remRows (coverH st0 X) rows).llink = (coverH st0 X).llink := by
    rw [hflat]
    exact remVs_llink _ _
  have hrows2 : ∀ p ∈ (rows.map (fun p => (p.1, p.2.reverse))).reverse,
      p.1 ∈ RN ∧ cf p.1 = X ∧ p.1 ∉ p.2 ∧
      ∀ j ∈ p.2, j ∈ RN ∧ cf j ≠ X := by
    intro p hp
    rw [List.mem_reverse] at hp
    rcases List.mem_map.1 hp with ⟨q, hq, rfl⟩
    obtain ⟨h1, h2, h3, h4⟩ := hrows q hq
    refine ⟨h1, h2, ?_, ?_⟩
    · show q.1 ∉ q.2.reverse
      simp only [List.mem_reverse]
      exact h3
    · intro j hj
      exact h4 j (List.mem_reverse.1 hj)
  have hlp2 : ∀ p ∈ (rows.map (fun p => (p.1, p.2.reverse))).reverse,
      pathF (remRows (coverH st0 X) rows).llink p.1 p.2 p.1 := by
    intro p hp
    rw [htll, coverH_llink]
    rw [List.mem_reverse] at hp
    rcases List.mem_map.1 hp with ⟨q, hq, rfl⟩
    refine pathF_congr_mem _ st0.llink _ _ _ ?_ (hlp q hq)
    intro n hn
    refine upd_ne _ _ _ _ ?_
    obtain ⟨h1, _, _, h4⟩ := hrows q hq
    rcases hn with rfl | hn
    · exact fun h => hrlX (h ▸ h1)
    · exact fun h => hrlX (h ▸ (h4 n (List.mem_reverse.1 hn)).1)
  have hup2 : pathF (remRows (coverH st0 X) rows).ulink X
      (((rows.map (fun p => (p.1, p.2.reverse))).reverse).map Prod.fst) X := by
    rw [mapFst_revRows]
    refine pathF_congr_mem _ st0.ulink _ _ _ ?_ hup
    intro n hn
    refine (hframe n ?_).2
    rcases hn with rfl | hn
    · exact Or.inl rfl
    · rw [List.mem_reverse] at hn
      rcases List.mem_map.1 hn with ⟨q, hq, rfl⟩
      obtain ⟨h1, h2, _, _⟩ := hrows q hq
      exact Or.inr ⟨h1, h2⟩
  have hf2 : ((rows.map (fun p => (p.1, p.2.reverse))).reverse).length +
      (((rows.map (fun p => (p.1, p.2.reverse))).reverse).flatMap
        (fun p => p.2)).length < lf := by
    rw [flat_revRows]
    simp only [List.length_reverse, List.length_map]
    exact hf
  have huncover := uncover_eq (remRows (coverH st0 X) rows) X lf RN cf
    ((rows.map (fun p => (p.1, p.2.reverse))).reverse)
    hdisj hX hCLt hrows2 hlp2 hup2 hf2
  rw [huncover]
  have hrest : unremRows (remRows (coverH st0 X) rows)
      ((rows.map (fun p => (p.1, p.2.reverse))).reverse) = coverH st0 X := by
    rw [unremRows_flat, flat_revRows, hflat]
    refine unremVs_remVs _ (coverH st0 X) hnd ?_
    intro j hj
    have h := hP j hj
    rw [coverH_ulink, coverH_dlink]
    exact h
  rw [hrest, uncoverH_coverH st0 X hlinked.1 hlinked.2]

/-- C3: for a column header `X` linked into the header ring of a
well-formed matrix (hypotheses: the rows of `X` and their row-mates, the
column classes of the row nodes, link consistency and traversal fuel),
`cover(X)` succeeds, and `uncover(X)` run immediately afterwards returns
the state to exactly its pre-cover value — every node's four links,
every column's live count, and all remaining fields included. -/
theorem claim3_coverUncover (st0 : St) (X lf : Nat) (RN : List Nat)
    (cf : Nat → Nat) (rows : List (Nat × List Nat))
    (hdisj : ∀ n ∈ RN, cf n ∉ RN) (hX : X ∉ RN)
    (hllX : st0.llink X ∉ RN) (hrlX : st0.rlink X ∉ RN)
    (hlinked : st0.llink (st0.rlink X) = X ∧ st0.rlink (st0.llink X) = X)
    (hCL : CL RN cf st0)
    (hrows : ∀ p ∈ rows, p.1 ∈ RN ∧ cf p.1 = X ∧ p.1 ∉ p.2 ∧
      ∀ j ∈ p.2, j ∈ RN ∧ cf j ≠ X)
    (hrp : ∀ p ∈ rows, pathF st0.rlink p.1 p.2 p.1)
    (hlp : ∀ p ∈ rows, pathF st0.llink p.1 p.2.reverse p.1)
    (hdp : pathF st0.dlink X (rows.map Prod.fst) X)
    (hup : pathF st0.ulink X (rows.map Prod.fst).reverse X)
    (hnd : (rows.flatMap (fun p => p.2)).Nodup)
    (hP : ∀ j ∈ rows.flatMap (fun p => p.2),
      st0.ulink (st0.dlink j) = j ∧ st0.dlink (st0.ulink j) = j)
    (hf : rows.length + (rows.flatMap (fun p => p.2)).length < lf) :
    cover st0 X lf = some (remRows (coverH st0 X) rows) ∧
    uncover (remRows (coverH st0 X) rows) X lf = some st0 :=
  cover_uncover_pair st0 X lf RN cf rows hdisj hX hllX hrlX hlinked hCL
    hrows hrp hlp hdp hup hnd hP hf

/-- Witness for C3 at the conflict board's matrix, covering column 2 and
uncovering it again. -/
theorem claim3_coverUncover_witness :
    cover (buildSt conflictBoard) 2 50 =
      some (remRows (coverH (buildSt conflictBoard) 2) [(9, [10, 7, 8])]) ∧
    uncover (remRows (coverH (buildSt conflictBoard) 2) [(9, [10, 7, 8])])
      2 50 = some (buildSt conflictBoard) :=
  claim3_coverUncover (buildSt conflictBoard) 2 50
    [7, 8, 9, 10, 11, 12, 13, 14] (buildSt conflictBoard).cfield
    [(9, [10, 7, 8])]
    (by decide) (by decide) (by decide) (by decide) (by decide) (by decide)
    (by decide) (by decide) (by decide) (by decide) (by decide) (by decide)
    (by decide) (by decide)


/-! ### Sequenced covers inside `search` and their traversal data -/

theorem coverSeq_append (a b : List (Nat × Nat × List (Nat × List Nat))) :
    ∀ (s : St), coverSeq s (a ++ b) = coverSeq (coverSeq s a) b := by
  induction a with
  | nil => intro s; rfl
  | cons e a ih => intro s; exact ih (remRows (coverH s e.2.1) e.2.2)

theorem covsOK_append (RN : List Nat) (cf : Nat → Nat) (lf : Nat)
    (a b : List (Nat × Nat × List (Nat × List Nat))) :
    ∀ (s : St), covsOK RN cf lf s (a ++ b) ↔
      covsOK RN cf lf s a ∧ covsOK RN cf lf (coverSeq s a) b := by
  induction a with
  | nil =>
    intro s
    show covsOK RN cf lf s b ↔ True ∧ covsOK RN cf lf s b
    simp
  | cons e a ih =>
    intro s
    show (_ ∧ _ ∧ _ ∧ _ ∧ _ ∧ _ ∧ _ ∧ _ ∧ _ ∧ _ ∧ _ ∧ _ ∧
        covsOK RN cf lf (remRows (coverH s e.2.1) e.2.2) (a ++ b)) ↔ _
    rw [ih (remRows (coverH s e.2.1) e.2.2)]
    show _ ↔ ((_ ∧ _ ∧ _ ∧ _ ∧ _ ∧ _ ∧ _ ∧ _ ∧ _ ∧ _ ∧ _ ∧ _ ∧ _) ∧ _)
    tauto

/-! Solution-threading: none of the cover and uncover primitives read or
write the partial-solution list, so an overridden solution commutes past
all of them. -/

theorem unremV_sol (s : St) (z : List Nat) (j : Nat) :
    unremV { s with solution := z } j = { unremV s j with solution := z } :=
  rfl

theorem uncoverRowLoop_sol (r : Nat) :
    ∀ (fuel : Nat) (j : Nat) (s : St) (z : List Nat),
      uncoverRowLoop r j fuel { s with solution := z } =
        (uncoverRowLoop r j fuel s).map
          (fun u => { u with solution := z }) := by
  intro fuel
  induction fuel with
  | zero => intro j s z; rfl
  | succ fuel ih =>
    intro j s z
    unfold uncoverRowLoop
    by_cases h : j = r
    · rw [if_pos h, if_pos h]
      rfl
    · rw [if_neg h, if_neg h]
      show uncoverRowLoop r ((unremV { s with solution := z } j).llink j) fuel
          (unremV { s with solution := z } j) = _
      rw [unremV_sol]
      show uncoverRowLoop r ((unremV s j).llink j) fuel
          { unremV s j with solution := z } = _
      rw [ih ((unremV s j).llink j) (unremV s j) z]
      rfl

theorem uncoverColLoop_sol (col : Nat) :
    ∀ (fuel : Nat) (r : Nat) (s : St) (z : List Nat),
      uncoverColLoop col r fuel { s with solution := z } =
        (uncoverColLoop col r fuel s).map
          (fun u => { u with solution := z }) := by
  intro fuel
  induction fuel with
  | zero => intro r s z; rfl
  | succ fuel ih =>
    intro r s z
    unfold uncoverColLoop
    by_cases h : r = col
    · rw [if_pos h, if_pos h]
      rfl
    · rw [if_neg h, if_neg h]
      show (match uncoverRowLoop r (s.llink r) fuel { s with solution := z }
          with
        | none => none
        | some st => uncoverColLoop col (st.ulink r) fuel st) = _
      rw [uncoverRowLoop_sol]
      cases huc : uncoverRowLoop r (s.llink r) fuel s with
      | none => rfl
      | some u =>
        show uncoverColLoop col (u.ulink r) fuel { u with solution := z } = _
        rw [ih (u.ulink r) u z]

theorem uncover_sol (t : St) (z : List Nat) (c lf : Nat) :
    uncover { t with solution := z } c lf =
      (uncover t c lf).map (fun u => { u with solution := z }) := by
  unfold uncover
  show (match uncoverColLoop c (t.ulink c) lf { t with solution := z } with
    | none => none
    | some st => some (uncoverH st c)) = _
  rw [uncoverColLoop_sol]
  cases huc : uncoverColLoop c (t.ulink c) lf t with
  | none => rfl
  | some u => rfl

theorem uncoverColsOfRow_sol (r lf : Nat) :
    ∀ (fuel : Nat) (j : Nat) (t : St) (z : List Nat),
      uncoverColsOfRow r lf j fuel { t with solution := z } =
        (uncoverColsOfRow r lf j fuel t).map
          (fun u => { u with solution := z }) := by
  intro fuel
  induction fuel with
  | zero => intro j t z; rfl
  | succ fuel ih =>
    intro j t z
    unfold uncoverColsOfRow
    split_ifs with h
    · rfl
    · show (match uncover { t with solution := z } (t.cfield j) lf with
        | none => none
        | some st => uncoverColsOfRow r lf (st.llink j) fuel st) = _
      rw [uncover_sol]
      cases huc : uncover t (t.cfield j) lf with
      | none => rfl
      | some u =>
        show uncoverColsOfRow r lf (u.llink j) fuel { u with solution := z } = _
        rw [ih (u.llink j) u z]


theorem coverStep_cfield (s : St) (c : Nat) (rws : List (Nat × List Nat)) :
    (remRows (coverH s c) rws).cfield = s.cfield := by
  rw [remRows_flat, remVs_cfield]
  rfl

theorem coverStep_solution (s : St) (c : Nat)
    (rws : List (Nat × List Nat)) :
    (remRows (coverH s c) rws).solution = s.solution := by
  rw [remRows_flat, remVs_solution]
  rfl

theorem coverSeq_cfield (entries : List (Nat × Nat × List (Nat × List Nat))) :
    ∀ (s : St), (coverSeq s entries).cfield = s.cfield := by
  induction entries with
  | nil => intro s; rfl
  | cons e rest ih =>
    intro s
    show (coverSeq (remRows (coverH s e.2.1) e.2.2) rest).cfield = s.cfield
    rw [ih, coverStep_cfield]

theorem coverSeq_solution
    (entries : List (Nat × Nat × List (Nat × List Nat))) :
    ∀ (s : St), (coverSeq s entries).solution = s.solution := by
  induction entries with
  | nil => intro s; rfl
  | cons e rest ih =>
    intro s
    show (coverSeq (remRows (coverH s e.2.1) e.2.2) rest).solution = s.solution
    rw [ih, coverStep_solution]

theorem CL_coverStep (RN : List Nat) (cf : Nat → Nat) (s : St) (c : Nat)
    (rws : List (Nat × List Nat))
    (hdisj : ∀ n ∈ RN, cf n ∉ RN)
    (hjs : ∀ p ∈ rws, ∀ j ∈ p.2, j ∈ RN)
    (hCL : CL RN cf s) : CL RN cf (remRows (coverH s c) rws) := by
  rw [remRows_flat]
  refine CL_remVs RN cf _ _ ?_ hdisj ?_
  · intro j hj
    rcases List.mem_flatMap.1 hj with ⟨p, hp, hjp⟩
    exact hjs p hp j hjp
  · intro n hn
    have h := hCL n hn
    rw [coverH_ulink, coverH_dlink]
    exact h

theorem CL_coverSeq (RN : List Nat) (cf : Nat → Nat) (lf : Nat)
    (entries : List (Nat × Nat × List (Nat × List Nat))) :
    ∀ (s : St), (∀ n ∈ RN, cf n ∉ RN) → covsOK RN cf lf s entries →
    CL RN cf s → CL RN cf (coverSeq s entries) := by
  induction entries with
  | nil => intro s _ _ h; exact h
  | cons e rest ih =>
    intro s hdisj hok hCL
    obtain ⟨_, _, _, _, hrows, _, _, _, _, _, _, _, hrec⟩ := hok
    show CL RN cf (coverSeq (remRows (coverH s e.2.1) e.2.2) rest)
    refine ih _ hdisj hrec ?_
    exact CL_coverStep RN cf s e.2.1 e.2.2 hdisj
      (fun p hp j hj => ((hrows p hp).2.2.2 j hj).1) hCL

theorem coverSeq_llink_RN (RN : List Nat) (cf : Nat → Nat) (lf : Nat)
    (entries : List (Nat × Nat × List (Nat × List Nat))) :
    ∀ (s : St) (n : Nat), covsOK RN cf lf s entries → n ∈ RN →
    (coverSeq s entries).llink n = s.llink n := by
  induction entries with
  | nil => intro s n _ _; rfl
  | cons e rest ih =>
    intro s n hok hn
    obtain ⟨_, _, hrl, _, _, _, _, _, _, _, _, _, hrec⟩ := hok
    show (coverSeq (remRows (coverH s e.2.1) e.2.2) rest).llink n = s.llink n
    rw [ih _ n hrec hn, remRows_flat, remVs_llink, coverH_llink]
    exact upd_ne _ _ _ _ (fun h => hrl (h ▸ hn))

theorem coverSeq_rlink_RN (RN : List Nat) (cf : Nat → Nat) (lf : Nat)
    (entries : List (Nat × Nat × List (Nat × List Nat))) :
    ∀ (s : St) (n : Nat), covsOK RN cf lf s entries → n ∈ RN →
    (coverSeq s entries).rlink n = s.rlink n := by
  induction entries with
  | nil => intro s n _ _; rfl
  | cons e rest ih =>
    intro s n hok hn
    obtain ⟨_, hll, _, _, _, _, _, _, _, _, _, _, hrec⟩ := hok
    show (coverSeq (remRows (coverH s e.2.1) e.2.2) rest).rlink n = s.rlink n
    rw [ih _ n hrec hn, remRows_flat, remVs_rlink, coverH_rlink_eq]
    exact upd_ne _ _ _ _ (fun h => hll (h ▸ hn))

/-- Covers of other columns leave the vertical links of the chosen
column's class untouched. -/
theorem coverSeq_vert (RN : List Nat) (cf : Nat → Nat) (lf X : Nat)
    (hX : X ∉ RN) (hdisj : ∀ n ∈ RN, cf n ∉ RN)
    (entries : List (Nat × Nat × List (Nat × List Nat))) :
    ∀ (s : St) (n : Nat), covsOK RN cf lf s entries → CL RN cf s →
    (n = X ∨ (n ∈ RN ∧ cf n = X)) →
    (∀ e ∈ entries, ∀ p ∈ e.2.2, ∀ j ∈ p.2, cf j ≠ X) →
    (coverSeq s entries).dlink n = s.dlink n ∧
      (coverSeq s entries).ulink n = s.ulink n := by
  induction entries with
  | nil => intro s n _ _ _ _; exact ⟨rfl, rfl⟩
  | cons e rest ih =>
    intro s n hok hCL hn hguard
    obtain ⟨_, _, _, _, hrows, _, _, _, _, _, _, _, hrec⟩ := hok
    have hCL1 : CL RN cf (remRows (coverH s e.2.1) e.2.2) :=
      CL_coverStep RN cf s e.2.1 e.2.2 hdisj
        (fun p hp j hj => ((hrows p hp).2.2.2 j hj).1) hCL
    have hstep : (remRows (coverH s e.2.1) e.2.2).dlink n = s.dlink n ∧
        (remRows (coverH s e.2.1) e.2.2).ulink n = s.ulink n := by
      rw [remRows_flat]
      have h := remVs_frame RN cf _ (coverH s e.2.1) n
        (fun j hj => by
          rcases List.mem_flatMap.1 hj with ⟨p, hp, hjp⟩
          exact ((hrows p hp).2.2.2 j hjp).1)
        hdisj
        (by
          intro n2 hn2
          have h2 := hCL n2 hn2
          rw [coverH_ulink, coverH_dlink]
          exact h2)
        (by
          intro j hj hc
          rcases List.mem_flatMap.1 hj with ⟨p, hp, hjp⟩
          have hjX : cf j ≠ X :=
            hguard e (List.mem_cons_self e rest) p hp j hjp
          have hjRN : j ∈ RN := ((hrows p hp).2.2.2 j hjp).1
          rcases hc with hc | hc
          · rcases hn with rfl | hn
            · exact hjX hc.symm
            · exact (hdisj j hjRN) (hc ▸ hn.1)
          · rcases hn with rfl | hn
            · exact hX hc.1
            · have h2 := hn.2
              rw [hc.2] at h2
              exact hjX h2)
      rw [coverH_dlink, coverH_ulink] at h
      exact h
    have hrest := ih (remRows (coverH s e.2.1) e.2.2) n hrec hCL1 hn
      (fun e2 he2 => hguard e2 (List.mem_cons_of_mem e he2))
    show (coverSeq (remRows (coverH s e.2.1) e.2.2) rest).dlink n = _ ∧ _
    exact ⟨hrest.1.trans hstep.1, hrest.2.trans hstep.2⟩


/-- The `cover`-all-row-mates loop of `search` follows its traversal
data. -/
theorem coverColsOfRow_trace (r lf : Nat) (RN : List Nat) (cf : Nat → Nat)
    (hdisj : ∀ n ∈ RN, cf n ∉ RN) :
    ∀ (entries : List (Nat × Nat × List (Nat × List Nat))) (s : St)
      (x fuel : Nat),
      covsOK RN cf lf s entries → CL RN cf s →
      (∀ e ∈ entries, e.1 ∈ RN ∧ s.cfield e.1 = e.2.1) →
      pathF s.rlink x (entries.map (fun e => e.1)) r →
      r ∉ entries.map (fun e => e.1) →
      entries.length < fuel →
      coverColsOfRow r lf (s.rlink x) fuel s = some (coverSeq s entries) := by
  intro entries
  induction entries with
  | nil =>
    intro s x fuel _ _ _ hp _ hf
    obtain ⟨f, rfl⟩ : ∃ f, fuel = f + 1 := ⟨fuel - 1, by omega⟩
    have hx : s.rlink x = r := hp
    rw [hx]
    show coverColsOfRow r lf r (f + 1) s = some s
    unfold coverColsOfRow
    rw [if_pos rfl]
  | cons e rest ih =>
    intro s x fuel hok hCL hmates hp hnr hf
    obtain ⟨f, rfl⟩ : ∃ f, fuel = f + 1 := ⟨fuel - 1, by omega⟩
    simp only [List.map_cons] at hp hnr
    obtain ⟨hx, hprest⟩ := hp
    simp only [List.mem_cons, not_or] at hnr
    obtain ⟨hc1, hc2, hc3, hc4, hc5, hc6, hc7, hc8, hc9, hc10, hc11, hc12,
      hrec⟩ := hok
    rw [hx]
    show coverColsOfRow r lf e.1 (f + 1) s =
      some (coverSeq (remRows (coverH s e.2.1) e.2.2) rest)
    unfold coverColsOfRow
    rw [if_neg (fun h => hnr.1 h.symm)]
    rw [(hmates e (List.mem_cons_self e rest)).2]
    rw [cover_eq s e.2.1 lf RN cf e.2.2 hdisj hc1 hc2 hCL hc5 hc6 hc8 hc12]
    show coverColsOfRow r lf
      ((remRows (coverH s e.2.1) e.2.2).rlink e.1) f
      (remRows (coverH s e.2.1) e.2.2) = _
    have hrlN : ∀ n, n ∈ RN →
        (remRows (coverH s e.2.1) e.2.2).rlink n = s.rlink n := by
      intro n hn
      rw [remRows_flat, remVs_rlink, coverH_rlink_eq]
      exact upd_ne _ _ _ _ (fun h => hc2 (h ▸ hn))
    refine ih (remRows (coverH s e.2.1) e.2.2) e.1 f hrec ?_ ?_ ?_ hnr.2 ?_
    · exact CL_coverStep RN cf s e.2.1 e.2.2 hdisj
        (fun p hp2 j hj => ((hc5 p hp2).2.2.2 j hj).1) hCL
    · intro e2 he2
      refine ⟨(hmates e2 (List.mem_cons_of_mem e he2)).1, ?_⟩
      rw [coverStep_cfield]
      exact (hmates e2 (List.mem_cons_of_mem e he2)).2
    · refine pathF_congr_mem _ s.rlink _ _ _ ?_ hprest
      intro n hn
      refine hrlN n ?_
      rcases hn with rfl | hn
      · exact (hmates e (List.mem_cons_self e rest)).1
      · rcases List.mem_map.1 hn with ⟨e2, he2, rfl⟩
        exact (hmates e2 (List.mem_cons_of_mem e he2)).1
    · simp only [List.length_cons] at hf
      omega

/-- The `uncover`-all-row-mates loop of `search` exactly reverses the
cover sequence. -/
theorem uncoverColsOfRow_trace (r lf : Nat) (RN : List Nat) (cf : Nat → Nat)
    (hdisj : ∀ n ∈ RN, cf n ∉ RN) :
    ∀ (entries : List (Nat × Nat × List (Nat × List Nat))),
      ∀ (s : St) (x fuel : Nat),
      covsOK RN cf lf s entries → CL RN cf s →
      (∀ e ∈ entries, e.1 ∈ RN ∧ s.cfield e.1 = e.2.1) →
      pathF s.llink x ((entries.map (fun e => e.1)).reverse) r →
      x ∈ RN →
      r ∉ entries.map (fun e => e.1) →
      entries.length < fuel →
      uncoverColsOfRow r lf ((coverSeq s entries).llink x) fuel
        (coverSeq s entries) = some s := by
  intro entries
  induction entries using List.reverseRecOn with
  | nil =>
    intro s x fuel _ _ _ hp _ _ hf
    obtain ⟨f, rfl⟩ : ∃ f, fuel = f + 1 := ⟨fuel - 1, by omega⟩
    have hx : s.llink x = r := hp
    show uncoverColsOfRow r lf (s.llink x) (f + 1) s = some s
    rw [hx]
    unfold uncoverColsOfRow
    rw [if_pos rfl]
  | append_singleton rest e ih =>
    intro s x fuel hok hCL hmates hp hxRN hnr hf
    obtain ⟨f, rfl⟩ : ∃ f, fuel = f + 1 := ⟨fuel - 1, by omega⟩
    rw [covsOK_append] at hok
    obtain ⟨hokR, hokE⟩ := hok
    obtain ⟨hc1, hc2, hc3, hc4, hc5, hc6, hc7, hc8, hc9, hc10, hc11, hc12,
      -⟩ := hokE
    have hmapr : ((rest ++ [e]).map (fun e => e.1)).reverse =
        e.1 :: (rest.map (fun e => e.1)).reverse := by
      simp
    rw [hmapr] at hp
    obtain ⟨hx1, hprest⟩ := hp
    simp only [List.map_append, List.map_cons, List.map_nil,
      List.mem_append, List.mem_cons, List.not_mem_nil, or_false,
      not_or] at hnr
    have heRN : e.1 ∈ RN := (hmates e (by simp)).1
    rw [coverSeq_append]
    show uncoverColsOfRow r lf
      ((remRows (coverH (coverSeq s rest) e.2.1) e.2.2).llink x) (f + 1)
      (remRows (coverH (coverSeq s rest) e.2.1) e.2.2) = some s
    have hllstep : ∀ n, n ∈ RN →
        (remRows (coverH (coverSeq s rest) e.2.1) e.2.2).llink n =
          (coverSeq s rest).llink n := by
      intro n hn
      rw [remRows_flat, remVs_llink, coverH_llink]
      exact upd_ne _ _ _ _ (fun h => hc3 (h ▸ hn))
    have hllx : (remRows (coverH (coverSeq s rest) e.2.1) e.2.2).llink x =
        s.llink x := by
      rw [hllstep x hxRN, coverSeq_llink_RN RN cf lf rest s x hokR hxRN]
    rw [hllx, hx1]
    unfold uncoverColsOfRow
    rw [if_neg (fun h => hnr.2 h.symm)]
    have hcf : (remRows (coverH (coverSeq s rest) e.2.1) e.2.2).cfield e.1 =
        e.2.1 := by
      rw [coverStep_cfield, coverSeq_cfield]
      exact (hmates e (by simp)).2
    rw [hcf]
    have hCL0 : CL RN cf (coverSeq s rest) :=
      CL_coverSeq RN cf lf rest s hdisj hokR hCL
    have hun := (cover_uncover_pair (coverSeq s rest) e.2.1 lf RN cf e.2.2
      hdisj hc1 hc2 hc3 hc4 hCL0 hc5 hc6 hc7 hc8 hc9 hc10 hc11 hc12).2
    rw [hun]
    show uncoverColsOfRow r lf ((coverSeq s rest).llink e.1) f
      (coverSeq s rest) = some s
    have hll1 : (coverSeq s rest).llink e.1 = s.llink e.1 :=
      coverSeq_llink_RN RN cf lf rest s e.1 hokR heRN
    rw [hll1]
    have := ih s e.1 f hokR hCL
      (fun e2 he2 => hmates e2 (by simp [he2])) hprest heRN hnr.1
      (by
        simp only [List.length_append, List.length_cons,
          List.length_nil] at hf
        omega)
    rw [coverSeq_llink_RN RN cf lf rest s e.1 hokR heRN] at this
    exact this


theorem searchRowLoop_step (recur : St → Option (Bool × St))
    (col lf r f : Nat) (st : St) (h : ¬ r = col) :
    searchRowLoop recur col lf r (f + 1) st =
      (match coverColsOfRow r lf
          (({ st with solution := st.solution ++ [r] } : St).rlink r) lf
          { st with solution := st.solution ++ [r] } with
       | none => none
       | some st2 =>
         match recur st2 with
         | none => none
         | some (true, st3) => some (true, st3)
         | some (false, st3) =>
           match st3.solution.getLast? with
           | none => none
           | some rPop =>
             match uncoverColsOfRow rPop lf
                 (({ st3 with solution := st3.solution.dropLast } : St).llink
                   rPop) lf
                 { st3 with solution := st3.solution.dropLast } with
             | none => none
             | some st4 => searchRowLoop recur col lf (st2.dlink r) f st4) := by
  simp only [searchRowLoop]
  rw [if_neg h]



/-- The row loop of `search`, given the traversal data of each row and,
for each row's branch state, only the conditional fact that a recursive
`search` reporting `False` restores its own input (no claim about which
result the recursion actually produces): whenever the loop itself
reports `False`, the state it hands back is the uncover result `stF`. -/
theorem searchRowLoop_exhaust (col d lf : Nat) (RN : List Nat)
    (cf : Nat → Nat) (hdisj : ∀ n ∈ RN, cf n ∉ RN) (hcol : col ∉ RN)
    (st1 stF : St) (hun : uncover st1 col lf = some stF)
    (hCL : CL RN cf st1) :
    ∀ (rowsD : List ((Nat × List Nat) ×
        List (Nat × Nat × List (Nat × List Nat)))) (x fuel : Nat),
      (∀ q ∈ rowsD,
        q.1.1 ∈ RN ∧ cf q.1.1 = col ∧
        q.2.map (fun e => e.1) = q.1.2 ∧
        q.1.1 ∉ q.1.2 ∧
        covsOK RN cf lf { st1 with solution := st1.solution ++ [q.1.1] }
          q.2 ∧
        (∀ e ∈ q.2, e.1 ∈ RN ∧ st1.cfield e.1 = e.2.1) ∧
        (∀ e ∈ q.2, ∀ p ∈ e.2.2, ∀ j ∈ p.2, cf j ≠ col) ∧
        pathF st1.rlink q.1.1 q.1.2 q.1.1 ∧
        pathF st1.llink q.1.1 q.1.2.reverse q.1.1 ∧
        q.2.length < lf ∧
        (∀ u, search d lf
            (coverSeq { st1 with solution := st1.solution ++ [q.1.1] }
              q.2) = some (false, u) →
          u = coverSeq { st1 with solution := st1.solution ++ [q.1.1] }
            q.2)) →
      pathF st1.dlink x (rowsD.map (fun q => q.1.1)) col →
      rowsD.length < fuel →
      ∀ t, searchRowLoop (search d lf) col lf (st1.dlink x) fuel st1 =
        some (false, t) → t = stF := by
  intro rowsD
  induction rowsD with
  | nil =>
    intro x fuel _ hdp hf t ht
    obtain ⟨f, rfl⟩ : ∃ f, fuel = f + 1 := ⟨fuel - 1, by omega⟩
    have hx : st1.dlink x = col := hdp
    rw [hx] at ht
    have hend : searchRowLoop (search d lf) col lf col (f + 1) st1 =
        some (false, stF) := by
      unfold searchRowLoop
      rw [if_pos rfl, hun]
    rw [hend] at ht
    simp only [Option.some.injEq, Prod.mk.injEq] at ht
    exact ht.2.symm
  | cons q rest ih =>
    intro x fuel hrows hdp hf t ht
    obtain ⟨f, rfl⟩ : ∃ f, fuel = f + 1 := ⟨fuel - 1, by omega⟩
    simp only [List.map_cons] at hdp
    obtain ⟨hx, hdrest⟩ := hdp
    obtain ⟨h1, h2, h3, h4, h5, h6, h7, h8, h8l, h10, h9⟩ :=
      hrows q (List.mem_cons_self q rest)
    rw [hx] at ht
    rw [searchRowLoop_step (search d lf) col lf q.1.1 f st1
      (fun h => hcol (h ▸ h1))] at ht
    have hpath2 : pathF
        ({ st1 with solution := st1.solution ++ [q.1.1] } : St).rlink q.1.1
        (q.2.map (fun e => e.1)) q.1.1 := by
      rw [h3]
      exact h8
    have hnr2 : q.1.1 ∉ q.2.map (fun e => e.1) := by
      rw [h3]
      exact h4
    have hcov := coverColsOfRow_trace q.1.1 lf RN cf hdisj q.2
      { st1 with solution := st1.solution ++ [q.1.1] } q.1.1 lf
      h5 hCL h6 hpath2 hnr2 h10
    rw [hcov] at ht
    simp only [] at ht
    cases hres : search d lf
        (coverSeq { st1 with solution := st1.solution ++ [q.1.1] } q.2) with
    | none =>
      rw [hres] at ht
      simp only [] at ht
      exact Option.noConfusion ht
    | some p =>
      obtain ⟨b, u⟩ := p
      cases b with
      | true =>
        rw [hres] at ht
        simp only [] at ht
        simp at ht
      | false =>
        have hu : u =
            coverSeq { st1 with solution := st1.solution ++ [q.1.1] } q.2 :=
          h9 u hres
        subst hu
        rw [hres] at ht
        simp only [] at ht
        have hsol : (coverSeq { st1 with solution := st1.solution ++ [q.1.1] }
            q.2).solution = st1.solution ++ [q.1.1] := coverSeq_solution q.2 _
        rw [hsol, List.getLast?_concat] at ht
        simp only [] at ht
        rw [List.dropLast_concat] at ht
        rw [uncoverColsOfRow_sol] at ht
        have hptr : ({ coverSeq { st1 with solution :=
            st1.solution ++ [q.1.1] } q.2 with
            solution := st1.solution } : St).llink q.1.1 =
            (coverSeq { st1 with solution := st1.solution ++ [q.1.1] }
              q.2).llink q.1.1 := rfl
        rw [hptr] at ht
        have hpathl : pathF
            ({ st1 with solution := st1.solution ++ [q.1.1] } : St).llink
            q.1.1 ((q.2.map (fun e => e.1)).reverse) q.1.1 := by
          rw [h3]
          exact h8l
        have huncov := uncoverColsOfRow_trace q.1.1 lf RN cf hdisj q.2
          { st1 with solution := st1.solution ++ [q.1.1] } q.1.1 lf
          h5 hCL h6 hpathl h1 hnr2 h10
        rw [huncov] at ht
        rw [Option.map_some'] at ht
        simp only [] at ht
        have hdl : (coverSeq { st1 with solution := st1.solution ++ [q.1.1] }
            q.2).dlink q.1.1 = st1.dlink q.1.1 :=
          ((coverSeq_vert RN cf lf col hcol hdisj q.2)
            { st1 with solution := st1.solution ++ [q.1.1] } q.1.1 h5 hCL
            (Or.inr ⟨h1, h2⟩) h7).1
        rw [hdl] at ht
        exact ih q.1.1 f
          (fun q2 hq2 => hrows q2 (List.mem_cons_of_mem q hq2))
          hdrest (by
            simp only [List.length_cons] at hf
            omega) t ht

/-- **C10**: whenever a call to `search` returns `Exhausted` (`False`),
the entire solver state is restored to exactly what it was at the moment
of the call — every node's four links, every column header's live count,
the master header's horizontal list and the partial-solution list.
`GD` supplies the well-formedness and traversal data of the call tree
(structural link and path facts only, nothing about what `search`
returns); the restoration of the recursive calls is proven, not assumed,
by induction on the depth, and the zero-count branch is covered.  In
particular a failed top-level search leaves the matrix exactly as
built. -/
theorem claim10_falseRestores (RN : List Nat) (cf : Nat → Nat) (lf : Nat)
    (hdisj : ∀ n ∈ RN, cf n ∉ RN) :
    ∀ (d : Nat) (st t : St), GD RN cf lf d st →
      search d lf st = some (false, t) → t = st := by
  intro d
  induction d with
  | zero =>
    intro st t _ h
    have h0 : (none : Option (Bool × St)) = some (false, t) := h
    exact Option.noConfusion h0
  | succ d ih =>
    intro st t hGD h
    by_cases hr : st.rlink 0 = 0
    · have hstep : search (d + 1) lf st = some (true, st) := by
        show searchBody (search d lf) lf st = some (true, st)
        unfold searchBody
        rw [if_pos hr]
      rw [hstep] at h
      simp at h
    · cases hcc : chooseColumn st lf with
      | none =>
        have hstep : search (d + 1) lf st = none := by
          show searchBody (search d lf) lf st = none
          unfold searchBody
          rw [if_neg hr, hcc]
        rw [hstep] at h
        exact Option.noConfusion h
      | some o =>
        cases o with
        | none =>
          have hstep : search (d + 1) lf st = none := by
            show searchBody (search d lf) lf st = none
            unfold searchBody
            rw [if_neg hr, hcc]
          rw [hstep] at h
          exact Option.noConfusion h
        | some col =>
          by_cases hz : st.sfield col = 0
          · have hstep : search (d + 1) lf st = some (false, st) :=
              search_zero_exhausts st col d lf hr hcc hz
            rw [hstep] at h
            simp only [Option.some.injEq, Prod.mk.injEq] at h
            exact h.2.symm
          · obtain ⟨rows0, datas, hcol, hllX, hrlX, hlinked, hCL, hrows0,
              hrp0, hlp0, hdp0, hup0, hnd0, hP0, hf0, hlen, hrowsD⟩ :=
              hGD col hcc hz
            have hflatRN : ∀ j ∈ rows0.flatMap (fun p => p.2),
                j ∈ RN ∧ cf j ≠ col := by
              intro j hj
              rcases List.mem_flatMap.1 hj with ⟨p, hp, hjp⟩
              exact (hrows0 p hp).2.2.2 j hjp
            have hCL1 : CL RN cf (remRows (coverH st col) rows0) :=
              CL_coverStep RN cf st col rows0 hdisj
                (fun p hp j hj => ((hrows0 p hp).2.2.2 j hj).1) hCL
            have hfr : ∀ n, n = col ∨ (n ∈ RN ∧ cf n = col) →
                (remRows (coverH st col) rows0).dlink n = st.dlink n ∧
                (remRows (coverH st col) rows0).ulink n = st.ulink n := by
              intro n hn
              have hnc2 : ∀ j ∈ rows0.flatMap (fun p => p.2),
                  ¬ colOK RN cf (cf j) n := by
                intro j hj hc
                obtain ⟨hjRN, hjX⟩ := hflatRN j hj
                rcases hc with hc | hc
                · rcases hn with rfl | hn
                  · exact hjX hc.symm
                  · exact (hdisj j hjRN) (hc ▸ hn.1)
                · rcases hn with rfl | hn
                  · exact hcol hc.1
                  · have h2 := hn.2
                    rw [hc.2] at h2
                    exact hjX h2
              have h := remVs_frame RN cf _ (coverH st col) n
                (fun j hj => (hflatRN j hj).1) hdisj
                (by
                  intro n2 hn2
                  have h2 := hCL n2 hn2
                  rw [coverH_ulink, coverH_dlink]
                  exact h2)
                hnc2
              rw [coverH_dlink, coverH_ulink] at h
              rw [remRows_flat]
              exact h
            have hrl1 : ∀ n, n ∈ RN →
                (remRows (coverH st col) rows0).rlink n = st.rlink n := by
              intro n hn
              rw [remRows_flat, remVs_rlink, coverH_rlink_eq]
              exact upd_ne _ _ _ _ (fun hh => hllX (hh ▸ hn))
            have hll1 : ∀ n, n ∈ RN →
                (remRows (coverH st col) rows0).llink n = st.llink n := by
              intro n hn
              rw [remRows_flat, remVs_llink, coverH_llink]
              exact upd_ne _ _ _ _ (fun hh => hrlX (hh ▸ hn))
            have hunF : uncover (remRows (coverH st col) rows0) col lf =
                some st :=
              (cover_uncover_pair st col lf RN cf rows0 hdisj hcol hllX hrlX
                hlinked hCL hrows0 hrp0 hlp0 hdp0 hup0 hnd0 hP0 hf0).2
            have hheads : (rows0.zip datas).map (fun q => q.1.1) =
                rows0.map Prod.fst := by
              have h1 : (rows0.zip datas).map (fun q => q.1.1) =
                  ((rows0.zip datas).map Prod.fst).map Prod.fst := by
                rw [List.map_map]
                rfl
              rw [h1, List.map_fst_zip rows0 datas (by omega)]
            have hdata : ∀ q ∈ rows0.zip datas,
                q.1.1 ∈ RN ∧ cf q.1.1 = col ∧
                q.2.map (fun e => e.1) = q.1.2 ∧
                q.1.1 ∉ q.1.2 ∧
                covsOK RN cf lf
                  { remRows (coverH st col) rows0 with
                    solution :=
                      (remRows (coverH st col) rows0).solution ++ [q.1.1] }
                  q.2 ∧
                (∀ e ∈ q.2, e.1 ∈ RN ∧
                  (remRows (coverH st col) rows0).cfield e.1 = e.2.1) ∧
                (∀ e ∈ q.2, ∀ p ∈ e.2.2, ∀ j ∈ p.2, cf j ≠ col) ∧
                pathF (remRows (coverH st col) rows0).rlink q.1.1 q.1.2
                  q.1.1 ∧
                pathF (remRows (coverH st col) rows0).llink q.1.1
                  q.1.2.reverse q.1.1 ∧
                q.2.length < lf ∧
                (∀ u, search d lf
                    (coverSeq
                      { remRows (coverH st col) rows0 with
                        solution :=
                          (remRows (coverH st col) rows0).solution ++
                            [q.1.1] } q.2) = some (false, u) →
                  u = coverSeq
                    { remRows (coverH st col) rows0 with
                      solution :=
                        (remRows (coverH st col) rows0).solution ++
                          [q.1.1] } q.2) := by
              intro q hq
              have hq1 : q.1 ∈ rows0 := (List.of_mem_zip hq).1
              obtain ⟨hm1, hm2, hm3, hm4⟩ := hrows0 q.1 hq1
              obtain ⟨hd1, hd2, hd3, hd4, hd5, hd6⟩ := hrowsD q hq
              refine ⟨hm1, hm2, hd1, hm3, hd2, hd3, hd4, ?_, ?_, hd5,
                fun u hu => ih _ u hd6 hu⟩
              · refine pathF_congr_mem _ st.rlink _ _ _ ?_ (hrp0 q.1 hq1)
                intro n hn
                refine hrl1 n ?_
                rcases hn with rfl | hn
                · exact hm1
                · exact (hm4 n hn).1
              · refine pathF_congr_mem _ st.llink _ _ _ ?_ (hlp0 q.1 hq1)
                intro n hn
                refine hll1 n ?_
                rcases hn with rfl | hn
                · exact hm1
                · exact (hm4 n (List.mem_reverse.1 hn)).1
            have hdpath : pathF (remRows (coverH st col) rows0).dlink col
                ((rows0.zip datas).map (fun q => q.1.1)) col := by
              rw [hheads]
              refine pathF_congr_mem _ st.dlink _ _ _ ?_ hdp0
              intro n hn
              refine (hfr n ?_).1
              rcases hn with rfl | hn
              · exact Or.inl rfl
              · rcases List.mem_map.1 hn with ⟨p, hp, rfl⟩
                obtain ⟨hx1, hx2, -, -⟩ := hrows0 p hp
                exact Or.inr ⟨hx1, hx2⟩
            have hloop := searchRowLoop_exhaust col d lf RN cf hdisj hcol
              (remRows (coverH st col) rows0) st hunF hCL1
              (rows0.zip datas) col lf hdata hdpath
              (by
                rw [List.length_zip]
                omega)
            have hstep : search (d + 1) lf st =
                searchRowLoop (search d lf) col lf
                  ((remRows (coverH st col) rows0).dlink col) lf
                  (remRows (coverH st col) rows0) := by
              show searchBody (search d lf) lf st = _
              unfold searchBody
              rw [if_neg hr, hcc]
              simp only []
              rw [if_neg hz]
              rw [cover_eq st col lf RN cf rows0 hdisj hcol hllX hCL hrows0
                hrp0 hdp0 hf0]
            rw [hstep] at h
            exact hloop t h


set_option maxRecDepth 40000 in
/-- The conflict board's matrix carries the well-formedness data of the
whole depth-2 search tree: level one selects column 2 (count 1) with the
single row 9 and its mates 10, 7, 8; the branch state selects column 3
with count 0, so its level needs no data. -/
theorem GD_conflict :
    GD [7, 8, 9, 10, 11, 12, 13, 14] (buildSt conflictBoard).cfield 50 2
      (buildSt conflictBoard) := by
  intro col hcc hnz
  have h0 : chooseColumn (buildSt conflictBoard) 50 = some (some 2) := by
    decide
  rw [h0] at hcc
  have hc2 : (2 : Nat) = col := Option.some.inj (Option.some.inj hcc)
  subst hc2
  refine ⟨[(9, [10, 7, 8])],
    [[(10, 1, [(14, [11, 12, 13])]), (7, 4, []), (8, 6, [])]],
    by decide, by decide, by decide, by decide, by decide, by decide,
    by decide, by decide, by decide, by decide, by decide, by decide,
    by decide, by decide, ?_⟩
  intro q hq
  have hq2 : q = (((9 : Nat), ([10, 7, 8] : List Nat)),
      ([(10, 1, [(14, [11, 12, 13])]), (7, 4, []), (8, 6, [])] :
        List (Nat × Nat × List (Nat × List Nat)))) := by
    simpa using hq
  subst hq2
  refine ⟨by decide, by decide, by decide, by decide, by decide, ?_⟩
  intro col3 hcc3 hnz3
  have h3 : chooseColumn (coverSeq
      { remRows (coverH (buildSt conflictBoard) 2) [(9, [10, 7, 8])] with
        solution := (remRows (coverH (buildSt conflictBoard) 2)
          [(9, [10, 7, 8])]).solution ++ [9] }
      [(10, 1, [(14, [11, 12, 13])]), (7, 4, []), (8, 6, [])]) 50 =
      some (some 3) := by decide
  rw [h3] at hcc3
  have hc3 : (3 : Nat) = col3 := Option.some.inj (Option.some.inj hcc3)
  rw [← hc3] at hnz3
  exact absurd (by decide) hnz3

set_option maxRecDepth 40000 in
/-- Witness for C10 at the conflict board: the depth-2 search on the
built matrix fails, and the theorem forces the state it hands back —
extracted from the run itself — to be exactly the built state. -/
theorem claim10_falseRestores_witness :
    search 2 50 (buildSt conflictBoard) =
      some (false, buildSt conflictBoard) := by
  have heq : ((search 2 50 (buildSt conflictBoard)).getD
      (true, initSt)).2 = buildSt conflictBoard :=
    claim10_falseRestores [7, 8, 9, 10, 11, 12, 13, 14]
      (buildSt conflictBoard).cfield 50 (by decide) 2
      (buildSt conflictBoard)
      (((search 2 50 (buildSt conflictBoard)).getD (true, initSt)).2)
      GD_conflict rfl
  exact (show search 2 50 (buildSt conflictBoard) = some (false,
    ((search 2 50 (buildSt conflictBoard)).getD (true, initSt)).2)
    from rfl).trans (by rw [heq])
